import Mathlib

/-!
# Generic C library: `vector.c` and `hashset.c`

Shallow embedding of the resizable vector and the bucketed hash set.

Modelling conventions.
* The heap block behind `v->elems` is a list of bytes; an address inside the
  block is a byte offset from its start, and `NULL` is `none`.
* A record handed in by the caller (`elemAddr`, `key`) is the list of bytes
  found at that address.
* `assert` failures abort the process: a function containing a reachable
  `assert` returns `Option`, and `none` is the abort.
* `int` values are mathematical integers: signed overflow is undefined in C
  and the allocator is taken to succeed (the source asserts it).  Fields that
  the source keeps non-negative are natural numbers, arguments that the source
  range-checks are integers.
* The functions of the section on allocation (`Heap.VectorNew`,
  `Heap.DoubleCapacity` and their callers) carry the assertions on the blocks
  returned by `malloc` and `realloc`: the allocator is a parameter, and the
  size it is asked for is the `int` product as the compiled code passes it on,
  wrapped to 32 bits and converted to `size_t`.  The claims about which calls
  abort are settled on them; where every allocation succeeds they agree with
  the functions without the parameter.
* Fresh bytes delivered by `malloc` and `realloc` are indeterminate in C; the
  model fills them with `0`.
* `memcpy`, `memmove`, `realloc`, `lfind`, `bsearch` and `qsort` belong to the
  C library; they are modelled by their standard behaviour.
* The effect of the caller's free function is recorded in a trace of the
  records it has been applied to.
* A map function receives the bytes of an element and the auxiliary data and
  returns both as it leaves them; it cannot reach the vector itself.
-/

namespace GenericC

/-- One byte of memory. -/
abbrev Byte := Nat

/-- The bytes of one element. -/
abbrev Record := List Byte

/-- Three-way comparison function over records (`VectorCompareFunction`). -/
abbrev CompareFunction := Record → Record → Int

/-- Hash function of the set: record and bucket count to bucket number. -/
abbrev HashFunction := Record → Int → Int

/-- The bytes behind an `auxData` pointer. -/
abbrev AuxData := List Byte

/-- Map function (`VectorMapFunction`, `HashSetMapFunction`): called on the
address of an element and on `auxData`, it may rewrite the bytes of the
element and the auxiliary data; the value is both after the call. -/
abbrev MapFunction := Record → AuxData → Record × AuxData

/-! ## C library routines -/

/-- The `size` bytes found at byte offset `addr` of a block. -/
def load (mem : List Byte) (addr size : Nat) : Record :=
  (mem.drop addr).take size

/-- C `memcpy(dest, src, n)` where `dest` is an offset into `mem` and `src`
the bytes behind the source address. -/
def memcpy (mem : List Byte) (dest : Nat) (src : List Byte) (n : Nat) : List Byte :=
  mem.take dest ++ src.take n ++ mem.drop (dest + n)

/-- C `memmove(dest, src, n)` with both addresses inside `mem`. -/
def memmove (mem : List Byte) (dest src n : Nat) : List Byte :=
  memcpy mem dest (mem.drop src) n

/-- C `realloc(p, size)`: the old contents up to `size`, then fresh bytes. -/
def realloc (mem : List Byte) (size : Nat) : List Byte :=
  mem.take size ++ List.replicate (size - mem.length) 0

/-- Loop of `lfind`: `n` elements remain, the next one has index `i`. -/
def lfindLoop (key : Record) (mem : List Byte) (base size : Nat) (compar : CompareFunction) :
    Nat → Nat → Option Nat
  | 0, _ => none
  | n + 1, i =>
    if compar key (load mem (base + i * size) size) = 0 then some (base + i * size)
    else lfindLoop key mem base size compar n (i + 1)

/-- POSIX `lfind(key, base, &nmemb, size, compar)`: address of the first
element comparing equal to `key`, or `NULL`. -/
def lfind (key : Record) (mem : List Byte) (base nmemb size : Nat)
    (compar : CompareFunction) : Option Nat :=
  lfindLoop key mem base size compar nmemb 0

/-- Loop of `bsearch` over the index interval `[l, u)`; `fuel` bounds the
number of iterations. -/
def bsearchLoop (key : Record) (mem : List Byte) (base size : Nat) (compar : CompareFunction) :
    Nat → Nat → Nat → Option Nat
  | 0, _, _ => none
  | fuel + 1, l, u =>
    if l < u then
      let idx := (l + u) / 2
      let comparison := compar key (load mem (base + idx * size) size)
      if comparison < 0 then bsearchLoop key mem base size compar fuel l idx
      else if comparison > 0 then bsearchLoop key mem base size compar fuel (idx + 1) u
      else some (base + idx * size)
    else none

/-- C `bsearch(key, base, nmemb, size, compar)`: interval halving; the
interval shrinks in every round, so `nmemb` rounds are enough. -/
def bsearch (key : Record) (mem : List Byte) (base nmemb size : Nat)
    (compar : CompareFunction) : Option Nat :=
  bsearchLoop key mem base size compar nmemb 0 nmemb

/-- Insertion of one record into a list ordered by `compar`. -/
def orderedInsert (compar : CompareFunction) (a : Record) : List Record → List Record
  | [] => [a]
  | b :: l => if compar a b ≤ 0 then a :: b :: l else b :: orderedInsert compar a l

/-- Sorting of a list of records by `compar`. -/
def sortRecords (compar : CompareFunction) : List Record → List Record
  | [] => []
  | a :: l => orderedInsert compar a (sortRecords compar l)

/-- The first `nmemb` elements of width `size` of a block. -/
def elements (mem : List Byte) (nmemb size : Nat) : List Record :=
  (List.range nmemb).map (fun i => load mem (i * size) size)

/-- C `qsort(base, nmemb, size, compar)` applied to the start of a block: the
first `nmemb` elements are put in ascending order, the rest is untouched. -/
def qsort (mem : List Byte) (nmemb size : Nat) (compar : CompareFunction) : List Byte :=
  (sortRecords compar (elements mem nmemb size)).flatten ++ mem.drop (nmemb * size)

/-! ## vector.c -/

/-- The `vector` struct, with the trace `freed` of the calls to `freefn`. -/
structure vector where
  /-- heap block of `allocLength * elemSize` bytes -/
  elems : List Byte
  elemSize : Nat
  logLength : Nat
  allocLength : Nat
  /-- True when `freefn != NULL`. -/
  freefn : Bool
  /-- records the free function has been called on, oldest first -/
  freed : List Record
deriving DecidableEq, Repr

/-- Default allocation value. -/
def defaultVectorAlloc : Int := 4

/-- Not found sentinel. -/
def kNotFound : Int := -1

/-- Source `VectorNew` in a run where `malloc` returns a block of
`initialAllocation * elemSize` bytes; `Heap.VectorNew` carries the assertion
on that block. -/
def VectorNew (elemSize : Int) (freeFn : Bool) (initialAllocation : Int) : Option vector :=
  let initialAllocation := if initialAllocation = 0 then defaultVectorAlloc else initialAllocation
  if elemSize > 0 ∧ initialAllocation > 0 then
    some { elemSize := elemSize.toNat
           allocLength := initialAllocation.toNat
           logLength := 0
           elems := List.replicate (initialAllocation.toNat * elemSize.toNat) 0
           freefn := freeFn
           freed := [] }
  else none

/-- Source `DoubleCapacity` in a run where `realloc` returns a block of the
doubled size; `Heap.DoubleCapacity` carries the assertion on that block. -/
def DoubleCapacity (v : vector) : vector :=
  let allocLength := v.allocLength * 2
  { v with allocLength := allocLength, elems := realloc v.elems (allocLength * v.elemSize) }

/-- Source `VectorLength`. -/
def VectorLength (v : vector) : Int :=
  v.logLength

/-- Source `VectorNth`: the address of the element, as an offset into `elems`. -/
def VectorNth (v : vector) (position : Int) : Option Nat :=
  if position < v.logLength ∧ position ≥ 0 then
    some (position.toNat * v.elemSize)
  else none

/-- Call of `v->freefn` on the element at `addr`, when a free function is set. -/
def callFree (v : vector) (addr : Nat) : vector :=
  if v.freefn then { v with freed := v.freed ++ [load v.elems addr v.elemSize] } else v

/-- Source `VectorReplace`. -/
def VectorReplace (v : vector) (elemAddr : Record) (position : Int) : Option vector :=
  if position ≥ 0 ∧ position < v.logLength then
    let destAddr := position.toNat * v.elemSize
    let v := callFree v destAddr
    some { v with elems := memcpy v.elems destAddr elemAddr v.elemSize }
  else none

/-- Source `VectorAppend`. -/
def VectorAppend (v : vector) (elemAddr : Record) : vector :=
  let v := if v.logLength = v.allocLength then DoubleCapacity v else v
  let destAddr := v.logLength * v.elemSize
  { v with elems := memcpy v.elems destAddr elemAddr v.elemSize, logLength := v.logLength + 1 }

/-- Source `VectorInsert`. -/
def VectorInsert (v : vector) (elemAddr : Record) (position : Int) : Option vector :=
  if position ≥ 0 ∧ position ≤ v.logLength then
    if position = v.logLength then some (VectorAppend v elemAddr)
    else
      let v := if v.logLength = v.allocLength then DoubleCapacity v else v
      let startShiftAddr := position.toNat * v.elemSize
      let endShiftAddr := (position.toNat + 1) * v.elemSize
      let blockSize := (v.logLength - position.toNat) * v.elemSize
      let elems := memmove v.elems endShiftAddr startShiftAddr blockSize
      let elems := memcpy elems startShiftAddr elemAddr v.elemSize
      some { v with elems := elems, logLength := v.logLength + 1 }
  else none

/-- Source `VectorDelete`. -/
def VectorDelete (v : vector) (position : Int) : Option vector :=
  if position ≥ 0 ∧ position < v.logLength then
    if position = v.logLength then some { v with logLength := v.logLength - 1 }
    else
      let startShiftAddr := (position.toNat + 1) * v.elemSize
      let endShiftAddr := position.toNat * v.elemSize
      let blockSize := (v.logLength - position.toNat - 1) * v.elemSize
      let v := callFree v endShiftAddr
      some { v with elems := memmove v.elems endShiftAddr startShiftAddr blockSize,
                    logLength := v.logLength - 1 }
  else none

/-- Source `VectorSort`. -/
def VectorSort (v : vector) (compare : CompareFunction) : vector :=
  { v with elems := qsort v.elems v.logLength v.elemSize compare }

/-- Loop of `VectorMap`: `n` elements remain, the next one has index `i`. -/
def VectorMapLoop (mapFn : MapFunction) (elemSize : Nat) :
    Nat → Nat → List Byte → AuxData → List Byte × AuxData
  | 0, _, elems, auxData => (elems, auxData)
  | n + 1, i, elems, auxData =>
    let currAddr := i * elemSize
    let out := mapFn (load elems currAddr elemSize) auxData
    VectorMapLoop mapFn elemSize n (i + 1) (memcpy elems currAddr out.1 elemSize) out.2

/-- Source `VectorMap`: the vector and the auxiliary data after the
traversal. -/
def VectorMap (v : vector) (mapFn : MapFunction) (auxData : AuxData) : vector × AuxData :=
  let out := VectorMapLoop mapFn v.elemSize v.logLength 0 v.elems auxData
  ({ v with elems := out.1 }, out.2)

/-- Source `GetIndex`: both addresses are offsets into the same block, so the
difference of their integer casts is the difference of the offsets.  The found
address is never below the start address, so the division is one of
non-negative numbers, where C and Lean agree. -/
def GetIndex (v : vector) (found : Nat) (startIndex : Nat) : Int :=
  let startAddr := startIndex * v.elemSize
  let start : Int := startAddr
  let foundAddr : Int := found
  let diff := (foundAddr - start) / v.elemSize
  diff

/-- Source `BinarySearchVector`. -/
def BinarySearchVector (v : vector) (key : Record) (searchFn : CompareFunction)
    (startIndex : Nat) (size : Nat) : Option Nat :=
  bsearch key v.elems (startIndex * v.elemSize) size v.elemSize searchFn

/-- Source `LinearSearchVector`. -/
def LinearSearchVector (v : vector) (key : Record) (searchFn : CompareFunction)
    (startIndex : Nat) (size : Nat) : Option Nat :=
  lfind key v.elems (startIndex * v.elemSize) size v.elemSize searchFn

/-- Source `VectorSearch`.  The source does not check `startIndex`; the model
covers `0 ≤ startIndex ≤ logLength`, where `size` does not wrap.  The
assertion `searchFn != NULL || key != NULL` holds for every function. -/
def VectorSearch (v : vector) (key : Record) (searchFn : CompareFunction)
    (startIndex : Nat) (isSorted : Bool) : Int :=
  let size := v.logLength - startIndex
  let found :=
    if isSorted then BinarySearchVector v key searchFn startIndex size
    else LinearSearchVector v key searchFn startIndex size
  match found with
  | none => kNotFound
  | some found => GetIndex v found startIndex

/-! ## hashset.c -/

/-- The `hashset` struct. -/
structure hashset where
  buckets : List vector
  elemSize : Nat
  numBuckets : Nat
  elemCount : Nat
  hashfn : HashFunction
  compfn : CompareFunction
  /-- True when `freefn != NULL`. -/
  freefn : Bool

/-- Loop of `HashSetNew` creating the first `n` buckets. -/
def newBuckets (elemSize : Int) (freefn : Bool) : Nat → Option (List vector)
  | 0 => some []
  | n + 1 =>
    match newBuckets elemSize freefn n with
    | none => none
    | some bs =>
      match VectorNew elemSize freefn defaultVectorAlloc with
      | none => none
      | some b => some (bs ++ [b])

/-- Source `HashSetNew`. -/
def HashSetNew (elemSize numBuckets : Int) (hashfn : HashFunction)
    (comparefn : CompareFunction) (freefn : Bool) : Option hashset :=
  if elemSize > 0 ∧ numBuckets > 0 then
    match newBuckets elemSize freefn numBuckets.toNat with
    | none => none
    | some bs =>
      some { elemSize := elemSize.toNat
             numBuckets := numBuckets.toNat
             elemCount := 0
             hashfn := hashfn
             compfn := comparefn
             freefn := freefn
             buckets := bs }
  else none

/-- Source `HashSetCount`. -/
def HashSetCount (h : hashset) : Int :=
  h.elemCount

/-- Loop of `HashSetMap` over the buckets, in bucket order. -/
def HashSetMapLoop (mapfn : MapFunction) : List vector → AuxData → List vector × AuxData
  | [], auxData => ([], auxData)
  | b :: bs, auxData =>
    let out := VectorMap b mapfn auxData
    let rest := HashSetMapLoop mapfn bs out.2
    (out.1 :: rest.1, rest.2)

/-- Source `HashSetMap`: the set and the auxiliary data after the traversal
of its `numBuckets` buckets. -/
def HashSetMap (h : hashset) (mapfn : MapFunction) (auxData : AuxData) : hashset × AuxData :=
  let out := HashSetMapLoop mapfn h.buckets auxData
  ({ h with buckets := out.1 }, out.2)

/-- Source `GetHashNum`. -/
def GetHashNum (h : hashset) (elemAddr : Record) : Option Nat :=
  let hashNum := h.hashfn elemAddr h.numBuckets
  if hashNum ≥ 0 ∧ hashNum < h.numBuckets then some hashNum.toNat else none

/-- Source `HashSetEnter`.  After the assertion of `GetHashNum` the bucket
`h->buckets[hashNum]` exists whenever the set has its `numBuckets` buckets. -/
def HashSetEnter (h : hashset) (elemAddr : Record) : Option hashset :=
  match GetHashNum h elemAddr with
  | none => none
  | some hashNum =>
    match h.buckets[hashNum]? with
    | none => none
    | some bucket =>
      let index := VectorSearch bucket elemAddr h.compfn 0 false
      if index = kNotFound then
        some { h with buckets := h.buckets.set hashNum (VectorAppend bucket elemAddr),
                      elemCount := h.elemCount + 1 }
      else
        match VectorReplace bucket elemAddr index with
        | none => none
        | some bucket => some { h with buckets := h.buckets.set hashNum bucket }

/-- Source `HashSetLookup`: the new state (the bucket is sorted in place) and
the address of the element inside bucket `hashNum`, `none` for `NULL`. -/
def HashSetLookup (h : hashset) (elemAddr : Record) : Option (hashset × Option Nat) :=
  match GetHashNum h elemAddr with
  | none => none
  | some hashNum =>
    match h.buckets[hashNum]? with
    | none => none
    | some bucket =>
      let bucket := VectorSort bucket h.compfn
      let h := { h with buckets := h.buckets.set hashNum bucket }
      let index := VectorSearch bucket elemAddr h.compfn 0 true
      if index = kNotFound then some (h, none)
      else
        match VectorNth bucket index with
        | none => none
        | some addr => some (h, some addr)

/-! ## Allocation: the assertions on `malloc` and `realloc` -/

/-- An allocator: for a request of `size` bytes, whether `malloc` or `realloc`
returns a block and not `NULL`. -/
abbrev Allocator := Nat → Bool

/-- Largest value of an `int`. -/
def INT_MAX : Int := 2147483647

/-- Largest object size on the 64-bit platform. -/
def PTRDIFF_MAX : Nat := 9223372036854775807

/-- An allocator of the 64-bit platform: no request above `PTRDIFF_MAX` is
served. -/
def Allocator.Bounded (heap : Allocator) : Prop :=
  ∀ size, heap size = true → size ≤ PTRDIFF_MAX

/-- The allocator that serves every request up to `PTRDIFF_MAX`. -/
def roomyHeap : Allocator :=
  fun size => decide (size ≤ PTRDIFF_MAX)

/-- An exhausted allocator: every request returns `NULL`. -/
def exhaustedHeap : Allocator :=
  fun _ => false

/-- Value of an `int` expression as the compiled code computes it: the
mathematical value wrapped to 32-bit two's complement. -/
def intWrap (n : Int) : Int :=
  (n + 2147483648) % 4294967296 - 2147483648

/-- Conversion of an `int` to the 64-bit `size_t`. -/
def toSizeT (n : Int) : Nat :=
  (n % 18446744073709551616).toNat

/-- The `size_t` argument that the `int` expression `count * elemSize` hands
to `malloc` or `realloc`. -/
def allocSize (count elemSize : Int) : Nat :=
  toSizeT (intWrap (count * elemSize))

/-- Source `VectorNew`, with the assertion on the block returned by
`malloc`. -/
def Heap.VectorNew (heap : Allocator) (elemSize : Int) (freeFn : Bool)
    (initialAllocation : Int) : Option vector :=
  let initialAllocation := if initialAllocation = 0 then defaultVectorAlloc else initialAllocation
  if elemSize > 0 ∧ initialAllocation > 0 then
    let size := allocSize initialAllocation elemSize
    if heap size then
      some { elemSize := elemSize.toNat
             allocLength := initialAllocation.toNat
             logLength := 0
             elems := List.replicate size 0
             freefn := freeFn
             freed := [] }
    else none
  else none

/-- Source `DoubleCapacity`, with the assertion on the block returned by
`realloc`. -/
def Heap.DoubleCapacity (heap : Allocator) (v : vector) : Option vector :=
  let allocLength := v.allocLength * 2
  let size := allocSize allocLength v.elemSize
  if heap size then
    some { v with allocLength := allocLength, elems := realloc v.elems size }
  else none

/-- The capacity check that opens `VectorAppend` and `VectorInsert`, with the
assertion of `DoubleCapacity`. -/
def Heap.ensureRoom (heap : Allocator) (v : vector) : Option vector :=
  if v.logLength = v.allocLength then Heap.DoubleCapacity heap v else some v

/-- Source `VectorAppend`, with the assertion of `DoubleCapacity`. -/
def Heap.VectorAppend (heap : Allocator) (v : vector) (elemAddr : Record) : Option vector :=
  match Heap.ensureRoom heap v with
  | none => none
  | some v =>
    let destAddr := v.logLength * v.elemSize
    some { v with elems := memcpy v.elems destAddr elemAddr v.elemSize,
                  logLength := v.logLength + 1 }

/-- Source `VectorInsert`, with the assertion of `DoubleCapacity`. -/
def Heap.VectorInsert (heap : Allocator) (v : vector) (elemAddr : Record) (position : Int) :
    Option vector :=
  if position ≥ 0 ∧ position ≤ v.logLength then
    if position = v.logLength then Heap.VectorAppend heap v elemAddr
    else
      match Heap.ensureRoom heap v with
      | none => none
      | some v =>
        let startShiftAddr := position.toNat * v.elemSize
        let endShiftAddr := (position.toNat + 1) * v.elemSize
        let blockSize := (v.logLength - position.toNat) * v.elemSize
        let elems := memmove v.elems endShiftAddr startShiftAddr blockSize
        let elems := memcpy elems startShiftAddr elemAddr v.elemSize
        some { v with elems := elems, logLength := v.logLength + 1 }
  else none

/-- Loop of `HashSetNew` creating the first `n` buckets, with the assertion of
`VectorNew`. -/
def Heap.newBuckets (heap : Allocator) (elemSize : Int) (freefn : Bool) :
    Nat → Option (List vector)
  | 0 => some []
  | n + 1 =>
    match Heap.newBuckets heap elemSize freefn n with
    | none => none
    | some bs =>
      match Heap.VectorNew heap elemSize freefn defaultVectorAlloc with
      | none => none
      | some b => some (bs ++ [b])

/-- Source `HashSetNew`, with the assertions of `VectorNew`.  The size of the
`vector` struct comes from the header and is a parameter.  The source does not
check the block of the bucket array: with `NULL` the first `VectorNew` writes
through it and the process dies, which is the abort here. -/
def Heap.HashSetNew (heap : Allocator) (sizeofVector : Nat) (elemSize numBuckets : Int)
    (hashfn : HashFunction) (comparefn : CompareFunction) (freefn : Bool) : Option hashset :=
  if elemSize > 0 ∧ numBuckets > 0 then
    if heap (sizeofVector * numBuckets.toNat % 18446744073709551616) then
      match Heap.newBuckets heap elemSize freefn numBuckets.toNat with
      | none => none
      | some bs =>
        some { elemSize := elemSize.toNat
               numBuckets := numBuckets.toNat
               elemCount := 0
               hashfn := hashfn
               compfn := comparefn
               freefn := freefn
               buckets := bs }
    else none
  else none

/-- Source `HashSetEnter`, with the assertion of `DoubleCapacity` behind
`VectorAppend`. -/
def Heap.HashSetEnter (heap : Allocator) (h : hashset) (elemAddr : Record) : Option hashset :=
  match GetHashNum h elemAddr with
  | none => none
  | some hashNum =>
    match h.buckets[hashNum]? with
    | none => none
    | some bucket =>
      let index := VectorSearch bucket elemAddr h.compfn 0 false
      if index = kNotFound then
        match Heap.VectorAppend heap bucket elemAddr with
        | none => none
        | some bucket =>
          some { h with buckets := h.buckets.set hashNum bucket,
                        elemCount := h.elemCount + 1 }
      else
        match VectorReplace bucket elemAddr index with
        | none => none
        | some bucket => some { h with buckets := h.buckets.set hashNum bucket }

/-! ## Abstraction: the live records of a vector -/

/-- The live records of a vector, in order. -/
def records (v : vector) : List Record :=
  elements v.elems v.logLength v.elemSize

/-- Representation invariant of a vector created by `VectorNew`. -/
structure vector.WF (v : vector) : Prop where
  elemSize_pos : 0 < v.elemSize
  alloc_pos : 0 < v.allocLength
  log_le : v.logLength ≤ v.allocLength
  block : v.elems.length = v.allocLength * v.elemSize

/-- Little-endian 32-bit record of a number. -/
def int32 (n : Nat) : Record :=
  [n % 256, n / 256 % 256, n / 65536 % 256, n / 16777216 % 256]

/-! ## Auxiliary definitions -/

/-- The vector after the capacity check that opens `VectorAppend` and
`VectorInsert`. -/
def grown (v : vector) : vector :=
  if v.logLength = v.allocLength then DoubleCapacity v else v

/-- The list obtained by putting `r` in front of position `p`. -/
def insertAt (l : List Record) (p : Nat) (r : Record) : List Record :=
  l.take p ++ r :: l.drop p

/-- The bytes behind the address `VectorNth v i`. -/
def recordAt (v : vector) (i : Nat) : Record :=
  load v.elems (i * v.elemSize) v.elemSize

/-- A three-way comparison function that is a total order on records: equal
to itself, sign-reversing when the arguments are swapped, and transitive.
Records that compare equal (result `0`) form the classes of equal keys. -/
structure TotalOrder (compar : CompareFunction) : Prop where
  refl : ∀ a, compar a a = 0
  swap : ∀ a b, compar a b < 0 ↔ 0 < compar b a
  trans : ∀ a b c, compar a b ≤ 0 → compar b c ≤ 0 → compar a c ≤ 0

/-! ## Contracts, invariants and runs of the hash set -/

/-- Contract of the capabilities handed to `HashSetNew`: the hash value lies
in `[0, numBuckets)`, records that compare equal hash alike, and the
comparison function is a total order. -/
structure Capabilities (hashfn : HashFunction) (compfn : CompareFunction) (numBuckets : Int) :
    Prop where
  range : ∀ r, 0 ≤ hashfn r numBuckets ∧ hashfn r numBuckets < numBuckets
  respects : ∀ a b, compfn a b = 0 → hashfn a numBuckets = hashfn b numBuckets
  order : TotalOrder compfn

/-- Sum of the `logLength` of the buckets. -/
def totalLength (bs : List vector) : Nat :=
  (bs.map (fun b => b.logLength)).sum

/-- Representation invariant of a hash set: `numBuckets` well-formed buckets
of the set's element size, `elemCount` the sum of their lengths, every record
in the bucket its hash names, and no two records of a bucket comparing
equal. -/
structure hashset.Inv (h : hashset) : Prop where
  len : h.buckets.length = h.numBuckets
  wf : ∀ b ∈ h.buckets, b.WF ∧ b.elemSize = h.elemSize
  count : h.elemCount = totalLength h.buckets
  route : ∀ (i : Nat) (b : vector), h.buckets[i]? = some b →
    ∀ x ∈ records b, h.hashfn x h.numBuckets = (i : Int)
  nodup : ∀ b ∈ h.buckets, (records b).Pairwise (fun x y => h.compfn x y ≠ 0)

/-- A record is stored in the set: it is a live record of some bucket. -/
def Stored (h : hashset) (x : Record) : Prop :=
  ∃ b ∈ h.buckets, x ∈ records b

/-- Some stored record compares equal to the key `k`. -/
def HasKey (h : hashset) (k : Record) : Prop :=
  ∃ x, Stored h x ∧ h.compfn k x = 0

/-- A call on a hash set. -/
inductive SetCall where
  | enter (elemAddr : Record)
  | lookup (elemAddr : Record)

/-- The state after a sequence of `HashSetEnter` and `HashSetLookup` calls. -/
def runCalls : hashset → List SetCall → Option hashset
  | h, [] => some h
  | h, SetCall.enter r :: cs =>
    match HashSetEnter h r with
    | none => none
    | some h1 => runCalls h1 cs
  | h, SetCall.lookup k :: cs =>
    match HashSetLookup h k with
    | none => none
    | some (h1, _) => runCalls h1 cs

/-- The records entered by a sequence of calls, oldest first. -/
def entered : List SetCall → List Record
  | [] => []
  | SetCall.enter r :: cs => r :: entered cs
  | SetCall.lookup _ :: cs => entered cs

/-- The state after a sequence of `HashSetEnter` calls. -/
def enterAll : hashset → List Record → Option hashset
  | h, [] => some h
  | h, r :: rs =>
    match HashSetEnter h r with
    | none => none
    | some h1 => enterAll h1 rs

/-- Number of distinct keys in a list of records: the records that no later
record of the list compares equal to, one per class. -/
def distinctKeys (compar : CompareFunction) : List Record → Nat
  | [] => 0
  | r :: rs => (if ∃ x ∈ rs, compar r x = 0 then 0 else 1) + distinctKeys compar rs

/-! ## Runs of hash set calls with `HashSetMap` -/

/-- A call on a hash set: `HashSetEnter`, `HashSetLookup` or `HashSetMap`. -/
inductive SetOp where
  | enter (elemAddr : Record)
  | lookup (elemAddr : Record)
  | map (mapfn : MapFunction) (auxData : AuxData)

/-- The set after one call; `none` when the call aborts. -/
def SetOp.apply (h : hashset) : SetOp → Option hashset
  | SetOp.enter r => HashSetEnter h r
  | SetOp.lookup k =>
    match HashSetLookup h k with
    | none => none
    | some (h1, _) => some h1
  | SetOp.map mapfn auxData => some (HashSetMap h mapfn auxData).1

/-- The set after a sequence of calls, each of them successful. -/
def runOps : hashset → List SetOp → Option hashset
  | h, [] => some h
  | h, c :: cs =>
    match SetOp.apply h c with
    | none => none
    | some h1 => runOps h1 cs

/-- A call that keeps records routable: an entered record has the element
size of the set, and a map function leaves the width and the hash of every
record unchanged. -/
def SetOp.KeepsRouting (hashfn : HashFunction) (numBuckets elemSize : Int) : SetOp → Prop
  | SetOp.enter r => (r.length : Int) = elemSize
  | SetOp.lookup _ => True
  | SetOp.map mapfn _ =>
    ∀ r a, (mapfn r a).1.length = r.length ∧
      hashfn (mapfn r a).1 numBuckets = hashfn r numBuckets

/-- Routing part of the set invariant: `numBuckets` well-formed buckets of the
set's element size, every record in the bucket its hash names. -/
structure hashset.Routed (h : hashset) : Prop where
  len : h.buckets.length = h.numBuckets
  wf : ∀ b ∈ h.buckets, b.WF ∧ b.elemSize = h.elemSize
  route : ∀ (i : Nat) (b : vector), h.buckets[i]? = some b →
    ∀ x ∈ records b, h.hashfn x h.numBuckets = (i : Int)

/-! ## Runs of vector calls -/

/-- A call on a vector. -/
inductive VectorCall where
  | append (elemAddr : Record)
  | insert (elemAddr : Record) (position : Int)
  | replace (elemAddr : Record) (position : Int)
  | delete (position : Int)
  | sort (compare : CompareFunction)
  | map (mapFn : MapFunction) (auxData : AuxData)
  | search (key : Record) (searchFn : CompareFunction) (startIndex : Nat) (isSorted : Bool)

/-- The vector after one call; `none` when the call aborts. -/
def VectorCall.apply (v : vector) : VectorCall → Option vector
  | VectorCall.append r => some (VectorAppend v r)
  | VectorCall.insert r position => VectorInsert v r position
  | VectorCall.replace r position => VectorReplace v r position
  | VectorCall.delete position => VectorDelete v position
  | VectorCall.sort compare => some (VectorSort v compare)
  | VectorCall.map mapFn auxData => some (VectorMap v mapFn auxData).1
  | VectorCall.search _ _ _ _ => some v

/-- The vector after a sequence of calls, each of them successful. -/
def runVector : vector → List VectorCall → Option vector
  | v, [] => some v
  | v, c :: cs =>
    match VectorCall.apply v c with
    | none => none
    | some v1 => runVector v1 cs

/-! ## Concrete data for the examples -/

/-- Number encoded by a little-endian 32-bit record. -/
def int32Value (r : Record) : Int :=
  (r.getD 0 0 + 256 * r.getD 1 0 + 65536 * r.getD 2 0 + 16777216 * r.getD 3 0 : Nat)

/-- Comparison of two 32-bit records by their numbers. -/
def compareInt32 : CompareFunction :=
  fun a b => int32Value a - int32Value b

/-- Hash of a 32-bit record: its number modulo the bucket count. -/
def hashInt32 : HashFunction :=
  fun r numBuckets => int32Value r % numBuckets

/-- A fresh vector of 32-bit records with capacity 4, as `VectorNew 4 NULL 4`
leaves it. -/
def fresh4 : vector :=
  { elems := List.replicate 16 0, elemSize := 4, logLength := 0, allocLength := 4,
    freefn := false, freed := [] }

/-- The vector `fresh4` after appending 1, 2, 3, 4. -/
def filled4 : vector :=
  [int32 1, int32 2, int32 3, int32 4].foldl VectorAppend fresh4

/-- A vector holding the 32-bit records 5, 9. -/
def pair59 : vector :=
  [int32 5, int32 9].foldl VectorAppend fresh4

/-- A vector holding the 32-bit records 9, 5. -/
def pair95 : vector :=
  [int32 9, int32 5].foldl VectorAppend fresh4

/-- A fresh set of 32-bit records with 4 buckets and hash `value % 4`, as
`HashSetNew 4 4 hashInt32 compareInt32 NULL` leaves it. -/
def freshSet : hashset :=
  { buckets := List.replicate 4 fresh4, elemSize := 4, numBuckets := 4, elemCount := 0,
    hashfn := hashInt32, compfn := compareInt32, freefn := false }

/-- The set `freshSet` after Enter(5), Enter(9): both records are in bucket 1. -/
def set59 : hashset :=
  { freshSet with buckets := [fresh4, pair59, fresh4, fresh4], elemCount := 2 }

/-- Comparison of keyed records: the first byte is the key, the other bytes
are payload. -/
def compareKey : CompareFunction :=
  fun a b => (a.getD 0 0 : Int) - (b.getD 0 0 : Int)

/-- Hash of a keyed record: its key modulo the bucket count. -/
def hashKey : HashFunction :=
  fun r numBuckets => (r.getD 0 0 : Int) % numBuckets

/-- A fresh set of keyed 4-byte records with 4 buckets. -/
def freshKeyed : hashset :=
  { freshSet with hashfn := hashKey, compfn := compareKey }

/-- The set `freshKeyed` after entering the records with keys 5 and 9. -/
def keyed59 : hashset :=
  { freshKeyed with buckets := [fresh4, pair59, fresh4, fresh4], elemCount := 2 }

/-- The bytes behind the address returned by `HashSetLookup`: `some none` for
`NULL`, and `none` when the call aborts. -/
def lookupBytes (h : hashset) (key : Record) : Option (Option Record) :=
  match GetHashNum h key, HashSetLookup h key with
  | some i, some (h1, some addr) =>
    (h1.buckets[i]?).map (fun b => some (load b.elems addr h.elemSize))
  | _, some (_, none) => some none
  | _, _ => none

/-- Hash of a keyed record that looks at the payload: the second byte modulo
the bucket count.  It does not respect `compareKey`. -/
def hashPayload : HashFunction :=
  fun r numBuckets => (r.getD 1 0 : Int) % numBuckets

/-- A fresh set of keyed records hashed by `hashPayload`. -/
def freshPayload : hashset :=
  { freshSet with hashfn := hashPayload, compfn := compareKey }

/-- The set `freshPayload` after entering `[5, 0, 0, 0]` and `[5, 1, 0, 0]`. -/
def payloadTwice : hashset :=
  { freshPayload with
    buckets := [VectorAppend fresh4 [5, 0, 0, 0], VectorAppend fresh4 [5, 1, 0, 0], fresh4, fresh4]
    elemCount := 2 }

/-- A run through the seven kinds of vector calls. -/
def sampleCalls : List VectorCall :=
  [VectorCall.append (int32 9), VectorCall.append (int32 5), VectorCall.insert (int32 7) 1,
   VectorCall.sort compareInt32, VectorCall.replace (int32 8) 2, VectorCall.delete 0,
   VectorCall.map (fun r a => (r, a ++ r)) [],
   VectorCall.search (int32 8) compareInt32 0 false]

/-- The vector `fresh4` after `sampleCalls`: it holds 7, 8. -/
def sampleResult : vector :=
  { elems := [7, 0, 0, 0, 8, 0, 0, 0, 8, 0, 0, 0, 0, 0, 0, 0], elemSize := 4, logLength := 2,
    allocLength := 4, freefn := false, freed := [] }

/-- A set of 32-bit records whose bucket 1 holds 9, 5 in this order. -/
def set95 : hashset :=
  { freshSet with buckets := [fresh4, pair95, fresh4, fresh4], elemCount := 2 }

/-- A map function that adds 1 to every 32-bit record. -/
def increment : MapFunction :=
  fun r auxData => (int32 ((int32Value r).toNat + 1), auxData)

/-- The bucket holding the single 32-bit record 6. -/
def bucketSix : vector :=
  { fresh4 with elems := [6, 0, 0, 0, 0, 0, 0, 0, 0, 0, 0, 0, 0, 0, 0, 0], logLength := 1 }

/-- The set `freshSet` after Enter(5) and a `HashSetMap` with `increment`:
bucket 1 holds the record 6. -/
def setSix : hashset :=
  { freshSet with buckets := [fresh4, bucketSix, fresh4, fresh4], elemCount := 1 }

/-- A map function that writes 7 into the second byte of a record, part of
the payload of a keyed record. -/
def stamp : MapFunction :=
  fun r auxData => (r.set 1 7, auxData)

/-- The calls Enter(key 5), Enter(key 9), Lookup(key 9), Map(stamp). -/
def sampleOps : List SetOp :=
  [SetOp.enter [5, 0, 0, 0], SetOp.enter [9, 0, 0, 0], SetOp.lookup [9, 0, 0, 0],
   SetOp.map stamp []]

/-- The set `freshKeyed` after `sampleOps`: bucket 1 holds the stamped records
with keys 5 and 9. -/
def keyedStamped : hashset :=
  { freshKeyed with
    buckets :=
      [fresh4, { pair59 with elems := [5, 7, 0, 0, 9, 7, 0, 0, 0, 0, 0, 0, 0, 0, 0, 0] },
       fresh4, fresh4]
    elemCount := 2 }

/-- The set `set95` with a hash function that returns the number of the
record itself, which leaves `[0, 4)` for every record from 4 on. -/
def set95Unbounded : hashset :=
  { set95 with hashfn := fun r _ => int32Value r }

/-- A full vector of capacity 1 whose single record has `2 ^ 30` bytes: the
doubled block no longer fits an `int`. -/
def bigFull : vector :=
  { elems := List.replicate 1073741824 0, elemSize := 1073741824, logLength := 1,
    allocLength := 1, freefn := false, freed := [] }

/-- The bucket holding the 32-bit records 1, 5, 9, 13: it is full. -/
def fullBucket : vector :=
  [int32 1, int32 5, int32 9, int32 13].foldl VectorAppend fresh4

/-- The set `freshSet` after Enter(1), Enter(5), Enter(9), Enter(13): bucket 1
is full. -/
def setFull : hashset :=
  { freshSet with buckets := [fresh4, fullBucket, fresh4, fresh4], elemCount := 4 }

/-- A keyed record of `2 ^ 28` bytes: the key byte and a payload of zeros. -/
def bigKey (k : Nat) : Record :=
  k :: List.replicate 268435455 0

/-- A full bucket of capacity 4 holding the keyed records 1, 2, 3, 4 of
`2 ^ 28` bytes each: the doubled block no longer fits an `int`. -/
def bigBucket : vector :=
  { elems := [bigKey 1, bigKey 2, bigKey 3, bigKey 4].flatten ++ [], elemSize := 268435456,
    logLength := 4, allocLength := 4, freefn := false, freed := [] }

/-- A set with one bucket, `bigBucket`. -/
def bigSet : hashset :=
  { buckets := [bigBucket], elemSize := 268435456, numBuckets := 1, elemCount := 4,
    hashfn := hashKey, compfn := compareKey, freefn := false }

/-! ## Memory lemmas -/

theorem load_getElem? (mem : List Byte) (a s j : Nat) :
    (load mem a s)[j]? = if j < s then mem[a + j]? else none := by
  simp [load, List.getElem?_take, List.getElem?_drop]

theorem load_length (mem : List Byte) (a s : Nat) (h : a + s ≤ mem.length) :
    (load mem a s).length = s := by
  simp [load]; omega

theorem load_ext (m1 m2 : List Byte) (a1 a2 s : Nat)
    (h : ∀ j, j < s → m1[a1 + j]? = m2[a2 + j]?) : load m1 a1 s = load m2 a2 s := by
  apply List.ext_getElem?
  intro j
  rw [load_getElem?, load_getElem?]
  by_cases hj : j < s
  · simp [hj, h j hj]
  · simp [hj]

theorem memcpy_length (mem : List Byte) (dest : Nat) (src : List Byte) (n : Nat)
    (h1 : dest + n ≤ mem.length) (h2 : n ≤ src.length) :
    (memcpy mem dest src n).length = mem.length := by
  simp [memcpy]; omega

theorem memcpy_getElem? (mem : List Byte) (dest : Nat) (src : List Byte) (n k : Nat)
    (h1 : dest + n ≤ mem.length) (h2 : n ≤ src.length) :
    (memcpy mem dest src n)[k]? =
      if k < dest then mem[k]? else if k < dest + n then src[k - dest]? else mem[k]? := by
  unfold memcpy
  have hl1 : (mem.take dest).length = dest := by simp; omega
  have hl2 : (src.take n).length = n := by simp; omega
  by_cases hk : k < dest
  · rw [List.append_assoc, List.getElem?_append_left (by omega)]
    simp [hk, List.getElem?_take]
  · rw [List.append_assoc, List.getElem?_append_right (by omega), hl1]
    by_cases hk2 : k < dest + n
    · rw [List.getElem?_append_left (by omega)]
      simp [hk, hk2, List.getElem?_take]
      omega
    · rw [List.getElem?_append_right (by omega), hl2, List.getElem?_drop]
      simp [hk, hk2]
      congr 1; omega

theorem memmove_length (mem : List Byte) (dest src n : Nat)
    (h1 : dest + n ≤ mem.length) (h2 : src + n ≤ mem.length) :
    (memmove mem dest src n).length = mem.length := by
  unfold memmove
  apply memcpy_length _ _ _ _ h1
  simp; omega

theorem memmove_getElem? (mem : List Byte) (dest src n k : Nat)
    (h1 : dest + n ≤ mem.length) (h2 : src + n ≤ mem.length) :
    (memmove mem dest src n)[k]? =
      if k < dest then mem[k]? else if k < dest + n then mem[src + (k - dest)]? else mem[k]? := by
  unfold memmove
  rw [memcpy_getElem? _ _ _ _ _ h1 (by simp; omega), List.getElem?_drop]

theorem realloc_length (mem : List Byte) (size : Nat) (h : mem.length ≤ size) :
    (realloc mem size).length = size := by
  simp [realloc]; omega

theorem realloc_getElem? (mem : List Byte) (size k : Nat) (h : mem.length ≤ size)
    (hk : k < mem.length) : (realloc mem size)[k]? = mem[k]? := by
  unfold realloc
  rw [List.take_of_length_le h, List.getElem?_append_left hk]

theorem elements_length (mem : List Byte) (n s : Nat) : (elements mem n s).length = n := by
  simp [elements]

theorem elements_getElem? (mem : List Byte) (n s i : Nat) :
    (elements mem n s)[i]? = if i < n then some (load mem (i * s) s) else none := by
  unfold elements
  by_cases h : i < n
  · simp [h, List.getElem?_range h]
  · simp [h]
    omega

theorem elements_succ (mem : List Byte) (n s : Nat) :
    elements mem (n + 1) s = elements mem n s ++ [load mem (n * s) s] := by
  simp [elements, List.range_succ]

theorem elements_congr (m1 m2 : List Byte) (n s : Nat)
    (h : ∀ i, i < n → load m1 (i * s) s = load m2 (i * s) s) :
    elements m1 n s = elements m2 n s := by
  apply List.ext_getElem?
  intro i
  rw [elements_getElem?, elements_getElem?]
  by_cases hi : i < n
  · simp [hi, h i hi]
  · simp [hi]

/-- Offsets of slot `i` lie below slot `p` when `i < p`. -/
theorem slot_lt (i p s j : Nat) (h : i < p) (hj : j < s) : i * s + j < p * s := by
  have := Nat.mul_le_mul_right s (Nat.succ_le_of_lt h)
  rw [Nat.succ_mul] at this
  omega

theorem slot_le (i p s : Nat) (h : i ≤ p) : i * s ≤ p * s :=
  Nat.mul_le_mul_right s h

/-! ## Growth and append -/

theorem grown_elemSize (v : vector) : (grown v).elemSize = v.elemSize := by
  unfold grown DoubleCapacity; split_ifs <;> rfl

theorem grown_logLength (v : vector) : (grown v).logLength = v.logLength := by
  unfold grown DoubleCapacity; split_ifs <;> rfl

theorem grown_freefn (v : vector) : (grown v).freefn = v.freefn := by
  unfold grown DoubleCapacity; split_ifs <;> rfl

theorem grown_freed (v : vector) : (grown v).freed = v.freed := by
  unfold grown DoubleCapacity; split_ifs <;> rfl

theorem grown_allocLength (v : vector) :
    (grown v).allocLength = if v.logLength = v.allocLength then v.allocLength * 2 else v.allocLength := by
  unfold grown DoubleCapacity; split_ifs <;> rfl

theorem grown_block (v : vector) (hv : v.WF) :
    (grown v).elems.length = (grown v).allocLength * v.elemSize := by
  unfold grown DoubleCapacity
  split_ifs with h
  · simp only
    apply realloc_length
    rw [hv.block, Nat.mul_assoc, Nat.mul_comm 2, ← Nat.mul_assoc]
    omega
  · exact hv.block

theorem grown_room (v : vector) (hv : v.WF) : v.logLength < (grown v).allocLength := by
  have h1 := hv.alloc_pos
  have h2 := hv.log_le
  rw [grown_allocLength]
  split_ifs <;> omega

theorem grown_getElem? (v : vector) (hv : v.WF) (k : Nat) (hk : k < v.elems.length) :
    (grown v).elems[k]? = v.elems[k]? := by
  unfold grown DoubleCapacity
  split_ifs with h
  · simp only
    apply realloc_getElem? _ _ _ _ hk
    rw [hv.block, Nat.mul_assoc, Nat.mul_comm 2, ← Nat.mul_assoc]
    omega
  · rfl

theorem grown_WF (v : vector) (hv : v.WF) : (grown v).WF where
  elemSize_pos := by rw [grown_elemSize]; exact hv.elemSize_pos
  alloc_pos := by have := grown_room v hv; omega
  log_le := by have := grown_room v hv; rw [grown_logLength]; omega
  block := by rw [grown_block v hv, grown_elemSize]

/-- Live slot `i` of a well-formed vector lies inside the block. -/
theorem slot_in_block (v : vector) (hv : v.WF) (i : Nat) (hi : i < v.allocLength) :
    i * v.elemSize + v.elemSize ≤ v.elems.length := by
  have := Nat.mul_le_mul_right v.elemSize (Nat.succ_le_of_lt hi)
  rw [Nat.succ_mul] at this
  rw [hv.block]
  exact this

theorem grown_records (v : vector) (hv : v.WF) : records (grown v) = records v := by
  unfold records
  rw [grown_logLength, grown_elemSize]
  apply elements_congr
  intro i hi
  apply load_ext
  intro j hj
  apply grown_getElem? v hv
  have := slot_in_block v hv i (by have := hv.log_le; omega)
  omega

theorem VectorAppend_eq (v : vector) (r : Record) :
    VectorAppend v r =
      { grown v with
        elems := memcpy (grown v).elems (v.logLength * v.elemSize) r v.elemSize
        logLength := v.logLength + 1 } := by
  unfold VectorAppend
  rw [show (if v.logLength = v.allocLength then DoubleCapacity v else v) = grown v from rfl]
  simp only [grown_logLength, grown_elemSize]

theorem VectorAppend_logLength (v : vector) (r : Record) :
    (VectorAppend v r).logLength = v.logLength + 1 := by
  rw [VectorAppend_eq]

theorem VectorAppend_elemSize (v : vector) (r : Record) :
    (VectorAppend v r).elemSize = v.elemSize := by
  rw [VectorAppend_eq]; exact grown_elemSize v

theorem VectorAppend_allocLength (v : vector) (r : Record) :
    (VectorAppend v r).allocLength =
      if v.logLength = v.allocLength then v.allocLength * 2 else v.allocLength := by
  rw [VectorAppend_eq]; exact grown_allocLength v

theorem VectorAppend_freefn (v : vector) (r : Record) :
    (VectorAppend v r).freefn = v.freefn := by
  rw [VectorAppend_eq]; exact grown_freefn v

theorem VectorAppend_freed (v : vector) (r : Record) :
    (VectorAppend v r).freed = v.freed := by
  rw [VectorAppend_eq]; exact grown_freed v

theorem VectorAppend_WF (v : vector) (hv : v.WF) (r : Record) (hr : r.length = v.elemSize) :
    (VectorAppend v r).WF := by
  have hg := grown_WF v hv
  have hroom := grown_room v hv
  have hin := slot_in_block (grown v) hg v.logLength hroom
  rw [grown_elemSize] at hin
  rw [VectorAppend_eq]
  refine ⟨hg.elemSize_pos, hg.alloc_pos, by simp only; omega, ?_⟩
  simp only
  rw [memcpy_length _ _ _ _ hin (by omega), grown_block v hv, grown_elemSize]

theorem VectorAppend_records (v : vector) (hv : v.WF) (r : Record)
    (hr : r.length = v.elemSize) : records (VectorAppend v r) = records v ++ [r] := by
  have hg := grown_WF v hv
  have hroom := grown_room v hv
  have hin := slot_in_block (grown v) hg v.logLength hroom
  rw [grown_elemSize] at hin
  rw [← grown_records v hv, VectorAppend_eq]
  unfold records
  simp only [grown_logLength, grown_elemSize]
  rw [elements_succ]
  congr 1
  · apply elements_congr
    intro i hi
    apply load_ext
    intro j hj
    rw [memcpy_getElem? _ _ _ _ _ hin (by omega)]
    have := slot_lt i v.logLength v.elemSize j hi hj
    simp [this]
  · congr 1
    apply List.ext_getElem?
    intro j
    rw [load_getElem?]
    by_cases hj : j < v.elemSize
    · rw [memcpy_getElem? _ _ _ _ _ hin (by omega)]
      simp [hj]
    · simp only [hj, if_false]
      rw [List.getElem?_eq_none]
      omega

theorem VectorNew_WF (elemSize : Int) (freeFn : Bool) (initialAllocation : Int) (v : vector)
    (h : VectorNew elemSize freeFn initialAllocation = some v) : v.WF := by
  unfold VectorNew at h
  simp only at h
  split_ifs at h with h1 h2 h2
  all_goals
    simp only [Option.some.injEq] at h
    subst h
    refine ⟨?_, ?_, ?_, ?_⟩ <;> simp <;> omega

theorem VectorNew_fields (elemSize : Int) (freeFn : Bool) (initialAllocation : Int) (v : vector)
    (h : VectorNew elemSize freeFn initialAllocation = some v) :
    v.logLength = 0 ∧ (v.elemSize : Int) = elemSize ∧ v.freefn = freeFn ∧ v.freed = [] := by
  unfold VectorNew at h
  simp only at h
  split_ifs at h with h1 h2 h2
  all_goals
    simp only [Option.some.injEq] at h
    subst h
    refine ⟨rfl, ?_, rfl, rfl⟩
    simp only
    omega

theorem records_length (v : vector) : (records v).length = v.logLength :=
  elements_length _ _ _

/-- The records of a vector after a run of appends. -/
theorem appends_spec (rs : List Record) (v : vector) (hv : v.WF)
    (hrs : ∀ r ∈ rs, r.length = v.elemSize) :
    (rs.foldl VectorAppend v).WF ∧ (rs.foldl VectorAppend v).elemSize = v.elemSize ∧
      records (rs.foldl VectorAppend v) = records v ++ rs := by
  induction rs generalizing v with
  | nil => simp [hv]
  | cons r rs ih =>
    have hr : r.length = v.elemSize := hrs r (List.mem_cons_self _ _)
    have h := ih (VectorAppend v r) (VectorAppend_WF v hv r hr) (by
      intro x hx
      rw [VectorAppend_elemSize]
      exact hrs x (List.mem_cons_of_mem _ hx))
    rw [List.foldl_cons]
    refine ⟨h.1, ?_, ?_⟩
    · rw [h.2.1, VectorAppend_elemSize]
    · rw [h.2.2, VectorAppend_records v hv r hr]
      simp

/-- Reading the element behind an address returned by `VectorNth`. -/
theorem VectorNth_load (v : vector) (i : Nat) (hi : i < v.logLength) :
    VectorNth v i = some (i * v.elemSize) ∧
      (records v)[i]? = some (load v.elems (i * v.elemSize) v.elemSize) := by
  constructor
  · unfold VectorNth
    have : ((i : Int) < (v.logLength : Int) ∧ (i : Int) ≥ 0) := by omega
    simp [this]
  · unfold records
    rw [elements_getElem?]
    simp [hi]

/-! ## Replace, insert, delete -/

theorem callFree_elems (v : vector) (a : Nat) : (callFree v a).elems = v.elems := by
  unfold callFree; split_ifs <;> rfl

theorem callFree_elemSize (v : vector) (a : Nat) : (callFree v a).elemSize = v.elemSize := by
  unfold callFree; split_ifs <;> rfl

theorem callFree_logLength (v : vector) (a : Nat) : (callFree v a).logLength = v.logLength := by
  unfold callFree; split_ifs <;> rfl

theorem callFree_allocLength (v : vector) (a : Nat) :
    (callFree v a).allocLength = v.allocLength := by
  unfold callFree; split_ifs <;> rfl

theorem callFree_freefn (v : vector) (a : Nat) : (callFree v a).freefn = v.freefn := by
  unfold callFree; split_ifs <;> rfl

theorem callFree_freed (v : vector) (a : Nat) :
    (callFree v a).freed =
      if v.freefn then v.freed ++ [load v.elems a v.elemSize] else v.freed := by
  unfold callFree; split_ifs <;> rfl

theorem VectorReplace_eq (v : vector) (r : Record) (p : Nat) (hp : p < v.logLength) :
    VectorReplace v r p =
      some { callFree v (p * v.elemSize) with
             elems := memcpy v.elems (p * v.elemSize) r v.elemSize } := by
  unfold VectorReplace
  have : ((p : Int) ≥ 0 ∧ (p : Int) < (v.logLength : Int)) := by omega
  simp only [this, and_self, if_true, Int.toNat_ofNat, callFree_elems, callFree_elemSize]

theorem VectorReplace_spec (v : vector) (hv : v.WF) (r : Record) (hr : r.length = v.elemSize)
    (p : Nat) (hp : p < v.logLength) :
    ∃ v1, VectorReplace v r p = some v1 ∧ v1.WF ∧ v1.elemSize = v.elemSize ∧
      v1.logLength = v.logLength ∧ v1.allocLength = v.allocLength ∧ v1.freefn = v.freefn ∧
      records v1 = (records v).set p r := by
  have hin := slot_in_block v hv p (by have := hv.log_le; omega)
  refine ⟨_, VectorReplace_eq v r p hp, ?_, callFree_elemSize _ _, callFree_logLength _ _,
    callFree_allocLength _ _, callFree_freefn _ _, ?_⟩
  · refine ⟨?_, ?_, ?_, ?_⟩
    · simp only [callFree_elemSize]; exact hv.elemSize_pos
    · simp only [callFree_allocLength]; exact hv.alloc_pos
    · simp only [callFree_allocLength, callFree_logLength]; exact hv.log_le
    · simp only [callFree_allocLength, callFree_elemSize]
      rw [memcpy_length _ _ _ _ hin (by omega), hv.block]
  · unfold records
    simp only [callFree_elemSize, callFree_logLength]
    apply List.ext_getElem?
    intro i
    rw [List.getElem?_set, elements_getElem?, elements_getElem?, elements_length]
    by_cases hi : i < v.logLength
    · simp only [hi, if_true]
      by_cases hpi : p = i
      · subst hpi
        simp only [if_true, hp]
        congr 1
        apply List.ext_getElem?
        intro j
        rw [load_getElem?]
        by_cases hj : j < v.elemSize
        · rw [memcpy_getElem? _ _ _ _ _ hin (by omega)]
          simp [hj]
        · simp only [hj, if_false]
          rw [List.getElem?_eq_none]
          omega
      · simp only [hpi, if_false]
        congr 1
        apply load_ext
        intro j hj
        rw [memcpy_getElem? _ _ _ _ _ hin (by omega)]
        rcases Nat.lt_or_gt_of_ne hpi with h | h
        · have := slot_le (p + 1) i v.elemSize h
          rw [Nat.succ_mul] at this
          have h1 : ¬ (i * v.elemSize + j < p * v.elemSize) := by omega
          have h2 : ¬ (i * v.elemSize + j < p * v.elemSize + v.elemSize) := by omega
          simp [h1, h2]
        · have := slot_lt i p v.elemSize j h hj
          simp [this]
    · simp only [hi, if_false]
      have : p ≠ i := by omega
      simp [this]

theorem VectorInsert_end (v : vector) (r : Record) :
    VectorInsert v r v.logLength = some (VectorAppend v r) := by
  unfold VectorInsert
  simp

theorem VectorInsert_eq (v : vector) (r : Record) (p : Nat) (hp : p < v.logLength) :
    VectorInsert v r p =
      some { grown v with
        elems := memcpy (memmove (grown v).elems ((p + 1) * v.elemSize) (p * v.elemSize)
                   ((v.logLength - p) * v.elemSize)) (p * v.elemSize) r v.elemSize
        logLength := v.logLength + 1 } := by
  unfold VectorInsert
  have h1 : ((p : Int) ≥ 0 ∧ (p : Int) ≤ (v.logLength : Int)) := by omega
  have h2 : ¬ ((p : Int) = (v.logLength : Int)) := by omega
  rw [show (if v.logLength = v.allocLength then DoubleCapacity v else v) = grown v from rfl]
  simp only [h1, h2, and_self, if_true, if_false, Int.toNat_ofNat, grown_logLength, grown_elemSize]

theorem insertAt_getElem? (l : List Record) (p : Nat) (r : Record) (hp : p ≤ l.length) (i : Nat) :
    (insertAt l p r)[i]? = if i < p then l[i]? else if i = p then some r else l[i - 1]? := by
  unfold insertAt
  have hl : (l.take p).length = p := by simp; omega
  by_cases h1 : i < p
  · rw [List.getElem?_append_left (by omega)]
    simp [h1, List.getElem?_take]
  · rw [List.getElem?_append_right (by omega), hl]
    by_cases h2 : i = p
    · subst h2
      simp
    · simp only [h1, h2, if_false]
      obtain ⟨k, hk⟩ : ∃ k, i - p = k + 1 := ⟨i - p - 1, by omega⟩
      rw [hk, List.getElem?_cons_succ, List.getElem?_drop]
      congr 1
      omega

theorem insertAt_length (l : List Record) (p : Nat) (r : Record) (hp : p ≤ l.length) :
    (insertAt l p r).length = l.length + 1 := by
  unfold insertAt
  simp
  omega

theorem insertAt_end (l : List Record) (r : Record) : insertAt l l.length r = l ++ [r] := by
  simp [insertAt]

theorem eraseIdx_insertAt (l : List Record) (p : Nat) (r : Record) (hp : p ≤ l.length) :
    (insertAt l p r).eraseIdx p = l := by
  unfold insertAt
  have hl : (l.take p).length = p := by simp; omega
  rw [List.eraseIdx_append_of_length_le (by omega), hl, Nat.sub_self]
  simp

theorem VectorInsert_mid (v : vector) (hv : v.WF) (r : Record) (hr : r.length = v.elemSize)
    (p : Nat) (hp : p < v.logLength) :
    ∃ v1, VectorInsert v r p = some v1 ∧ v1.WF ∧ v1.elemSize = v.elemSize ∧
      v1.logLength = v.logLength + 1 ∧ v1.allocLength = (grown v).allocLength ∧
      v1.freefn = v.freefn ∧ v1.freed = v.freed ∧
      records v1 = insertAt (records v) p r := by
  have hg := grown_WF v hv
  have hroom := grown_room v hv
  have hin := slot_in_block (grown v) hg v.logLength hroom
  rw [grown_elemSize] at hin
  have hps := slot_le p v.logLength v.elemSize (by omega)
  have e1 : (p + 1) * v.elemSize = p * v.elemSize + v.elemSize := Nat.succ_mul _ _
  have e2 : (v.logLength - p) * v.elemSize = v.logLength * v.elemSize - p * v.elemSize :=
    Nat.sub_mul _ _ _
  have hmv1 : (p + 1) * v.elemSize + (v.logLength - p) * v.elemSize ≤ (grown v).elems.length := by
    omega
  have hmv2 : p * v.elemSize + (v.logLength - p) * v.elemSize ≤ (grown v).elems.length := by
    omega
  have hlen := memmove_length _ _ _ _ hmv1 hmv2
  have hcp : p * v.elemSize + v.elemSize ≤
      (memmove (grown v).elems ((p + 1) * v.elemSize) (p * v.elemSize)
        ((v.logLength - p) * v.elemSize)).length := by
    rw [hlen]; omega
  refine ⟨_, VectorInsert_eq v r p hp, ?_, grown_elemSize v, rfl, rfl, grown_freefn v,
    grown_freed v, ?_⟩
  · refine ⟨hg.elemSize_pos, hg.alloc_pos, by simp only; omega, ?_⟩
    simp only
    rw [memcpy_length _ _ _ _ hcp (by omega), hlen, grown_block v hv, grown_elemSize]
  · rw [← grown_records v hv]
    unfold records
    simp only [grown_logLength, grown_elemSize]
    apply List.ext_getElem?
    intro i
    rw [insertAt_getElem? _ _ _ (by rw [elements_length]; omega), elements_getElem?,
      elements_getElem?, elements_getElem?]
    by_cases hi : i < v.logLength + 1
    · simp only [hi, if_true]
      by_cases h1 : i < p
      · have h1' : i < v.logLength := by omega
        simp only [h1, h1', if_true]
        congr 1
        apply load_ext
        intro j hj
        have := slot_lt i p v.elemSize j h1 hj
        rw [memcpy_getElem? _ _ _ _ _ hcp (by omega), memmove_getElem? _ _ _ _ _ hmv1 hmv2]
        have h3 : i * v.elemSize + j < (p + 1) * v.elemSize := by omega
        simp [this, h3]
      · simp only [h1, if_false]
        by_cases h2 : i = p
        · subst h2
          simp only [if_true]
          congr 1
          apply List.ext_getElem?
          intro j
          rw [load_getElem?]
          by_cases hj : j < v.elemSize
          · rw [memcpy_getElem? _ _ _ _ _ hcp (by omega)]
            simp [hj]
          · simp only [hj, if_false]
            rw [List.getElem?_eq_none]
            omega
        · have h3 : i - 1 < v.logLength := by omega
          simp only [h2, h3, if_false, if_true]
          congr 1
          apply load_ext
          intro j hj
          have hge := slot_le (p + 1) i v.elemSize (by omega)
          have hlt := slot_lt i (v.logLength + 1) v.elemSize j hi hj
          have e3 : (v.logLength + 1) * v.elemSize = v.logLength * v.elemSize + v.elemSize :=
            Nat.succ_mul _ _
          have e4 : (i - 1) * v.elemSize = i * v.elemSize - v.elemSize := by
            rw [Nat.sub_mul, Nat.one_mul]
          rw [memcpy_getElem? _ _ _ _ _ hcp (by omega), memmove_getElem? _ _ _ _ _ hmv1 hmv2]
          have c1 : ¬ (i * v.elemSize + j < p * v.elemSize) := by omega
          have c2 : ¬ (i * v.elemSize + j < p * v.elemSize + v.elemSize) := by omega
          have c3 : ¬ (i * v.elemSize + j < (p + 1) * v.elemSize) := by omega
          have c4 : i * v.elemSize + j < (p + 1) * v.elemSize + (v.logLength - p) * v.elemSize := by
            omega
          simp only [c1, c2, c3, c4, if_false, if_true]
          congr 1
          omega
    · have h1 : ¬ i < p := by omega
      have h2 : ¬ i = p := by omega
      have h3 : ¬ i - 1 < v.logLength := by omega
      simp only [hi, h1, h2, h3, if_false]

/-- Effect of `VectorInsert` at any position of `[0, logLength]`. -/
theorem VectorInsert_spec (v : vector) (hv : v.WF) (r : Record) (hr : r.length = v.elemSize)
    (p : Nat) (hp : p ≤ v.logLength) :
    ∃ v1, VectorInsert v r p = some v1 ∧ v1.WF ∧ v1.elemSize = v.elemSize ∧
      v1.logLength = v.logLength + 1 ∧ v1.allocLength = (grown v).allocLength ∧
      v1.freefn = v.freefn ∧ v1.freed = v.freed ∧
      records v1 = insertAt (records v) p r := by
  rcases Nat.lt_or_eq_of_le hp with h | h
  · exact VectorInsert_mid v hv r hr p h
  · subst h
    refine ⟨_, VectorInsert_end v r, VectorAppend_WF v hv r hr, VectorAppend_elemSize v r,
      VectorAppend_logLength v r, ?_, VectorAppend_freefn v r, VectorAppend_freed v r, ?_⟩
    · rw [VectorAppend_allocLength, grown_allocLength]
    · rw [VectorAppend_records v hv r hr, ← records_length, insertAt_end]

theorem VectorDelete_eq (v : vector) (p : Nat) (hp : p < v.logLength) :
    VectorDelete v p =
      some { callFree v (p * v.elemSize) with
        elems := memmove v.elems (p * v.elemSize) ((p + 1) * v.elemSize)
                   ((v.logLength - p - 1) * v.elemSize)
        logLength := v.logLength - 1 } := by
  unfold VectorDelete
  have h1 : ((p : Int) ≥ 0 ∧ (p : Int) < (v.logLength : Int)) := by omega
  have h2 : ¬ ((p : Int) = (v.logLength : Int)) := by omega
  simp only [h1, h2, and_self, if_true, if_false, Int.toNat_ofNat, callFree_elems,
    callFree_elemSize, callFree_logLength]

/-- Effect of `VectorDelete` at any position of `[0, logLength)`. -/
theorem VectorDelete_spec (v : vector) (hv : v.WF) (p : Nat) (hp : p < v.logLength) :
    ∃ v1, VectorDelete v p = some v1 ∧ v1.WF ∧ v1.elemSize = v.elemSize ∧
      v1.logLength = v.logLength - 1 ∧ v1.allocLength = v.allocLength ∧
      v1.freefn = v.freefn ∧
      v1.freed = (if v.freefn then v.freed ++ [load v.elems (p * v.elemSize) v.elemSize]
                  else v.freed) ∧
      records v1 = (records v).eraseIdx p := by
  have hle := hv.log_le
  have hin := slot_in_block v hv (v.logLength - 1) (by omega)
  have e0 : (v.logLength - 1) * v.elemSize = v.logLength * v.elemSize - v.elemSize := by
    rw [Nat.sub_mul, Nat.one_mul]
  have hpos := slot_le 1 v.logLength v.elemSize (by omega)
  rw [Nat.one_mul] at hpos
  have hps := slot_le (p + 1) v.logLength v.elemSize (by omega)
  have e1 : (p + 1) * v.elemSize = p * v.elemSize + v.elemSize := Nat.succ_mul _ _
  have e2 : (v.logLength - p - 1) * v.elemSize
      = v.logLength * v.elemSize - p * v.elemSize - v.elemSize := by
    rw [Nat.sub_mul, Nat.sub_mul, Nat.one_mul]
  have hmv1 : p * v.elemSize + (v.logLength - p - 1) * v.elemSize ≤ v.elems.length := by omega
  have hmv2 : (p + 1) * v.elemSize + (v.logLength - p - 1) * v.elemSize ≤ v.elems.length := by
    omega
  have hlen := memmove_length _ _ _ _ hmv1 hmv2
  refine ⟨_, VectorDelete_eq v p hp, ?_, callFree_elemSize _ _, rfl, callFree_allocLength _ _,
    callFree_freefn _ _, callFree_freed _ _, ?_⟩
  · refine ⟨?_, ?_, ?_, ?_⟩
    · simp only [callFree_elemSize]; exact hv.elemSize_pos
    · simp only [callFree_allocLength]; exact hv.alloc_pos
    · simp only [callFree_allocLength]; omega
    · simp only [callFree_allocLength, callFree_elemSize]
      rw [hlen, hv.block]
  · unfold records
    simp only [callFree_elemSize]
    apply List.ext_getElem?
    intro i
    rw [List.getElem?_eraseIdx, elements_getElem?, elements_getElem?, elements_getElem?]
    by_cases hi : i < v.logLength - 1
    · have hi1 : i < v.logLength := by omega
      have hi2 : i + 1 < v.logLength := by omega
      simp only [hi, hi1, hi2, if_true]
      by_cases h1 : i < p
      · simp only [h1, if_true]
        congr 1
        apply load_ext
        intro j hj
        have := slot_lt i p v.elemSize j h1 hj
        rw [memmove_getElem? _ _ _ _ _ hmv1 hmv2]
        simp [this]
      · simp only [h1, if_false]
        congr 1
        apply load_ext
        intro j hj
        have hge := slot_le p i v.elemSize (by omega)
        have hlt := slot_lt i (v.logLength - 1) v.elemSize j hi hj
        have e3 : (i + 1) * v.elemSize = i * v.elemSize + v.elemSize := Nat.succ_mul _ _
        rw [memmove_getElem? _ _ _ _ _ hmv1 hmv2]
        have c1 : ¬ (i * v.elemSize + j < p * v.elemSize) := by omega
        have c2 : i * v.elemSize + j < p * v.elemSize + (v.logLength - p - 1) * v.elemSize := by
          omega
        simp only [c1, c2, if_false, if_true]
        congr 1
        omega
    · simp only [hi, if_false]
      by_cases h1 : i < p
      · omega
      · have : ¬ i + 1 < v.logLength := by omega
        simp only [h1, this, if_false]

/-! ## Searching -/

theorem records_getElem? (v : vector) (i : Nat) :
    (records v)[i]? = if i < v.logLength then some (recordAt v i) else none :=
  elements_getElem? _ _ _ _

theorem mem_records (v : vector) (r : Record) :
    r ∈ records v ↔ ∃ i, i < v.logLength ∧ recordAt v i = r := by
  unfold records elements recordAt
  simp

/-- Result of the `lfind` loop: the first match at or after index `i`. -/
theorem lfindLoop_spec (key : Record) (mem : List Byte) (base size : Nat)
    (compar : CompareFunction) (n i : Nat) :
    (lfindLoop key mem base size compar n i = none ∧
        ∀ j, i ≤ j → j < i + n → compar key (load mem (base + j * size) size) ≠ 0) ∨
      ∃ j, i ≤ j ∧ j < i + n ∧ lfindLoop key mem base size compar n i = some (base + j * size) ∧
        compar key (load mem (base + j * size) size) = 0 ∧
        ∀ j', i ≤ j' → j' < j → compar key (load mem (base + j' * size) size) ≠ 0 := by
  induction n generalizing i with
  | zero =>
    left
    exact ⟨rfl, fun j h1 h2 => by omega⟩
  | succ n ih =>
    unfold lfindLoop
    by_cases h : compar key (load mem (base + i * size) size) = 0
    · right
      exact ⟨i, le_refl _, by omega, by simp [h], h, fun j' h1 h2 => by omega⟩
    · simp only [h, if_false]
      rcases ih (i + 1) with ⟨h1, h2⟩ | ⟨j, h1, h2, h3, h4, h5⟩
      · left
        refine ⟨h1, fun j hj1 hj2 => ?_⟩
        rcases Nat.eq_or_lt_of_le hj1 with e | e
        · subst e; exact h
        · exact h2 j e (by omega)
      · right
        refine ⟨j, by omega, by omega, h3, h4, fun j' hj1 hj2 => ?_⟩
        rcases Nat.eq_or_lt_of_le hj1 with e | e
        · subst e; exact h
        · exact h5 j' e hj2

theorem GetIndex_slot (v : vector) (hs : 0 < v.elemSize) (k j : Nat) :
    GetIndex v (k * v.elemSize + j * v.elemSize) k = j := by
  unfold GetIndex
  simp only
  have hs' : (v.elemSize : Int) ≠ 0 := by omega
  push_cast
  rw [add_sub_cancel_left, Int.mul_ediv_cancel _ hs']

theorem recordAt_add (v : vector) (k j : Nat) :
    load v.elems (k * v.elemSize + j * v.elemSize) v.elemSize = recordAt v (k + j) := by
  unfold recordAt
  rw [Nat.add_mul]

/-- Linear `VectorSearch` from `startIndex`: the value returned is the
distance of the first match from `startIndex`. -/
theorem VectorSearch_linear (v : vector) (hs : 0 < v.elemSize) (key : Record)
    (searchFn : CompareFunction) (startIndex : Nat) :
    (VectorSearch v key searchFn startIndex false = kNotFound ∧
        ∀ j, j < v.logLength - startIndex → searchFn key (recordAt v (startIndex + j)) ≠ 0) ∨
      ∃ j : Nat, j < v.logLength - startIndex ∧
        VectorSearch v key searchFn startIndex false = j ∧
        searchFn key (recordAt v (startIndex + j)) = 0 ∧
        ∀ j', j' < j → searchFn key (recordAt v (startIndex + j')) ≠ 0 := by
  unfold VectorSearch LinearSearchVector lfind
  simp only [Bool.false_eq_true, if_false]
  rcases lfindLoop_spec key v.elems (startIndex * v.elemSize) v.elemSize searchFn
      (v.logLength - startIndex) 0 with ⟨h1, h2⟩ | ⟨j, -, h2, h3, h4, h5⟩
  · left
    rw [h1]
    refine ⟨rfl, fun j hj => ?_⟩
    rw [← recordAt_add]
    exact h2 j (Nat.zero_le _) (by omega)
  · right
    rw [h3]
    refine ⟨j, by omega, GetIndex_slot v hs _ _, ?_, fun j' hj => ?_⟩
    · rw [← recordAt_add]; exact h4
    · rw [← recordAt_add]; exact h5 j' (Nat.zero_le _) hj

theorem TotalOrder.eq_symm {compar : CompareFunction} (h : TotalOrder compar) (a b : Record)
    (hab : compar a b = 0) : compar b a = 0 := by
  have h1 := h.swap a b
  have h2 := h.swap b a
  omega

theorem TotalOrder.eq_trans {compar : CompareFunction} (h : TotalOrder compar) (a b c : Record)
    (hab : compar a b = 0) (hbc : compar b c = 0) : compar a c = 0 := by
  have h1 := h.trans a b c (by omega) (by omega)
  have h2 := h.trans c b a (by have := h.eq_symm b c hbc; omega)
    (by have := h.eq_symm a b hab; omega)
  have h3 := h.swap a c
  have h4 := h.swap c a
  omega

theorem TotalOrder.lt_of_lt_of_le {compar : CompareFunction} (h : TotalOrder compar)
    (k m x : Record) (hkm : compar k m < 0) (hmx : compar m x ≤ 0) : compar k x < 0 := by
  have h1 := h.trans k m x (by omega) hmx
  by_contra hcon
  have h0 : compar k x = 0 := by omega
  have h2 := h.trans m x k hmx (by have := h.eq_symm k x h0; omega)
  have h3 := (h.swap k m).1 hkm
  omega

theorem TotalOrder.gt_of_gt_of_le {compar : CompareFunction} (h : TotalOrder compar)
    (k m x : Record) (hkm : 0 < compar k m) (hxm : compar x m ≤ 0) : 0 < compar k x := by
  have hmk : compar m k < 0 := (h.swap m k).2 hkm
  have h1 := h.trans x m k hxm (by omega)
  by_contra hcon
  have hkx : compar k x ≤ 0 := by omega
  have h2 := h.trans k x m hkx hxm
  omega

/-- Result of the `bsearch` loop on a range in ascending order. -/
theorem bsearchLoop_spec (key : Record) (mem : List Byte) (base size : Nat)
    (compar : CompareFunction) (ho : TotalOrder compar) (n : Nat)
    (hsorted : ∀ i j, i ≤ j → j < n →
      compar (load mem (base + i * size) size) (load mem (base + j * size) size) ≤ 0)
    (fuel l u : Nat) (hfuel : u - l ≤ fuel) (hu : u ≤ n)
    (hlow : ∀ i, i < l → i < n → 0 < compar key (load mem (base + i * size) size))
    (hhigh : ∀ i, u ≤ i → i < n → compar key (load mem (base + i * size) size) < 0) :
    (bsearchLoop key mem base size compar fuel l u = none ∧
        ∀ i, i < n → compar key (load mem (base + i * size) size) ≠ 0) ∨
      ∃ i, i < n ∧ bsearchLoop key mem base size compar fuel l u = some (base + i * size) ∧
        compar key (load mem (base + i * size) size) = 0 := by
  induction fuel generalizing l u with
  | zero =>
    left
    refine ⟨rfl, fun i hi => ?_⟩
    rcases Nat.lt_or_ge i l with h | h
    · have := hlow i h hi; omega
    · have := hhigh i (by omega) hi; omega
  | succ fuel ih =>
    unfold bsearchLoop
    by_cases hlu : l < u
    · simp only [hlu, if_true]
      have hmid1 : l ≤ (l + u) / 2 := by omega
      have hmid2 : (l + u) / 2 < u := by omega
      by_cases hc1 : compar key (load mem (base + (l + u) / 2 * size) size) < 0
      · simp only [hc1, if_true]
        apply ih l ((l + u) / 2) (by omega) (by omega) hlow
        intro i hi1 hi2
        exact ho.lt_of_lt_of_le _ _ _ hc1 (hsorted _ _ hi1 hi2)
      · simp only [hc1, if_false]
        by_cases hc2 : compar key (load mem (base + (l + u) / 2 * size) size) > 0
        · simp only [hc2, if_true]
          apply ih ((l + u) / 2 + 1) u (by omega) hu _ hhigh
          intro i hi1 hi2
          exact ho.gt_of_gt_of_le _ _ _ hc2 (hsorted _ _ (by omega) (by omega))
        · simp only [hc2, if_false]
          right
          exact ⟨(l + u) / 2, by omega, rfl, by omega⟩
    · rw [if_neg hlu]
      left
      refine ⟨rfl, fun i hi => ?_⟩
      rcases Nat.lt_or_ge i l with h | h
      · have := hlow i h hi; omega
      · have := hhigh i (by omega) hi; omega

/-- Binary `VectorSearch` from `startIndex` on a range in ascending order:
the value returned is the distance of a match from `startIndex`. -/
theorem VectorSearch_binary (v : vector) (hs : 0 < v.elemSize) (key : Record)
    (searchFn : CompareFunction) (ho : TotalOrder searchFn) (startIndex : Nat)
    (hsorted : ∀ i j, i ≤ j → j < v.logLength - startIndex →
      searchFn (recordAt v (startIndex + i)) (recordAt v (startIndex + j)) ≤ 0) :
    (VectorSearch v key searchFn startIndex true = kNotFound ∧
        ∀ j, j < v.logLength - startIndex → searchFn key (recordAt v (startIndex + j)) ≠ 0) ∨
      ∃ j : Nat, j < v.logLength - startIndex ∧
        VectorSearch v key searchFn startIndex true = j ∧
        searchFn key (recordAt v (startIndex + j)) = 0 := by
  unfold VectorSearch BinarySearchVector bsearch
  simp only [if_true]
  rcases bsearchLoop_spec key v.elems (startIndex * v.elemSize) v.elemSize searchFn ho
      (v.logLength - startIndex)
      (by intro i j h1 h2; rw [recordAt_add, recordAt_add]; exact hsorted i j h1 h2)
      (v.logLength - startIndex) 0 (v.logLength - startIndex) (by omega) (le_refl _)
      (fun i hi _ => by omega) (fun i h1 h2 => by omega) with ⟨h1, h2⟩ | ⟨j, h1, h2, h3⟩
  · left
    rw [h1]
    refine ⟨rfl, fun j hj => ?_⟩
    rw [← recordAt_add]
    exact h2 j hj
  · right
    rw [h2]
    refine ⟨j, h1, GetIndex_slot v hs _ _, ?_⟩
    rw [← recordAt_add]; exact h3

/-! ## Sorting -/

theorem sortRecords_eq (compar : CompareFunction) (l : List Record) :
    sortRecords compar l = List.insertionSort (fun a b => compar a b ≤ 0) l := by
  have hins : ∀ (a : Record) (l : List Record),
      orderedInsert compar a l = List.orderedInsert (fun a b => compar a b ≤ 0) a l := by
    intro a l
    induction l with
    | nil => rfl
    | cons b l ih =>
      unfold orderedInsert
      rw [List.orderedInsert, ih]
  induction l with
  | nil => rfl
  | cons a l ih =>
    unfold sortRecords
    rw [List.insertionSort, hins, ih]

theorem sortRecords_perm (compar : CompareFunction) (l : List Record) :
    (sortRecords compar l).Perm l := by
  rw [sortRecords_eq]
  exact List.perm_insertionSort _ l

theorem sortRecords_sorted (compar : CompareFunction) (ho : TotalOrder compar)
    (l : List Record) : List.Sorted (fun a b => compar a b ≤ 0) (sortRecords compar l) := by
  rw [sortRecords_eq]
  haveI : IsTotal Record (fun a b => compar a b ≤ 0) := ⟨fun a b => by
    have := ho.swap a b
    by_cases h : compar a b ≤ 0
    · exact Or.inl h
    · right
      have : compar b a < 0 := (ho.swap b a).2 (by omega)
      omega⟩
  haveI : IsTrans Record (fun a b => compar a b ≤ 0) := ⟨fun a b c => ho.trans a b c⟩
  exact List.sorted_insertionSort _ l

theorem flatten_length_uniform (rs : List Record) (s : Nat) (h : ∀ r ∈ rs, r.length = s) :
    rs.flatten.length = rs.length * s := by
  induction rs with
  | nil => simp
  | cons r rs ih =>
    rw [List.flatten_cons, List.length_append, ih (fun x hx => h x (List.mem_cons_of_mem _ hx)),
      h r (List.mem_cons_self _ _), List.length_cons, Nat.succ_mul]
    omega

theorem load_flatten (rs : List Record) (rest : List Byte) (s : Nat)
    (h : ∀ r ∈ rs, r.length = s) (i : Nat) (r : Record) (hi : rs[i]? = some r) :
    load (rs.flatten ++ rest) (i * s) s = r := by
  induction rs generalizing i with
  | nil => simp at hi
  | cons a rs ih =>
    have ha : a.length = s := h a (List.mem_cons_self _ _)
    cases i with
    | zero =>
      simp only [List.getElem?_cons_zero, Option.some.injEq] at hi
      subst hi
      unfold load
      rw [Nat.zero_mul, List.drop_zero, List.flatten_cons, List.append_assoc,
        List.take_append_of_le_length (by omega), List.take_of_length_le (by omega)]
    | succ i =>
      rw [List.getElem?_cons_succ] at hi
      have := ih (fun x hx => h x (List.mem_cons_of_mem _ hx)) i hi
      unfold load at this ⊢
      rw [List.flatten_cons, List.append_assoc, Nat.succ_mul, Nat.add_comm (i * s) s, ← ha,
        List.drop_append]
      rw [← ha] at this
      exact this

theorem elements_flatten (rs : List Record) (rest : List Byte) (s : Nat)
    (h : ∀ r ∈ rs, r.length = s) : elements (rs.flatten ++ rest) rs.length s = rs := by
  apply List.ext_getElem?
  intro i
  rw [elements_getElem?]
  by_cases hi : i < rs.length
  · simp only [hi, if_true]
    rw [load_flatten rs rest s h i rs[i] (List.getElem?_eq_getElem hi), List.getElem?_eq_getElem hi]
  · simp only [hi, if_false]
    rw [List.getElem?_eq_none (by omega)]

theorem records_uniform (v : vector) (hv : v.WF) (r : Record) (hr : r ∈ records v) :
    r.length = v.elemSize := by
  obtain ⟨i, hi, rfl⟩ := (mem_records v r).1 hr
  have := slot_in_block v hv i (by have := hv.log_le; omega)
  exact load_length _ _ _ this

theorem VectorSort_spec (v : vector) (hv : v.WF) (compare : CompareFunction) :
    (VectorSort v compare).WF ∧ (VectorSort v compare).elemSize = v.elemSize ∧
      (VectorSort v compare).logLength = v.logLength ∧
      (VectorSort v compare).allocLength = v.allocLength ∧
      (VectorSort v compare).freefn = v.freefn ∧ (VectorSort v compare).freed = v.freed ∧
      records (VectorSort v compare) = sortRecords compare (records v) := by
  have huni : ∀ r ∈ sortRecords compare (records v), r.length = v.elemSize := fun r hr =>
    records_uniform v hv r ((sortRecords_perm compare (records v)).mem_iff.1 hr)
  have hlen : (sortRecords compare (records v)).length = v.logLength := by
    rw [(sortRecords_perm compare (records v)).length_eq, records_length]
  have hle := slot_le v.logLength v.allocLength v.elemSize hv.log_le
  refine ⟨⟨hv.elemSize_pos, hv.alloc_pos, hv.log_le, ?_⟩, rfl, rfl, rfl, rfl, rfl, ?_⟩
  · show (qsort v.elems v.logLength v.elemSize compare).length = v.allocLength * v.elemSize
    unfold qsort
    rw [List.length_append, ← records, flatten_length_uniform _ _ huni, hlen, List.length_drop,
      hv.block]
    omega
  · show elements (qsort v.elems v.logLength v.elemSize compare) v.logLength v.elemSize = _
    unfold qsort
    rw [← records]
    nth_rewrite 2 [← hlen]
    exact elements_flatten _ _ _ huni

/-! ## Order facts used by the claims -/

theorem compareInt32_totalOrder : TotalOrder compareInt32 where
  refl := fun a => by unfold compareInt32; omega
  swap := fun a b => by unfold compareInt32; omega
  trans := fun a b c => by unfold compareInt32; omega

/-- Ascending order of the live records, stated on indices. -/
theorem sorted_recordAt (v : vector) (compar : CompareFunction) (ho : TotalOrder compar)
    (hsorted : List.Sorted (fun a b => compar a b ≤ 0) (records v)) (i j : Nat) (hij : i ≤ j)
    (hj : j < v.logLength) : compar (recordAt v i) (recordAt v j) ≤ 0 := by
  rcases Nat.eq_or_lt_of_le hij with h | h
  · subst h
    rw [ho.refl]
  · have hp := List.pairwise_iff_getElem.1 hsorted i j
      (by rw [records_length]; omega) (by rw [records_length]; omega) h
    have e1 := records_getElem? v i
    have e2 := records_getElem? v j
    rw [List.getElem?_eq_getElem (by rw [records_length]; omega)] at e1 e2
    have hi : i < v.logLength := by omega
    simp only [hi, hj, if_true, Option.some.injEq] at e1 e2
    rw [e1, e2] at hp
    exact hp

/-- Linear search from index 0. -/
theorem linear_search_zero (v : vector) (hs : 0 < v.elemSize) (key : Record)
    (searchFn : CompareFunction) :
    (VectorSearch v key searchFn 0 false = -1 ↔
        ∀ i, i < v.logLength → searchFn key (recordAt v i) ≠ 0) ∧
      (VectorSearch v key searchFn 0 false ≠ -1 →
        ∃ i : Nat, VectorSearch v key searchFn 0 false = i ∧ i < v.logLength ∧
          searchFn key (recordAt v i) = 0 ∧
          ∀ j, j < i → searchFn key (recordAt v j) ≠ 0) := by
  rcases VectorSearch_linear v hs key searchFn 0 with ⟨h1, h2⟩ | ⟨j, h1, h2, h3, h4⟩
  · simp only [Nat.sub_zero, Nat.zero_add] at h2
    rw [h1]
    exact ⟨⟨fun _ => h2, fun _ => rfl⟩, fun h => absurd rfl h⟩
  · simp only [Nat.sub_zero, Nat.zero_add] at h1 h3 h4
    rw [h2]
    refine ⟨⟨fun h => by omega, fun h => absurd h3 (h j h1)⟩, fun _ => ⟨j, rfl, h1, h3, h4⟩⟩

/-- Binary search from index 0 on records in ascending order. -/
theorem binary_search_zero (v : vector) (hs : 0 < v.elemSize) (key : Record)
    (searchFn : CompareFunction) (ho : TotalOrder searchFn)
    (hsorted : List.Sorted (fun a b => searchFn a b ≤ 0) (records v)) :
    (VectorSearch v key searchFn 0 true = -1 ↔
        ∀ i, i < v.logLength → searchFn key (recordAt v i) ≠ 0) ∧
      (VectorSearch v key searchFn 0 true ≠ -1 →
        ∃ i : Nat, VectorSearch v key searchFn 0 true = i ∧ i < v.logLength ∧
          searchFn key (recordAt v i) = 0) := by
  rcases VectorSearch_binary v hs key searchFn ho 0 (by
      intro i j h1 h2
      simp only [Nat.zero_add]
      exact sorted_recordAt v searchFn ho hsorted i j h1 (by omega))
    with ⟨h1, h2⟩ | ⟨j, h1, h2, h3⟩
  · simp only [Nat.sub_zero, Nat.zero_add] at h2
    rw [h1]
    exact ⟨⟨fun _ => h2, fun _ => rfl⟩, fun h => absurd rfl h⟩
  · simp only [Nat.sub_zero, Nat.zero_add] at h1 h3
    rw [h2]
    exact ⟨⟨fun h => by omega, fun h => absurd h3 (h j h1)⟩, fun _ => ⟨j, rfl, h1, h3⟩⟩

/-! ## Hash set: one bucket replaced -/

theorem totalLength_set (bs : List vector) (i : Nat) (b b1 : vector) (hb : bs[i]? = some b) :
    totalLength (bs.set i b1) + b.logLength = totalLength bs + b1.logLength := by
  unfold totalLength
  induction bs generalizing i with
  | nil => simp at hb
  | cons a bs ih =>
    cases i with
    | zero =>
      simp only [List.getElem?_cons_zero, Option.some.injEq] at hb
      subst hb
      simp only [List.set_cons_zero, List.map_cons, List.sum_cons]
      omega
    | succ i =>
      rw [List.getElem?_cons_succ] at hb
      have := ih i hb
      simp only [List.set_cons_succ, List.map_cons, List.sum_cons]
      omega

theorem pairwise_set {R : Record → Record → Prop} (l : List Record) (p : Nat) (old r : Record)
    (hold : l[p]? = some old) (h1 : ∀ x, R old x → R r x) (h2 : ∀ x, R x old → R x r)
    (hp : l.Pairwise R) : (l.set p r).Pairwise R := by
  induction l generalizing p with
  | nil => simp at hold
  | cons a l ih =>
    rw [List.pairwise_cons] at hp
    cases p with
    | zero =>
      simp only [List.getElem?_cons_zero, Option.some.injEq] at hold
      subst hold
      rw [List.set_cons_zero, List.pairwise_cons]
      exact ⟨fun x hx => h1 x (hp.1 x hx), hp.2⟩
    | succ p =>
      rw [List.getElem?_cons_succ] at hold
      rw [List.set_cons_succ, List.pairwise_cons]
      refine ⟨fun x hx => ?_, ih p hold hp.2⟩
      rcases List.mem_or_eq_of_mem_set hx with hx | hx
      · exact hp.1 x hx
      · subst hx
        exact h2 a (hp.1 old (List.getElem?_mem hold))

theorem mem_set_or_old (l : List Record) (p : Nat) (old r x : Record) (hold : l[p]? = some old)
    (hx : x ∈ l) : x ∈ l.set p r ∨ x = old := by
  obtain ⟨q, hq⟩ := List.mem_iff_getElem?.1 hx
  by_cases hpq : p = q
  · subst hpq
    right
    rw [hold] at hq
    exact (Option.some.inj hq).symm
  · left
    apply List.getElem?_mem (n := q)
    rw [List.getElem?_set_ne hpq]
    exact hq

theorem getElem?_lt_length {α : Type} (l : List α) (i : Nat) (a : α) (h : l[i]? = some a) :
    i < l.length := by
  by_contra hcon
  rw [List.getElem?_eq_none (by omega)] at h
  exact Option.noConfusion h

/-- Replacing bucket `i` by a bucket that meets the bucket conditions keeps
the invariant of the set. -/
theorem Inv_set (h : hashset) (hinv : h.Inv) (i : Nat) (b b1 : vector) (c : Nat)
    (hb : h.buckets[i]? = some b) (hwf : b1.WF ∧ b1.elemSize = h.elemSize)
    (hc : c + b.logLength = h.elemCount + b1.logLength)
    (hroute : ∀ x ∈ records b1, h.hashfn x h.numBuckets = (i : Int))
    (hnodup : (records b1).Pairwise (fun x y => h.compfn x y ≠ 0)) :
    hashset.Inv { h with buckets := h.buckets.set i b1, elemCount := c } := by
  refine ⟨?_, ?_, ?_, ?_, ?_⟩
  · simp only [List.length_set]
    exact hinv.len
  · intro b2 hb2
    rcases List.mem_or_eq_of_mem_set hb2 with hb2 | hb2
    · exact hinv.wf b2 hb2
    · subst hb2; exact hwf
  · have := totalLength_set h.buckets i b b1 hb
    have := hinv.count
    simp only
    omega
  · intro j b2 hb2 x hx
    simp only at hb2 ⊢
    by_cases hij : i = j
    · subst hij
      rw [List.getElem?_set_self (getElem?_lt_length _ _ _ hb)] at hb2
      rw [← Option.some.inj hb2] at hx
      exact hroute x hx
    · rw [List.getElem?_set_ne hij] at hb2
      exact hinv.route j b2 hb2 x hx
  · intro b2 hb2
    rcases List.mem_or_eq_of_mem_set hb2 with hb2 | hb2
    · exact hinv.nodup b2 hb2
    · subst hb2; exact hnodup

/-- Stored records after bucket `i` has been replaced. -/
theorem Stored_set (h : hashset) (i : Nat) (b b1 : vector) (c : Nat)
    (hb : h.buckets[i]? = some b) (x : Record) :
    Stored { h with buckets := h.buckets.set i b1, elemCount := c } x ↔
      x ∈ records b1 ∨ ∃ (j : Nat) (b2 : vector), j ≠ i ∧ h.buckets[j]? = some b2 ∧ x ∈ records b2 := by
  have hi := getElem?_lt_length _ _ _ hb
  unfold Stored
  simp only
  constructor
  · rintro ⟨b2, hb2, hx⟩
    obtain ⟨j, hj⟩ := List.mem_iff_getElem?.1 hb2
    by_cases hij : i = j
    · subst hij
      rw [List.getElem?_set_self hi] at hj
      rw [← Option.some.inj hj] at hx
      exact Or.inl hx
    · rw [List.getElem?_set_ne hij] at hj
      exact Or.inr ⟨j, b2, fun e => hij e.symm, hj, hx⟩
  · rintro (hx | ⟨j, b2, hji, hj, hx⟩)
    · exact ⟨b1, List.mem_set _ _ hi _, hx⟩
    · refine ⟨b2, ?_, hx⟩
      apply List.getElem?_mem (n := j)
      rw [List.getElem?_set_ne (fun e => hji e.symm)]
      exact hj

theorem Stored_iff (h : hashset) (x : Record) :
    Stored h x ↔ ∃ (j : Nat) (b : vector), h.buckets[j]? = some b ∧ x ∈ records b := by
  unfold Stored
  constructor
  · rintro ⟨b, hb, hx⟩
    obtain ⟨j, hj⟩ := List.mem_iff_getElem?.1 hb
    exact ⟨j, b, hj, hx⟩
  · rintro ⟨j, b, hj, hx⟩
    exact ⟨b, List.getElem?_mem hj, hx⟩

/-- A stored record that compares equal to `r` lies in the bucket of `r`. -/
theorem stored_equal_in_bucket (h : hashset) (hinv : h.Inv)
    (hcap : Capabilities h.hashfn h.compfn h.numBuckets) (r x : Record) (i j : Nat) (b : vector)
    (hi : h.hashfn r h.numBuckets = (i : Int)) (hj : h.buckets[j]? = some b)
    (hx : x ∈ records b) (hrx : h.compfn r x = 0) : j = i := by
  have h1 := hinv.route j b hj x hx
  have h2 := hcap.respects r x hrx
  omega

/-! ## Hash set: `HashSetEnter` -/

theorem GetHashNum_some (h : hashset) (hinv : h.Inv)
    (hcap : Capabilities h.hashfn h.compfn h.numBuckets) (r : Record) :
    ∃ (i : Nat) (b : vector), h.hashfn r h.numBuckets = (i : Int) ∧ GetHashNum h r = some i ∧
      h.buckets[i]? = some b := by
  obtain ⟨h1, h2⟩ := hcap.range r
  obtain ⟨i, hi⟩ := Int.eq_ofNat_of_zero_le h1
  have hlt : i < h.buckets.length := by rw [hinv.len]; omega
  refine ⟨i, h.buckets[i], hi, ?_, List.getElem?_eq_getElem hlt⟩
  unfold GetHashNum
  simp only
  rw [if_pos ⟨by omega, h2⟩, hi, Int.toNat_ofNat]

/-- The two outcomes of `HashSetEnter`: append to the bucket of the record
when no record of that bucket compares equal, else overwrite the first one
that does. -/
theorem HashSetEnter_spec (h : hashset) (hinv : h.Inv)
    (hcap : Capabilities h.hashfn h.compfn h.numBuckets) (r : Record)
    (hr : r.length = h.elemSize) :
    ∃ (i : Nat) (b b1 : vector) (c : Nat),
      h.hashfn r h.numBuckets = (i : Int) ∧ h.buckets[i]? = some b ∧
      HashSetEnter h r = some { h with buckets := h.buckets.set i b1, elemCount := c } ∧
      b1.WF ∧ b1.elemSize = h.elemSize ∧
      (((∀ x ∈ records b, h.compfn r x ≠ 0) ∧ records b1 = records b ++ [r] ∧
          c = h.elemCount + 1 ∧ b1.logLength = b.logLength + 1) ∨
        ∃ p, p < b.logLength ∧ h.compfn r (recordAt b p) = 0 ∧
          records b1 = (records b).set p r ∧ c = h.elemCount ∧ b1.logLength = b.logLength) := by
  obtain ⟨i, b, hi, hnum, hb⟩ := GetHashNum_some h hinv hcap r
  obtain ⟨hbwf, hbes⟩ := hinv.wf b (List.getElem?_mem hb)
  have hrb : r.length = b.elemSize := by rw [hbes]; exact hr
  obtain ⟨hnf, hf⟩ := linear_search_zero b hbwf.elemSize_pos r h.compfn
  by_cases hidx : VectorSearch b r h.compfn 0 false = -1
  · refine ⟨i, b, VectorAppend b r, h.elemCount + 1, hi, hb, ?_, VectorAppend_WF b hbwf r hrb,
      by rw [VectorAppend_elemSize, hbes], Or.inl ⟨?_, VectorAppend_records b hbwf r hrb, rfl,
        VectorAppend_logLength b r⟩⟩
    · unfold HashSetEnter
      simp only [hnum, hb]
      rw [if_pos (by rw [hidx]; rfl)]
    · intro x hx
      obtain ⟨q, hq, rfl⟩ := (mem_records b x).1 hx
      exact hnf.1 hidx q hq
  · obtain ⟨p, hp1, hp2, hp3, -⟩ := hf hidx
    obtain ⟨b1, hrep, hwf1, hes1, hlog1, -, -, hrec1⟩ := VectorReplace_spec b hbwf r hrb p hp2
    refine ⟨i, b, b1, h.elemCount, hi, hb, ?_, hwf1, by rw [hes1, hbes],
      Or.inr ⟨p, hp2, hp3, hrec1, rfl, hlog1⟩⟩
    unfold HashSetEnter
    simp only [hnum, hb]
    rw [if_neg (by rw [hp1]; unfold kNotFound; omega), hp1, hrep]

/-- Invariance: `HashSetEnter` keeps the invariant, adds the key of the record to the
keys of the set, and counts the record exactly when its key is new. -/
theorem HashSetEnter_inv (h : hashset) (hinv : h.Inv)
    (hcap : Capabilities h.hashfn h.compfn h.numBuckets) (r : Record)
    (hr : r.length = h.elemSize) :
    ∃ h1, HashSetEnter h r = some h1 ∧ h1.Inv ∧ h1.hashfn = h.hashfn ∧ h1.compfn = h.compfn ∧
      h1.numBuckets = h.numBuckets ∧ h1.elemSize = h.elemSize ∧
      (∀ k, HasKey h1 k ↔ h.compfn k r = 0 ∨ HasKey h k) ∧
      (HasKey h r → h1.elemCount = h.elemCount) ∧
      (¬ HasKey h r → h1.elemCount = h.elemCount + 1) := by
  obtain ⟨i, b, b1, c, hi, hb, henter, hwf1, hes1, hcase⟩ := HashSetEnter_spec h hinv hcap r hr
  have ho := hcap.order
  have hbmem : b ∈ h.buckets := List.getElem?_mem hb
  have hsto := Stored_set h i b b1 c hb
  rcases hcase with ⟨hnone, hrec, hc, hlog⟩ | ⟨p, hp, hmatch, hrec, hc, hlog⟩
  · -- no record of the bucket compares equal: append
    have hnokey : ¬ HasKey h r := by
      rintro ⟨x, hx, hrx⟩
      obtain ⟨j, b2, hj, hxb⟩ := (Stored_iff h x).1 hx
      have := stored_equal_in_bucket h hinv hcap r x i j b2 hi hj hxb hrx
      subst this
      rw [hb] at hj
      rw [← Option.some.inj hj] at hxb
      exact hnone x hxb hrx
    refine ⟨_, henter, ?_, rfl, rfl, rfl, rfl, ?_, fun hk => absurd hk hnokey, fun _ => hc⟩
    · apply Inv_set h hinv i b b1 c hb ⟨hwf1, hes1⟩ (by omega)
      · intro x hx
        rw [hrec, List.mem_append, List.mem_singleton] at hx
        rcases hx with hx | hx
        · exact hinv.route i b hb x hx
        · rw [hx]; exact hi
      · rw [hrec, List.pairwise_append]
        refine ⟨hinv.nodup b hbmem, List.pairwise_singleton _ _, ?_⟩
        intro a ha x hx
        rw [List.mem_singleton] at hx
        subst hx
        exact fun e => hnone a ha (ho.eq_symm _ _ e)
    · intro k
      unfold HasKey
      simp only [hsto]
      constructor
      · rintro ⟨x, hx, hkx⟩
        rcases hx with hx | ⟨j, b2, -, hj, hx⟩
        · rw [hrec, List.mem_append, List.mem_singleton] at hx
          rcases hx with hx | hx
          · exact Or.inr ⟨x, ⟨b, hbmem, hx⟩, hkx⟩
          · subst hx; exact Or.inl hkx
        · exact Or.inr ⟨x, ⟨b2, List.getElem?_mem hj, hx⟩, hkx⟩
      · rintro (hkr | ⟨x, hx, hkx⟩)
        · exact ⟨r, Or.inl (by rw [hrec]; simp), hkr⟩
        · obtain ⟨j, b2, hj, hxb⟩ := (Stored_iff h x).1 hx
          refine ⟨x, ?_, hkx⟩
          by_cases hji : j = i
          · subst hji
            rw [hb] at hj
            rw [← Option.some.inj hj] at hxb
            exact Or.inl (by rw [hrec]; exact List.mem_append_left _ hxb)
          · exact Or.inr ⟨j, b2, hji, hj, hxb⟩
  · -- a record of the bucket compares equal: overwrite
    have hold : (records b)[p]? = some (recordAt b p) := by
      rw [records_getElem?, if_pos hp]
    have holdmem : recordAt b p ∈ records b := List.getElem?_mem hold
    have hkey : HasKey h r := ⟨recordAt b p, ⟨b, hbmem, holdmem⟩, hmatch⟩
    have hsym : h.compfn (recordAt b p) r = 0 := ho.eq_symm _ _ hmatch
    refine ⟨_, henter, ?_, rfl, rfl, rfl, rfl, ?_, fun _ => hc, fun hk => absurd hkey hk⟩
    · apply Inv_set h hinv i b b1 c hb ⟨hwf1, hes1⟩ (by omega)
      · intro x hx
        rw [hrec] at hx
        rcases List.mem_or_eq_of_mem_set hx with hx | hx
        · exact hinv.route i b hb x hx
        · rw [hx]; exact hi
      · rw [hrec]
        apply pairwise_set _ p (recordAt b p) r hold _ _ (hinv.nodup b hbmem)
        · intro x hx e
          exact hx (ho.eq_trans _ _ _ hsym e)
        · intro x hx e
          exact hx (ho.eq_trans _ _ _ e hmatch)
    · intro k
      unfold HasKey
      simp only [hsto]
      constructor
      · rintro ⟨x, hx, hkx⟩
        right
        rcases hx with hx | ⟨j, b2, -, hj, hx⟩
        · rw [hrec] at hx
          rcases List.mem_or_eq_of_mem_set hx with hx | hx
          · exact ⟨x, ⟨b, hbmem, hx⟩, hkx⟩
          · subst hx
            exact ⟨recordAt b p, ⟨b, hbmem, holdmem⟩, ho.eq_trans _ _ _ hkx hmatch⟩
        · exact ⟨x, ⟨b2, List.getElem?_mem hj, hx⟩, hkx⟩
      · have hrmem : r ∈ records b1 := by
          rw [hrec]
          exact List.mem_set _ _ (by rw [records_length]; exact hp) _
        rintro (hkr | ⟨x, hx, hkx⟩)
        · exact ⟨r, Or.inl hrmem, hkr⟩
        · obtain ⟨j, b2, hj, hxb⟩ := (Stored_iff h x).1 hx
          by_cases hji : j = i
          · subst hji
            rw [hb] at hj
            rw [← Option.some.inj hj] at hxb
            rcases mem_set_or_old (records b) p (recordAt b p) r x hold hxb with hx2 | hx2
            · exact ⟨x, Or.inl (by rw [hrec]; exact hx2), hkx⟩
            · subst hx2
              exact ⟨r, Or.inl hrmem, ho.eq_trans _ _ _ hkx hsym⟩
          · exact ⟨x, Or.inr ⟨j, b2, hji, hj, hxb⟩, hkx⟩

/-! ## Hash set: `HashSetLookup` -/

/-- Outcome of `HashSetLookup`: the bucket of the key is sorted, and the
result is the address of a record of the sorted bucket that compares equal to
the key, or `NULL` when the bucket has none. -/
theorem HashSetLookup_spec (h : hashset) (hinv : h.Inv)
    (hcap : Capabilities h.hashfn h.compfn h.numBuckets) (k : Record) :
    ∃ (i : Nat) (b : vector) (res : Option Nat),
      h.hashfn k h.numBuckets = (i : Int) ∧ h.buckets[i]? = some b ∧
      HashSetLookup h k =
        some ({ h with buckets := h.buckets.set i (VectorSort b h.compfn) }, res) ∧
      (res = none ↔ ∀ x ∈ records b, h.compfn k x ≠ 0) ∧
      ∀ addr, res = some addr → ∃ j, j < b.logLength ∧
        VectorNth (VectorSort b h.compfn) j = some addr ∧
        load (VectorSort b h.compfn).elems addr h.elemSize = recordAt (VectorSort b h.compfn) j ∧
        h.compfn k (recordAt (VectorSort b h.compfn) j) = 0 := by
  obtain ⟨i, b, hi, hnum, hb⟩ := GetHashNum_some h hinv hcap k
  obtain ⟨hbwf, hbes⟩ := hinv.wf b (List.getElem?_mem hb)
  obtain ⟨hswf, hses, hslog, -, -, -, hsrec⟩ := VectorSort_spec b hbwf h.compfn
  have hperm := sortRecords_perm h.compfn (records b)
  have hsorted : List.Sorted (fun x y => h.compfn x y ≤ 0) (records (VectorSort b h.compfn)) := by
    rw [hsrec]; exact sortRecords_sorted h.compfn hcap.order _
  obtain ⟨hnf, hf⟩ := binary_search_zero (VectorSort b h.compfn) hswf.elemSize_pos k h.compfn
    hcap.order hsorted
  have hall : (∀ j, j < (VectorSort b h.compfn).logLength →
      h.compfn k (recordAt (VectorSort b h.compfn) j) ≠ 0) ↔
      ∀ x ∈ records b, h.compfn k x ≠ 0 := by
    constructor
    · intro hj x hx
      have hx2 : x ∈ records (VectorSort b h.compfn) := by
        rw [hsrec]; exact hperm.mem_iff.2 hx
      obtain ⟨q, hq, rfl⟩ := (mem_records _ x).1 hx2
      exact hj q hq
    · intro hx j hj
      apply hx
      apply hperm.mem_iff.1
      rw [← hsrec]
      exact (mem_records _ _).2 ⟨j, hj, rfl⟩
  by_cases hidx : VectorSearch (VectorSort b h.compfn) k h.compfn 0 true = -1
  · refine ⟨i, b, none, hi, hb, ?_, ?_, fun addr ha => Option.noConfusion ha⟩
    · unfold HashSetLookup
      simp only [hnum, hb]
      rw [if_pos (by rw [hidx]; rfl)]
    · exact ⟨fun _ => hall.1 (hnf.1 hidx), fun _ => rfl⟩
  · obtain ⟨j, hj1, hj2, hj3⟩ := hf hidx
    obtain ⟨hnth, -⟩ := VectorNth_load (VectorSort b h.compfn) j hj2
    refine ⟨i, b, some (j * (VectorSort b h.compfn).elemSize), hi, hb, ?_, ?_, ?_⟩
    · unfold HashSetLookup
      simp only [hnum, hb]
      rw [if_neg (by rw [hj1]; unfold kNotFound; omega), hj1, hnth]
    · constructor
      · intro e; exact Option.noConfusion e
      · intro hx
        exact absurd hj3 (hall.2 hx j hj2)
    · intro addr ha
      rw [← Option.some.inj ha]
      refine ⟨j, by rw [← hslog]; exact hj2, hnth, ?_, hj3⟩
      unfold recordAt
      rw [hses, hbes]

/-- Invariance: `HashSetLookup` keeps the invariant, the stored records and the count;
it returns `NULL` exactly when no stored record compares equal to the key,
and otherwise the address of a record of the key's bucket that does. -/
theorem HashSetLookup_inv (h : hashset) (hinv : h.Inv)
    (hcap : Capabilities h.hashfn h.compfn h.numBuckets) (k : Record) :
    ∃ (h1 : hashset) (res : Option Nat), HashSetLookup h k = some (h1, res) ∧ h1.Inv ∧
      h1.hashfn = h.hashfn ∧ h1.compfn = h.compfn ∧ h1.numBuckets = h.numBuckets ∧
      h1.elemSize = h.elemSize ∧ h1.elemCount = h.elemCount ∧
      (∀ x, Stored h1 x ↔ Stored h x) ∧
      (res = none ↔ ¬ HasKey h k) ∧
      ∀ addr, res = some addr → ∃ (i : Nat) (b1 : vector),
        h.hashfn k h.numBuckets = (i : Int) ∧ h1.buckets[i]? = some b1 ∧
        load b1.elems addr h.elemSize ∈ records b1 ∧
        h.compfn k (load b1.elems addr h.elemSize) = 0 := by
  obtain ⟨i, b, res, hi, hb, hlook, hnone, hsome⟩ := HashSetLookup_spec h hinv hcap k
  obtain ⟨hbwf, hbes⟩ := hinv.wf b (List.getElem?_mem hb)
  obtain ⟨hswf, hses, hslog, -, -, -, hsrec⟩ := VectorSort_spec b hbwf h.compfn
  have hperm := sortRecords_perm h.compfn (records b)
  have hbmem : b ∈ h.buckets := List.getElem?_mem hb
  have hilt := getElem?_lt_length _ _ _ hb
  have hmem : ∀ x, x ∈ records (VectorSort b h.compfn) ↔ x ∈ records b := by
    intro x; rw [hsrec]; exact hperm.mem_iff
  have hsto : ∀ x, Stored { h with buckets := h.buckets.set i (VectorSort b h.compfn) } x ↔
      Stored h x := by
    intro x
    rw [Stored_set h i b (VectorSort b h.compfn) h.elemCount hb x, Stored_iff, hmem]
    constructor
    · rintro (hx | ⟨j, b2, -, hj, hx⟩)
      · exact ⟨i, b, hb, hx⟩
      · exact ⟨j, b2, hj, hx⟩
    · rintro ⟨j, b2, hj, hx⟩
      by_cases hji : j = i
      · subst hji
        rw [hb] at hj
        rw [← Option.some.inj hj] at hx
        exact Or.inl hx
      · exact Or.inr ⟨j, b2, hji, hj, hx⟩
  refine ⟨_, res, hlook, ?_, rfl, rfl, rfl, rfl, rfl, hsto, ?_, ?_⟩
  · apply Inv_set h hinv i b (VectorSort b h.compfn) h.elemCount hb ⟨hswf, by rw [hses, hbes]⟩
      (by rw [hslog])
    · intro x hx
      exact hinv.route i b hb x ((hmem x).1 hx)
    · rw [hsrec]
      exact (hperm.pairwise_iff (fun {x y} hxy e => hxy (hcap.order.eq_symm _ _ e))).2
        (hinv.nodup b hbmem)
  · rw [hnone]
    constructor
    · rintro hx ⟨x, hxs, hkx⟩
      obtain ⟨j, b2, hj, hxb⟩ := (Stored_iff h x).1 hxs
      have := stored_equal_in_bucket h hinv hcap k x i j b2 hi hj hxb hkx
      subst this
      rw [hb] at hj
      rw [← Option.some.inj hj] at hxb
      exact hx x hxb hkx
    · intro hx x hxb hkx
      exact hx ⟨x, ⟨b, hbmem, hxb⟩, hkx⟩
  · intro addr ha
    obtain ⟨j, hj, -, hload, hkj⟩ := hsome addr ha
    refine ⟨i, VectorSort b h.compfn, hi, ?_, ?_, ?_⟩
    · simp only
      exact List.getElem?_set_self hilt
    · rw [hload]
      exact (mem_records _ _).2 ⟨j, by rw [hslog]; exact hj, rfl⟩
    · rw [hload]; exact hkj

/-! ## Hash set: creation and runs -/

theorem newBuckets_replicate (elemSize : Int) (freefn : Bool) (v0 : vector)
    (h : VectorNew elemSize freefn defaultVectorAlloc = some v0) (n : Nat) :
    newBuckets elemSize freefn n = some (List.replicate n v0) := by
  induction n with
  | zero => rfl
  | succ n ih =>
    unfold newBuckets
    rw [ih, h]
    simp only [Option.some.injEq]
    exact (List.replicate_succ' n v0).symm

theorem HashSetNew_spec (elemSize numBuckets : Int) (hashfn : HashFunction)
    (comparefn : CompareFunction) (freefn : Bool) (h0 : hashset)
    (hnew : HashSetNew elemSize numBuckets hashfn comparefn freefn = some h0) :
    h0.Inv ∧ h0.hashfn = hashfn ∧ h0.compfn = comparefn ∧ (h0.numBuckets : Int) = numBuckets ∧
      (h0.elemSize : Int) = elemSize ∧ h0.elemCount = 0 ∧ (∀ x, ¬ Stored h0 x) ∧
      ∀ b ∈ h0.buckets, b.logLength = 0 ∧ b.allocLength = 4 := by
  unfold HashSetNew at hnew
  by_cases hpos : elemSize > 0 ∧ numBuckets > 0
  · rw [if_pos hpos] at hnew
    have hv : ∃ v0, VectorNew elemSize freefn defaultVectorAlloc = some v0 := by
      unfold VectorNew defaultVectorAlloc
      simp [hpos.1]
    obtain ⟨v0, hv0⟩ := hv
    rw [newBuckets_replicate elemSize freefn v0 hv0] at hnew
    simp only [Option.some.injEq] at hnew
    subst hnew
    have hwf := VectorNew_WF _ _ _ _ hv0
    obtain ⟨hlog, hes, -, -⟩ := VectorNew_fields _ _ _ _ hv0
    have halloc : v0.allocLength = 4 := by
      unfold VectorNew defaultVectorAlloc at hv0
      simp [hpos.1] at hv0
      rw [← hv0]
    have hrec : records v0 = [] := by
      apply List.eq_nil_of_length_eq_zero
      rw [records_length, hlog]
    have hmem : ∀ b ∈ List.replicate numBuckets.toNat v0, b = v0 := fun b hb =>
      (List.mem_replicate.1 hb).2
    refine ⟨⟨?_, ?_, ?_, ?_, ?_⟩, rfl, rfl, ?_, ?_, rfl, ?_, ?_⟩
    · simp
    · intro b hb
      rw [hmem b hb]
      exact ⟨hwf, by simp only; omega⟩
    · simp only [totalLength, List.map_replicate, hlog, List.sum_replicate, smul_zero]
    · intro i b hb x hx
      rw [hmem b (List.getElem?_mem hb), hrec] at hx
      simp at hx
    · intro b hb
      rw [hmem b hb, hrec]
      exact List.Pairwise.nil
    · simp only; omega
    · simp only; omega
    · rintro x ⟨b, hb, hx⟩
      rw [hmem b hb, hrec] at hx
      simp at hx
    · intro b hb
      rw [hmem b hb]
      exact ⟨hlog, halloc⟩
  · rw [if_neg hpos] at hnew
    exact Option.noConfusion hnew

theorem distinctKeys_cons (compar : CompareFunction) (a : Record) (l : List Record) :
    distinctKeys compar (a :: l) =
      (if ∃ x ∈ l, compar a x = 0 then 0 else 1) + distinctKeys compar l := rfl

/-- Counting distinct keys when one more record arrives: it counts exactly
when no earlier record compares equal to it. -/
theorem distinctKeys_snoc (compar : CompareFunction) (ho : TotalOrder compar)
    (pre : List Record) (r : Record) :
    distinctKeys compar (pre ++ [r]) =
      distinctKeys compar pre + (if ∃ e ∈ pre, compar r e = 0 then 0 else 1) := by
  induction pre with
  | nil => simp [distinctKeys]
  | cons a pre ih =>
    rw [List.cons_append, distinctKeys_cons, distinctKeys_cons, ih]
    have hA : (∃ x ∈ pre ++ [r], compar a x = 0) ↔ ((∃ x ∈ pre, compar a x = 0) ∨ compar a r = 0) := by
      constructor
      · rintro ⟨x, hx, hax⟩
        rw [List.mem_append, List.mem_singleton] at hx
        rcases hx with hx | hx
        · exact Or.inl ⟨x, hx, hax⟩
        · subst hx; exact Or.inr hax
      · rintro (⟨x, hx, hax⟩ | har)
        · exact ⟨x, List.mem_append_left _ hx, hax⟩
        · exact ⟨r, by simp, har⟩
    have hE : (∃ e ∈ a :: pre, compar r e = 0) ↔ (compar r a = 0 ∨ ∃ e ∈ pre, compar r e = 0) := by
      simp
    by_cases har : compar a r = 0
    · have hra := ho.eq_symm _ _ har
      have hBE : (∃ x ∈ pre, compar a x = 0) ↔ (∃ e ∈ pre, compar r e = 0) := by
        constructor
        · rintro ⟨x, hx, hax⟩
          exact ⟨x, hx, ho.eq_trans _ _ _ hra hax⟩
        · rintro ⟨x, hx, hrx⟩
          exact ⟨x, hx, ho.eq_trans _ _ _ har hrx⟩
      rw [if_pos (hA.2 (Or.inr har)), if_pos (hE.2 (Or.inl hra))]
      by_cases hB : ∃ x ∈ pre, compar a x = 0
      · rw [if_pos hB, if_pos (hBE.1 hB)]
        omega
      · rw [if_neg hB, if_neg (fun e => hB (hBE.2 e))]
        omega
    · have hra : ¬ compar r a = 0 := fun e => har (ho.eq_symm _ _ e)
      by_cases hB : ∃ x ∈ pre, compar a x = 0
      · rw [if_pos (hA.2 (Or.inl hB)), if_pos hB]
        by_cases hE2 : ∃ e ∈ pre, compar r e = 0
        · rw [if_pos hE2, if_pos (hE.2 (Or.inr hE2))]
          omega
        · rw [if_neg hE2, if_neg (fun e => (hE.1 e).elim hra hE2)]
          omega
      · rw [if_neg (fun e => (hA.1 e).elim hB har), if_neg hB]
        by_cases hE2 : ∃ e ∈ pre, compar r e = 0
        · rw [if_pos hE2, if_pos (hE.2 (Or.inr hE2))]
          omega
        · rw [if_neg hE2, if_neg (fun e => (hE.1 e).elim hra hE2)]
          omega

/-- A sequence of `HashSetEnter` and `HashSetLookup` calls runs to the end,
keeps the invariant, and leaves a set whose keys are the keys entered and
whose count is the number of distinct keys entered. -/
theorem runCalls_spec (cs : List SetCall) (h : hashset) (hinv : h.Inv)
    (hcap : Capabilities h.hashfn h.compfn h.numBuckets)
    (hlen : ∀ r ∈ entered cs, r.length = h.elemSize) (pre : List Record)
    (hkeys : ∀ k, HasKey h k ↔ ∃ e ∈ pre, h.compfn k e = 0)
    (hcount : h.elemCount = distinctKeys h.compfn pre) :
    ∃ h1, runCalls h cs = some h1 ∧ h1.Inv ∧ h1.hashfn = h.hashfn ∧ h1.compfn = h.compfn ∧
      h1.numBuckets = h.numBuckets ∧ h1.elemSize = h.elemSize ∧
      (∀ k, HasKey h1 k ↔ ∃ e ∈ pre ++ entered cs, h.compfn k e = 0) ∧
      h1.elemCount = distinctKeys h.compfn (pre ++ entered cs) := by
  induction cs generalizing h pre with
  | nil =>
    refine ⟨h, rfl, hinv, rfl, rfl, rfl, rfl, ?_, ?_⟩
    · simpa [entered] using hkeys
    · simpa [entered] using hcount
  | cons c cs ih =>
    cases c with
    | enter r =>
      have hr : r.length = h.elemSize := hlen r (by simp [entered])
      obtain ⟨h1, he, hinv1, hf1, hc1, hn1, hs1, hk1, hcnt1, hcnt2⟩ :=
        HashSetEnter_inv h hinv hcap r hr
      have hcap1 : Capabilities h1.hashfn h1.compfn h1.numBuckets := by
        rw [hf1, hc1, hn1]; exact hcap
      have hkr : HasKey h r ↔ ∃ e ∈ pre, h.compfn r e = 0 := hkeys r
      obtain ⟨h2, hrun, hinv2, hf2, hc2, hn2, hs2, hk2, hcnt⟩ := ih h1 hinv1 hcap1
        (by intro x hx; rw [hs1]; exact hlen x (by simp [entered, hx])) (pre ++ [r])
        (by
          intro k
          rw [hk1 k, hkeys k, hc1]
          simp only [List.mem_append, List.mem_singleton]
          constructor
          · rintro (hkr | ⟨e, he, hke⟩)
            · exact ⟨r, Or.inr rfl, hkr⟩
            · exact ⟨e, Or.inl he, hke⟩
          · rintro ⟨e, he | he, hke⟩
            · exact Or.inr ⟨e, he, hke⟩
            · subst he; exact Or.inl hke)
        (by
          rw [hc1, distinctKeys_snoc h.compfn hcap.order]
          by_cases hk : HasKey h r
          · rw [hcnt1 hk, if_pos (hkr.1 hk), hcount]; rfl
          · rw [hcnt2 hk, if_neg (fun e => hk (hkr.2 e)), hcount])
      refine ⟨h2, ?_, hinv2, by rw [hf2, hf1], by rw [hc2, hc1], by rw [hn2, hn1],
        by rw [hs2, hs1], ?_, ?_⟩
      · simp only [runCalls, he]
        exact hrun
      · intro k
        rw [hk2 k, hc1]
        simp [entered]
      · rw [hcnt, hc1]
        simp [entered]
    | lookup k0 =>
      obtain ⟨h1, res, hl, hinv1, hf1, hc1, hn1, hs1, hcnt1, hsto, -, -⟩ :=
        HashSetLookup_inv h hinv hcap k0
      have hcap1 : Capabilities h1.hashfn h1.compfn h1.numBuckets := by
        rw [hf1, hc1, hn1]; exact hcap
      obtain ⟨h2, hrun, hinv2, hf2, hc2, hn2, hs2, hk2, hcnt⟩ := ih h1 hinv1 hcap1
        (by intro x hx; rw [hs1]; exact hlen x (by simpa [entered] using hx)) pre
        (by
          intro k
          rw [hc1, ← hkeys k]
          unfold HasKey
          simp only [hsto, hc1])
        (by rw [hcnt1, hc1, hcount])
      refine ⟨h2, ?_, hinv2, by rw [hf2, hf1], by rw [hc2, hc1], by rw [hn2, hn1],
        by rw [hs2, hs1], ?_, ?_⟩
      · simp only [runCalls, hl]
        exact hrun
      · intro k
        rw [hk2 k, hc1]
        simp [entered]
      · rw [hcnt, hc1]
        simp [entered]

theorem enterAll_eq_runCalls (rs : List Record) (h : hashset) :
    enterAll h rs = runCalls h (rs.map SetCall.enter) := by
  induction rs generalizing h with
  | nil => rfl
  | cons r rs ih =>
    simp only [enterAll, List.map_cons, runCalls]
    cases HashSetEnter h r with
    | none => rfl
    | some h1 => exact ih h1

theorem entered_map_enter (rs : List Record) : entered (rs.map SetCall.enter) = rs := by
  induction rs with
  | nil => rfl
  | cons r rs ih => simp [entered, ih]

/-- A run of calls started on a fresh set. -/
theorem runCalls_fresh (elemSize numBuckets : Int) (hashfn : HashFunction)
    (comparefn : CompareFunction) (freefn : Bool) (h0 : hashset)
    (hnew : HashSetNew elemSize numBuckets hashfn comparefn freefn = some h0)
    (hcap : Capabilities hashfn comparefn numBuckets) (cs : List SetCall)
    (hlen : ∀ r ∈ entered cs, (r.length : Int) = elemSize) :
    ∃ h1, runCalls h0 cs = some h1 ∧ h1.Inv ∧ h1.hashfn = hashfn ∧ h1.compfn = comparefn ∧
      (h1.numBuckets : Int) = numBuckets ∧ (h1.elemSize : Int) = elemSize ∧
      (∀ k, HasKey h1 k ↔ ∃ e ∈ entered cs, comparefn k e = 0) ∧
      h1.elemCount = distinctKeys comparefn (entered cs) := by
  obtain ⟨hinv, hf, hc, hn, hs, hcnt, hsto, -⟩ := HashSetNew_spec _ _ _ _ _ _ hnew
  have hcap0 : Capabilities h0.hashfn h0.compfn h0.numBuckets := by
    rw [hf, hc, hn]; exact hcap
  obtain ⟨h1, hrun, hinv1, hf1, hc1, hn1, hs1, hk1, hcnt1⟩ := runCalls_spec cs h0 hinv hcap0
    (by intro r hr; have := hlen r hr; omega) []
    (by
      intro k
      constructor
      · rintro ⟨x, hx, -⟩
        exact absurd hx (hsto x)
      · rintro ⟨e, he, -⟩
        simp at he)
    (by rw [hcnt]; rfl)
  rw [hc, List.nil_append] at hk1 hcnt1
  exact ⟨h1, hrun, hinv1, by rw [hf1, hf], by rw [hc1, hc], by rw [hn1, hn], by rw [hs1, hs],
    hk1, hcnt1⟩

theorem capabilities_int32 : Capabilities hashInt32 compareInt32 4 where
  range := fun r => by unfold hashInt32; omega
  respects := fun a b hab => by
    unfold compareInt32 at hab
    unfold hashInt32
    have : int32Value a = int32Value b := by omega
    rw [this]
  order := compareInt32_totalOrder

/-- In a bucket without two records comparing equal, records that compare
equal sit at the same index. -/
theorem pairwise_index_unique (compar : CompareFunction) (ho : TotalOrder compar)
    (l : List Record) (hl : l.Pairwise (fun x y => compar x y ≠ 0)) (p q : Nat) (x y : Record)
    (hp : l[p]? = some x) (hq : l[q]? = some y) (hxy : compar x y = 0) : p = q := by
  have hpl := getElem?_lt_length _ _ _ hp
  have hql := getElem?_lt_length _ _ _ hq
  rw [List.getElem?_eq_getElem hpl] at hp
  rw [List.getElem?_eq_getElem hql] at hq
  have hx := Option.some.inj hp
  have hy := Option.some.inj hq
  rcases Nat.lt_trichotomy p q with h | h | h
  · have := List.pairwise_iff_getElem.1 hl p q hpl hql h
    rw [hx, hy] at this
    exact absurd hxy this
  · exact h
  · have := List.pairwise_iff_getElem.1 hl q p hql hpl h
    rw [hx, hy] at this
    exact absurd (ho.eq_symm _ _ hxy) this

theorem records_at (v : vector) (p : Nat) (hp : p < v.logLength) :
    (records v)[p]? = some (recordAt v p) := by
  rw [records_getElem?, if_pos hp]

/-- Effect of `HashSetEnter` of a record whose key is stored at index `p` of bucket
`i`: the count is unchanged and the record is written at that index. -/
theorem HashSetEnter_overwrite (h : hashset) (hinv : h.Inv)
    (hcap : Capabilities h.hashfn h.compfn h.numBuckets) (r : Record)
    (hr : r.length = h.elemSize) (i p : Nat) (bucket : vector)
    (hbucket : h.buckets[i]? = some bucket) (hp : p < bucket.logLength)
    (heq : h.compfn (recordAt bucket p) r = 0) :
    ∃ h1 bucket1, HashSetEnter h r = some h1 ∧ h1.elemCount = h.elemCount ∧
      h1.buckets[i]? = some bucket1 ∧ p < bucket1.logLength ∧ recordAt bucket1 p = r ∧
      ∀ (j q : Nat) (b2 : vector), h1.buckets[j]? = some b2 → q < b2.logLength →
        h.compfn (recordAt b2 q) r = 0 → j = i ∧ q = p := by
  have ho := hcap.order
  have hra : h.compfn r (recordAt bucket p) = 0 := ho.eq_symm _ _ heq
  obtain ⟨i1, b, b1, c, hi, hb, henter, hwf1, hes1, hcase⟩ := HashSetEnter_spec h hinv hcap r hr
  have hamem : recordAt bucket p ∈ records bucket := List.getElem?_mem (records_at bucket p hp)
  have hii : i = i1 := stored_equal_in_bucket h hinv hcap r _ i1 i bucket hi hbucket hamem hra
  subst hii
  rw [hbucket] at hb
  have hbb := Option.some.inj hb
  subst hbb
  have hilt := getElem?_lt_length _ _ _ hbucket
  obtain ⟨h1, henter1, hinv1, hf1, hc1, hn1, -, -, -, -⟩ := HashSetEnter_inv h hinv hcap r hr
  have hh1 : h1 = { h with buckets := h.buckets.set i b1, elemCount := c } := by
    rw [henter] at henter1
    exact (Option.some.inj henter1).symm
  have hcap1 : Capabilities h1.hashfn h1.compfn h1.numBuckets := by
    rw [hf1, hc1, hn1]; exact hcap
  have hb1 : h1.buckets[i]? = some b1 := by
    rw [hh1]
    exact List.getElem?_set_self hilt
  rcases hcase with ⟨hnone, -, -, -⟩ | ⟨p1, hp1, hmatch, hrec, hc, hlog⟩
  · exact absurd hra (hnone _ hamem)
  · have hpp : p = p1 :=
      pairwise_index_unique h.compfn ho (records bucket)
        (hinv.nodup bucket (List.getElem?_mem hbucket)) p p1 _ _ (records_at bucket p hp)
        (records_at bucket p1 hp1) (ho.eq_trans _ _ _ heq hmatch)
    subst hpp
    have hp' : p < b1.logLength := by omega
    have hat : recordAt b1 p = r := by
      have e1 := records_at b1 p hp'
      rw [hrec, List.getElem?_set_self (by rw [records_length]; exact hp)] at e1
      exact (Option.some.inj e1).symm
    refine ⟨h1, b1, henter1, by rw [hh1, hc], hb1, hp', hat, ?_⟩
    intro j q b2 hb2 hq hqr
    rw [← hc1] at hqr
    have hqmem : recordAt b2 q ∈ records b2 := List.getElem?_mem (records_at b2 q hq)
    have hji : j = i := by
      have hirt : h1.hashfn r h1.numBuckets = (i : Int) := by rw [hf1, hn1]; exact hi
      exact stored_equal_in_bucket h1 hinv1 hcap1 r _ i j b2 hirt hb2 hqmem
        (hcap1.order.eq_symm _ _ hqr)
    subst hji
    rw [hb1] at hb2
    have hbb := Option.some.inj hb2
    subst hbb
    refine ⟨rfl, ?_⟩
    apply pairwise_index_unique h1.compfn hcap1.order (records b1)
      (hinv1.nodup b1 (List.getElem?_mem hb1)) q p _ _ (records_at b1 q hq)
      (records_at b1 p hp')
    rw [hat]
    exact hqr

theorem capabilities_keyed : Capabilities hashKey compareKey 4 where
  range := fun r => by unfold hashKey; omega
  respects := fun a b hab => by
    unfold compareKey at hab
    unfold hashKey
    have : (a.getD 0 0 : Int) = (b.getD 0 0 : Int) := by omega
    rw [this]
  order :=
    { refl := fun a => by unfold compareKey; omega
      swap := fun a b => by unfold compareKey; omega
      trans := fun a b c => by unfold compareKey; omega }

/-! ## Records on indices -/

theorem records_eq_recordAt (v w : vector) (i j : Nat) (hi : i < v.logLength)
    (hj : j < w.logLength) (h : (records v)[i]? = (records w)[j]?) :
    recordAt v i = recordAt w j := by
  rw [records_at v i hi, records_at w j hj] at h
  exact Option.some.inj h

/-! ## Capacity after a run of appends -/

theorem VectorNew_allocLength (elemSize : Int) (freeFn : Bool) (initialAllocation : Int)
    (v : vector) (h : VectorNew elemSize freeFn initialAllocation = some v) :
    (v.allocLength : Int) = if initialAllocation = 0 then 4 else initialAllocation := by
  unfold VectorNew defaultVectorAlloc at h
  simp only at h
  split_ifs at h with h1 h2 h2
  all_goals
    simp only [Option.some.injEq] at h
    subst h
    simp only
    omega

theorem VectorNew_eq_none (elemSize : Int) (freeFn : Bool) (initialAllocation : Int) :
    VectorNew elemSize freeFn initialAllocation = none ↔ elemSize ≤ 0 ∨ initialAllocation < 0 := by
  unfold VectorNew defaultVectorAlloc
  simp only
  constructor
  · intro h
    split_ifs at h with h1 h2 h2
    · omega
    · omega
  · intro h
    split_ifs with h1 h2 h2
    · omega
    · rfl
    · omega
    · rfl

theorem pow_two_le (c j k : Nat) (hjk : j ≤ k) : c * 2 ^ j ≤ c * 2 ^ k :=
  Nat.mul_le_mul_left c (Nat.pow_le_pow_right (by decide) hjk)

/-- Capacity along a run of appends: it stays of the form `c * 2 ^ k` with the
least `k` that makes room for the records held. -/
theorem appends_capacity (c : Nat) (hc : 0 < c) (rs : List Record) (v : vector) (k : Nat)
    (hv : v.allocLength = c * 2 ^ k) (hlog : v.logLength ≤ v.allocLength)
    (hmin : ∀ j, j < k → c * 2 ^ j < v.logLength) :
    ∃ k1, (rs.foldl VectorAppend v).allocLength = c * 2 ^ k1 ∧
      (rs.foldl VectorAppend v).logLength = v.logLength + rs.length ∧
      (rs.foldl VectorAppend v).logLength ≤ (rs.foldl VectorAppend v).allocLength ∧
      ∀ j, j < k1 → c * 2 ^ j < (rs.foldl VectorAppend v).logLength := by
  induction rs generalizing v k with
  | nil => exact ⟨k, hv, rfl, hlog, hmin⟩
  | cons r rs ih =>
    rw [List.foldl_cons]
    have hpos : 0 < c * 2 ^ k := Nat.mul_pos hc (Nat.pow_pos (by decide))
    by_cases hfull : v.logLength = v.allocLength
    · obtain ⟨k1, h1, h2, h3, h4⟩ := ih (VectorAppend v r) (k + 1)
        (by rw [VectorAppend_allocLength, if_pos hfull, hv, Nat.pow_succ, Nat.mul_assoc])
        (by rw [VectorAppend_allocLength, if_pos hfull, VectorAppend_logLength]; omega)
        (by
          intro j hj
          rw [VectorAppend_logLength]
          have := pow_two_le c j k (by omega)
          omega)
      refine ⟨k1, h1, ?_, h3, h4⟩
      rw [h2, VectorAppend_logLength, List.length_cons]
      omega
    · obtain ⟨k1, h1, h2, h3, h4⟩ := ih (VectorAppend v r) k
        (by rw [VectorAppend_allocLength, if_neg hfull, hv])
        (by rw [VectorAppend_allocLength, if_neg hfull, VectorAppend_logLength]; omega)
        (by
          intro j hj
          rw [VectorAppend_logLength]
          have := hmin j hj
          omega)
      refine ⟨k1, h1, ?_, h3, h4⟩
      rw [h2, VectorAppend_logLength, List.length_cons]
      omega

/-! ## Size fields along vector calls -/

theorem VectorMap_fields (v : vector) (mapFn : MapFunction) (auxData : AuxData) :
    (VectorMap v mapFn auxData).1.elemSize = v.elemSize ∧
      (VectorMap v mapFn auxData).1.logLength = v.logLength ∧
      (VectorMap v mapFn auxData).1.allocLength = v.allocLength ∧
      (VectorMap v mapFn auxData).1.freefn = v.freefn ∧
      (VectorMap v mapFn auxData).1.freed = v.freed :=
  ⟨rfl, rfl, rfl, rfl, rfl⟩

theorem grown_allocLength_le (v : vector) : v.allocLength ≤ (grown v).allocLength := by
  rw [grown_allocLength]
  split_ifs <;> omega

theorem VectorInsert_sizes (v : vector) (r : Record) (position : Int) (v1 : vector)
    (h : VectorInsert v r position = some v1) :
    v1.logLength = v.logLength + 1 ∧ v1.allocLength = (grown v).allocLength := by
  by_cases hpos : position ≥ 0 ∧ position ≤ v.logLength
  · obtain ⟨p, rfl⟩ := Int.eq_ofNat_of_zero_le hpos.1
    have hp : p ≤ v.logLength := by omega
    rcases Nat.lt_or_eq_of_le hp with hlt | heq
    · rw [VectorInsert_eq v r p hlt] at h
      rw [← Option.some.inj h]
      exact ⟨rfl, rfl⟩
    · subst heq
      rw [VectorInsert_end] at h
      rw [← Option.some.inj h]
      exact ⟨VectorAppend_logLength v r, by rw [VectorAppend_allocLength, grown_allocLength]⟩
  · unfold VectorInsert at h
    rw [if_neg hpos] at h
    exact Option.noConfusion h

theorem VectorReplace_sizes (v : vector) (r : Record) (position : Int) (v1 : vector)
    (h : VectorReplace v r position = some v1) :
    v1.logLength = v.logLength ∧ v1.allocLength = v.allocLength := by
  by_cases hpos : position ≥ 0 ∧ position < v.logLength
  · obtain ⟨p, rfl⟩ := Int.eq_ofNat_of_zero_le hpos.1
    rw [VectorReplace_eq v r p (by omega)] at h
    rw [← Option.some.inj h]
    exact ⟨callFree_logLength _ _, callFree_allocLength _ _⟩
  · unfold VectorReplace at h
    rw [if_neg hpos] at h
    exact Option.noConfusion h

theorem VectorDelete_sizes (v : vector) (position : Int) (v1 : vector)
    (h : VectorDelete v position = some v1) :
    v1.logLength = v.logLength - 1 ∧ v1.allocLength = v.allocLength := by
  by_cases hpos : position ≥ 0 ∧ position < v.logLength
  · obtain ⟨p, rfl⟩ := Int.eq_ofNat_of_zero_le hpos.1
    rw [VectorDelete_eq v p (by omega)] at h
    rw [← Option.some.inj h]
    exact ⟨rfl, callFree_allocLength _ _⟩
  · unfold VectorDelete at h
    rw [if_neg hpos] at h
    exact Option.noConfusion h

/-- One successful call never lowers `allocLength`, and keeps a positive
capacity that holds the live records. -/
theorem VectorCall_sizes (v : vector) (c : VectorCall) (v1 : vector)
    (h : VectorCall.apply v c = some v1) :
    v.allocLength ≤ v1.allocLength ∧
      (0 < v.allocLength → v.logLength ≤ v.allocLength →
        0 < v1.allocLength ∧ v1.logLength ≤ v1.allocLength) := by
  have hg := grown_allocLength_le v
  have hge := grown_allocLength v
  cases c with
  | append r =>
    simp only [VectorCall.apply, Option.some.injEq] at h
    subst h
    rw [VectorAppend_logLength, VectorAppend_allocLength, ← grown_allocLength]
    refine ⟨hg, fun h1 h2 => ?_⟩
    rw [hge]
    split_ifs <;> omega
  | insert r position =>
    obtain ⟨e1, e2⟩ := VectorInsert_sizes v r position v1 h
    rw [e1, e2]
    refine ⟨hg, fun h1 h2 => ?_⟩
    rw [hge]
    split_ifs <;> omega
  | replace r position =>
    obtain ⟨e1, e2⟩ := VectorReplace_sizes v r position v1 h
    rw [e1, e2]
    exact ⟨le_refl _, fun h1 h2 => ⟨h1, h2⟩⟩
  | delete position =>
    obtain ⟨e1, e2⟩ := VectorDelete_sizes v position v1 h
    rw [e1, e2]
    exact ⟨le_refl _, fun h1 h2 => ⟨h1, by omega⟩⟩
  | sort compare =>
    simp only [VectorCall.apply, Option.some.injEq] at h
    subst h
    exact ⟨le_refl _, fun h1 h2 => ⟨h1, h2⟩⟩
  | map mapFn auxData =>
    simp only [VectorCall.apply, Option.some.injEq] at h
    subst h
    exact ⟨le_refl _, fun h1 h2 => ⟨h1, h2⟩⟩
  | search key searchFn startIndex isSorted =>
    simp only [VectorCall.apply, Option.some.injEq] at h
    subst h
    exact ⟨le_refl _, fun h1 h2 => ⟨h1, h2⟩⟩

theorem runVector_sizes (cs : List VectorCall) (v v1 : vector) (h : runVector v cs = some v1)
    (h1 : 0 < v.allocLength) (h2 : v.logLength ≤ v.allocLength) :
    v.allocLength ≤ v1.allocLength ∧ 0 < v1.allocLength ∧ v1.logLength ≤ v1.allocLength := by
  induction cs generalizing v with
  | nil =>
    simp only [runVector, Option.some.injEq] at h
    subst h
    exact ⟨le_refl _, h1, h2⟩
  | cons c cs ih =>
    unfold runVector at h
    cases hc : VectorCall.apply v c with
    | none => rw [hc] at h; exact Option.noConfusion h
    | some v2 =>
      rw [hc] at h
      obtain ⟨e1, e2⟩ := VectorCall_sizes v c v2 hc
      obtain ⟨e3, e4⟩ := e2 h1 h2
      obtain ⟨e5, e6, e7⟩ := ih v2 h e3 e4
      exact ⟨by omega, e6, e7⟩

/-! ## Hash set calls on any well-formed set -/

/-- The `bsearch` loop returns `NULL` or the address of an element of the
interval that compares equal to the key, whatever the order of the range. -/
theorem bsearchLoop_range (key : Record) (mem : List Byte) (base size : Nat)
    (compar : CompareFunction) (fuel l u : Nat) :
    bsearchLoop key mem base size compar fuel l u = none ∨
      ∃ i, l ≤ i ∧ i < u ∧ bsearchLoop key mem base size compar fuel l u = some (base + i * size) ∧
        compar key (load mem (base + i * size) size) = 0 := by
  induction fuel generalizing l u with
  | zero => exact Or.inl rfl
  | succ fuel ih =>
    unfold bsearchLoop
    by_cases hlu : l < u
    · rw [if_pos hlu]
      simp only
      by_cases hc1 : compar key (load mem (base + (l + u) / 2 * size) size) < 0
      · rw [if_pos hc1]
        rcases ih l ((l + u) / 2) with h | ⟨i, h1, h2, h3, h4⟩
        · exact Or.inl h
        · exact Or.inr ⟨i, h1, by omega, h3, h4⟩
      · rw [if_neg hc1]
        by_cases hc2 : compar key (load mem (base + (l + u) / 2 * size) size) > 0
        · rw [if_pos hc2]
          rcases ih ((l + u) / 2 + 1) u with h | ⟨i, h1, h2, h3, h4⟩
          · exact Or.inl h
          · exact Or.inr ⟨i, by omega, h2, h3, h4⟩
        · rw [if_neg hc2]
          exact Or.inr ⟨(l + u) / 2, by omega, by omega, rfl, by omega⟩
    · rw [if_neg hlu]
      exact Or.inl rfl

/-- Binary `VectorSearch` from index 0 returns `-1` or the index of a live
record that compares equal to the key, whatever the order of the records. -/
theorem binary_search_range (v : vector) (hs : 0 < v.elemSize) (key : Record)
    (searchFn : CompareFunction) :
    VectorSearch v key searchFn 0 true = kNotFound ∨
      ∃ j : Nat, j < v.logLength ∧ VectorSearch v key searchFn 0 true = j ∧
        searchFn key (recordAt v j) = 0 := by
  unfold VectorSearch BinarySearchVector bsearch
  simp only [if_true]
  rcases bsearchLoop_range key v.elems (0 * v.elemSize) v.elemSize searchFn (v.logLength - 0) 0
      (v.logLength - 0) with h | ⟨j, -, h2, h3, h4⟩
  · left
    rw [h]
  · right
    rw [h3]
    refine ⟨j, by omega, GetIndex_slot v hs 0 j, ?_⟩
    rw [recordAt_add, Nat.zero_add] at h4
    exact h4

theorem GetHashNum_eq (h : hashset) (r : Record) :
    (GetHashNum h r = none ↔
        ¬ (0 ≤ h.hashfn r h.numBuckets ∧ h.hashfn r h.numBuckets < h.numBuckets)) ∧
      ((0 ≤ h.hashfn r h.numBuckets ∧ h.hashfn r h.numBuckets < h.numBuckets) →
        GetHashNum h r = some (h.hashfn r h.numBuckets).toNat) := by
  unfold GetHashNum
  simp only
  by_cases hr : h.hashfn r h.numBuckets ≥ 0 ∧ h.hashfn r h.numBuckets < h.numBuckets
  · rw [if_pos hr]
    exact ⟨⟨fun e => Option.noConfusion e, fun e => absurd hr e⟩, fun _ => rfl⟩
  · rw [if_neg hr]
    exact ⟨⟨fun _ => hr, fun _ => rfl⟩, fun e => absurd e hr⟩

/-- The drop of a sorted block: `qsort` leaves the bytes after the elements
alone. -/
theorem VectorSort_rest (v : vector) (hv : v.WF) (compare : CompareFunction) :
    (VectorSort v compare).elems.drop (v.logLength * v.elemSize)
      = v.elems.drop (v.logLength * v.elemSize) := by
  have huni : ∀ r ∈ sortRecords compare (records v), r.length = v.elemSize := fun r hr =>
    records_uniform v hv r ((sortRecords_perm compare (records v)).mem_iff.1 hr)
  have hlen : (sortRecords compare (records v)).length = v.logLength := by
    rw [(sortRecords_perm compare (records v)).length_eq, records_length]
  show (qsort v.elems v.logLength v.elemSize compare).drop _ = _
  unfold qsort
  rw [← records]
  apply List.drop_left'
  rw [flatten_length_uniform _ _ huni, hlen]

/-- Effect of `HashSetLookup` with a hash value in range, on a set with its `numBuckets`
well-formed buckets and any comparator: the call completes, sorts the bucket
of the key and returns `NULL` or the address of a record of that bucket that
compares equal to the key; it returns `NULL` when the bucket has none. -/
theorem HashSetLookup_general (h : hashset) (hlen : h.buckets.length = h.numBuckets)
    (hwf : ∀ b ∈ h.buckets, b.WF) (k : Record)
    (hrange : 0 ≤ h.hashfn k h.numBuckets ∧ h.hashfn k h.numBuckets < h.numBuckets) :
    ∃ (b : vector) (res : Option Nat),
      h.buckets[(h.hashfn k h.numBuckets).toNat]? = some b ∧
      HashSetLookup h k =
        some ({ h with
                buckets :=
                  (h.buckets.set (h.hashfn k h.numBuckets).toNat (VectorSort b h.compfn)) },
              res) ∧
      ((∀ x ∈ records b, h.compfn k x ≠ 0) → res = none) ∧
      ∀ addr, res = some addr → ∃ j, j < b.logLength ∧ addr = j * b.elemSize ∧
        h.compfn k (recordAt (VectorSort b h.compfn) j) = 0 := by
  have hnum := (GetHashNum_eq h k).2 hrange
  have hlt : (h.hashfn k h.numBuckets).toNat < h.buckets.length := by rw [hlen]; omega
  have hb := List.getElem?_eq_getElem hlt
  have hbwf := hwf _ (List.getElem?_mem hb)
  obtain ⟨hswf, hses, hslog, -, -, -, hsrec⟩ := VectorSort_spec _ hbwf h.compfn
  have hperm := sortRecords_perm h.compfn (records h.buckets[(h.hashfn k h.numBuckets).toNat])
  rcases binary_search_range (VectorSort h.buckets[(h.hashfn k h.numBuckets).toNat] h.compfn)
      hswf.elemSize_pos k h.compfn with hnf | ⟨j, hj1, hj2, hj3⟩
  · refine ⟨_, none, hb, ?_, fun _ => rfl, fun addr ha => Option.noConfusion ha⟩
    unfold HashSetLookup
    simp only [hnum, hb]
    rw [if_pos hnf]
  · obtain ⟨hnth, -⟩ := VectorNth_load _ j hj1
    refine ⟨_, some (j * (VectorSort h.buckets[(h.hashfn k h.numBuckets).toNat]
      h.compfn).elemSize), hb, ?_, ?_, ?_⟩
    · unfold HashSetLookup
      simp only [hnum, hb]
      rw [if_neg (by rw [hj2]; unfold kNotFound; omega), hj2, hnth]
    · intro hx
      exfalso
      apply hx (recordAt (VectorSort h.buckets[(h.hashfn k h.numBuckets).toNat] h.compfn) j) _ hj3
      apply hperm.mem_iff.1
      rw [← hsrec]
      exact (mem_records _ _).2 ⟨j, hj1, rfl⟩
    · intro addr ha
      rw [← Option.some.inj ha]
      exact ⟨j, by rw [← hslog]; exact hj1, by rw [hses], hj3⟩

/-- Effect of `HashSetEnter` with a hash value in range, on a set with its `numBuckets`
buckets and any comparator: the call completes; it appends to the bucket of
the record and counts it when the linear search finds nothing, and otherwise
overwrites the record found. -/
theorem HashSetEnter_general (h : hashset) (hlen : h.buckets.length = h.numBuckets)
    (hwf : ∀ b ∈ h.buckets, 0 < b.elemSize) (r : Record)
    (hrange : 0 ≤ h.hashfn r h.numBuckets ∧ h.hashfn r h.numBuckets < h.numBuckets) :
    ∃ (b b1 : vector) (c : Nat),
      h.buckets[(h.hashfn r h.numBuckets).toNat]? = some b ∧
      HashSetEnter h r =
        some { h with buckets := h.buckets.set (h.hashfn r h.numBuckets).toNat b1,
                      elemCount := c } ∧
      ((b1 = VectorAppend b r ∧ c = h.elemCount + 1 ∧
          ∀ i, i < b.logLength → h.compfn r (recordAt b i) ≠ 0) ∨
        ∃ p : Nat, p < b.logLength ∧ VectorReplace b r p = some b1 ∧ c = h.elemCount ∧
          h.compfn r (recordAt b p) = 0) := by
  have hnum := (GetHashNum_eq h r).2 hrange
  have hlt : (h.hashfn r h.numBuckets).toNat < h.buckets.length := by rw [hlen]; omega
  have hb := List.getElem?_eq_getElem hlt
  have hs := hwf _ (List.getElem?_mem hb)
  obtain ⟨hnf, hf⟩ := linear_search_zero h.buckets[(h.hashfn r h.numBuckets).toNat] hs r h.compfn
  by_cases hidx : VectorSearch h.buckets[(h.hashfn r h.numBuckets).toNat] r h.compfn 0 false = -1
  · refine ⟨_, VectorAppend _ r, h.elemCount + 1, hb, ?_, Or.inl ⟨rfl, rfl, hnf.1 hidx⟩⟩
    unfold HashSetEnter
    simp only [hnum, hb]
    rw [if_pos (by rw [hidx]; rfl)]
  · obtain ⟨p, hp1, hp2, hp3, -⟩ := hf hidx
    refine ⟨_, _, h.elemCount, hb, ?_, Or.inr ⟨p, hp2, VectorReplace_eq _ r p hp2, rfl, hp3⟩⟩
    unfold HashSetEnter
    simp only [hnum, hb]
    rw [if_neg (by rw [hp1]; unfold kNotFound; omega), hp1, VectorReplace_eq _ r p hp2]

theorem fresh4_WF : fresh4.WF := ⟨by decide, by decide, by decide, by decide⟩

theorem pair59_WF : pair59.WF := ⟨by decide, by decide, by decide, by decide⟩

theorem pair95_WF : pair95.WF := ⟨by decide, by decide, by decide, by decide⟩

theorem set95_buckets_WF : ∀ b ∈ set95.buckets, b.WF := by
  intro b hb
  simp only [set95, List.mem_cons, List.mem_singleton, List.not_mem_nil, or_false] at hb
  rcases hb with rfl | rfl | rfl | rfl
  · exact fresh4_WF
  · exact pair95_WF
  · exact fresh4_WF
  · exact fresh4_WF

/-! ## `VectorMap` and `HashSetMap` -/

theorem load_memcpy_slot (mem : List Byte) (s i j : Nat) (r : Record) (hr : r.length = s)
    (hin : i * s + s ≤ mem.length) :
    load (memcpy mem (i * s) r s) (j * s) s = if j = i then r else load mem (j * s) s := by
  by_cases hji : j = i
  · subst hji
    rw [if_pos rfl]
    apply List.ext_getElem?
    intro k
    rw [load_getElem?]
    by_cases hk : k < s
    · rw [memcpy_getElem? _ _ _ _ _ hin (by omega)]
      simp [hk]
    · simp only [hk, if_false]
      rw [List.getElem?_eq_none]
      omega
  · rw [if_neg hji]
    apply load_ext
    intro k hk
    rw [memcpy_getElem? _ _ _ _ _ hin (by omega)]
    rcases Nat.lt_or_gt_of_ne hji with h | h
    · have := slot_lt j i s k h hk
      simp [this]
    · have := slot_le (i + 1) j s h
      rw [Nat.succ_mul] at this
      have h1 : ¬ (j * s + k < i * s) := by omega
      have h2 : ¬ (j * s + k < i * s + s) := by omega
      simp [h1, h2]

/-- The `VectorMap` loop with a map function that keeps the width of a record:
the block keeps its length, the elements before `i` stay, and each of the `n`
elements from `i` on becomes the image of the element that was there. -/
theorem VectorMapLoop_spec (mapFn : MapFunction)
    (hf : ∀ r a, (mapFn r a).1.length = r.length) (s n i : Nat) (elems : List Byte)
    (auxData : AuxData) (hin : (i + n) * s ≤ elems.length) :
    (VectorMapLoop mapFn s n i elems auxData).1.length = elems.length ∧
      (∀ j, j < i → load (VectorMapLoop mapFn s n i elems auxData).1 (j * s) s
        = load elems (j * s) s) ∧
      ∀ j, i ≤ j → j < i + n → ∃ a,
        load (VectorMapLoop mapFn s n i elems auxData).1 (j * s) s
          = (mapFn (load elems (j * s) s) a).1 := by
  induction n generalizing i elems auxData with
  | zero => exact ⟨rfl, fun j _ => rfl, fun j h1 h2 => by omega⟩
  | succ n ih =>
    have hslot : i * s + s ≤ elems.length := by
      have := slot_le (i + 1) (i + (n + 1)) s (by omega)
      rw [Nat.succ_mul] at this
      omega
    have hwidth : (mapFn (load elems (i * s) s) auxData).1.length = s := by
      rw [hf, load_length _ _ _ hslot]
    have hlen : (memcpy elems (i * s) (mapFn (load elems (i * s) s) auxData).1 s).length
        = elems.length := memcpy_length _ _ _ _ hslot (by omega)
    have hload := fun j => load_memcpy_slot elems s i j _ hwidth hslot
    obtain ⟨h1, h2, h3⟩ := ih (i + 1)
      (memcpy elems (i * s) (mapFn (load elems (i * s) s) auxData).1 s)
      (mapFn (load elems (i * s) s) auxData).2
      (by rw [hlen]; have e : i + 1 + n = i + (n + 1) := by omega
          rw [e]; exact hin)
    unfold VectorMapLoop
    simp only
    refine ⟨by rw [h1, hlen], ?_, ?_⟩
    · intro j hj
      rw [h2 j (by omega), hload j, if_neg (by omega)]
    · intro j hj1 hj2
      rcases Nat.eq_or_lt_of_le hj1 with e | e
      · subst e
        rw [h2 i (by omega), hload i, if_pos rfl]
        exact ⟨auxData, rfl⟩
      · obtain ⟨a, ha⟩ := h3 j (by omega) (by omega)
        rw [hload j, if_neg (by omega)] at ha
        exact ⟨a, ha⟩

/-- Effect of `VectorMap` with a map function that keeps the width of a
record: the vector stays well-formed and every live record is the image of
one that was live before. -/
theorem VectorMap_spec (v : vector) (hv : v.WF) (mapFn : MapFunction)
    (hf : ∀ r a, (mapFn r a).1.length = r.length) (auxData : AuxData) :
    (VectorMap v mapFn auxData).1.WF ∧
      ∀ x ∈ records (VectorMap v mapFn auxData).1, ∃ r ∈ records v, ∃ a, x = (mapFn r a).1 := by
  have hin : (0 + v.logLength) * v.elemSize ≤ v.elems.length := by
    rw [Nat.zero_add, hv.block]
    exact slot_le _ _ _ hv.log_le
  obtain ⟨h1, -, h3⟩ := VectorMapLoop_spec mapFn hf v.elemSize v.logLength 0 v.elems auxData hin
  refine ⟨⟨hv.elemSize_pos, hv.alloc_pos, hv.log_le, ?_⟩, ?_⟩
  · show (VectorMapLoop mapFn v.elemSize v.logLength 0 v.elems auxData).1.length = _
    rw [h1, hv.block]
    rfl
  · intro x hx
    obtain ⟨j, hj, rfl⟩ := (mem_records _ x).1 hx
    obtain ⟨a, ha⟩ := h3 j (Nat.zero_le _) (by rw [Nat.zero_add]; exact hj)
    exact ⟨recordAt v j, (mem_records v _).2 ⟨j, hj, rfl⟩, a, ha⟩

/-- The `HashSetMap` loop: as many buckets as before, each the result of
`VectorMap` on the bucket that was there, with the same total length. -/
theorem HashSetMapLoop_spec (mapfn : MapFunction) (bs : List vector) (auxData : AuxData) :
    (HashSetMapLoop mapfn bs auxData).1.length = bs.length ∧
      totalLength (HashSetMapLoop mapfn bs auxData).1 = totalLength bs ∧
      ∀ (i : Nat) (b1 : vector), (HashSetMapLoop mapfn bs auxData).1[i]? = some b1 →
        ∃ b a, bs[i]? = some b ∧ b1 = (VectorMap b mapfn a).1 := by
  induction bs generalizing auxData with
  | nil =>
    refine ⟨rfl, rfl, fun i b1 h => ?_⟩
    simp [HashSetMapLoop] at h
  | cons b bs ih =>
    obtain ⟨h1, h2, h3⟩ := ih (VectorMap b mapfn auxData).2
    unfold HashSetMapLoop
    simp only
    refine ⟨by simp only [List.length_cons, h1], ?_, ?_⟩
    · unfold totalLength at h2 ⊢
      simp only [List.map_cons, List.sum_cons, h2]
      rfl
    · intro i b1 hb1
      cases i with
      | zero =>
        simp only [List.getElem?_cons_zero, Option.some.injEq] at hb1
        exact ⟨b, auxData, List.getElem?_cons_zero, hb1.symm⟩
      | succ i =>
        rw [List.getElem?_cons_succ] at hb1
        obtain ⟨b0, a, e1, e2⟩ := h3 i b1 hb1
        exact ⟨b0, a, by rw [List.getElem?_cons_succ]; exact e1, e2⟩

/-! ## Count and routing along hash set calls -/

theorem HashSetEnter_some_range (h : hashset) (r : Record) (h1 : hashset)
    (he : HashSetEnter h r = some h1) :
    0 ≤ h.hashfn r h.numBuckets ∧ h.hashfn r h.numBuckets < h.numBuckets := by
  by_contra hcon
  have := (GetHashNum_eq h r).1.2 hcon
  unfold HashSetEnter at he
  rw [this] at he
  exact Option.noConfusion he

theorem HashSetLookup_some_range (h : hashset) (k : Record) (out : hashset × Option Nat)
    (hl : HashSetLookup h k = some out) :
    0 ≤ h.hashfn k h.numBuckets ∧ h.hashfn k h.numBuckets < h.numBuckets := by
  by_contra hcon
  have := (GetHashNum_eq h k).1.2 hcon
  unfold HashSetLookup at hl
  rw [this] at hl
  exact Option.noConfusion hl

/-- Shape of the result of a successful `HashSetEnter`: one bucket replaced,
and the count raised by as much as that bucket grew. -/
theorem HashSetEnter_shape (h : hashset) (r : Record) (h1 : hashset)
    (he : HashSetEnter h r = some h1) :
    ∃ (i : Nat) (b b1 : vector) (c : Nat), h.buckets[i]? = some b ∧
      h1 = { h with buckets := h.buckets.set i b1, elemCount := c } ∧
      c + b.logLength = h.elemCount + b1.logLength := by
  unfold HashSetEnter at he
  cases hnum : GetHashNum h r with
  | none => rw [hnum] at he; exact Option.noConfusion he
  | some i =>
    cases hb : h.buckets[i]? with
    | none =>
      simp only [hnum, hb] at he
      exact Option.noConfusion he
    | some b =>
      simp only [hnum, hb] at he
      by_cases hidx : VectorSearch b r h.compfn 0 false = kNotFound
      · rw [if_pos hidx] at he
        refine ⟨i, b, VectorAppend b r, h.elemCount + 1, hb, (Option.some.inj he).symm, ?_⟩
        rw [VectorAppend_logLength]
        omega
      · rw [if_neg hidx] at he
        cases hrep : VectorReplace b r (VectorSearch b r h.compfn 0 false) with
        | none =>
          simp only [hrep] at he
          exact Option.noConfusion he
        | some b1 =>
          simp only [hrep, Option.some.injEq] at he
          refine ⟨i, b, b1, h.elemCount, hb, he.symm, ?_⟩
          rw [(VectorReplace_sizes _ _ _ _ hrep).1]

/-- Shape of the result of a successful `HashSetLookup`: one bucket sorted. -/
theorem HashSetLookup_shape (h : hashset) (k : Record) (h1 : hashset) (res : Option Nat)
    (hl : HashSetLookup h k = some (h1, res)) :
    ∃ (i : Nat) (b : vector), h.buckets[i]? = some b ∧
      h1 = { h with buckets := h.buckets.set i (VectorSort b h.compfn) } := by
  unfold HashSetLookup at hl
  cases hnum : GetHashNum h k with
  | none => rw [hnum] at hl; exact Option.noConfusion hl
  | some i =>
    cases hb : h.buckets[i]? with
    | none =>
      simp only [hnum, hb] at hl
      exact Option.noConfusion hl
    | some b =>
      simp only [hnum, hb] at hl
      refine ⟨i, b, hb, ?_⟩
      split_ifs at hl with hidx
      · simp only [Option.some.injEq, Prod.mk.injEq] at hl
        exact hl.1.symm
      · cases hnth : VectorNth (VectorSort b h.compfn)
            (VectorSearch (VectorSort b h.compfn) k h.compfn 0 true) with
        | none =>
          simp only [hnth] at hl
          exact Option.noConfusion hl
        | some addr =>
          simp only [hnth, Option.some.injEq, Prod.mk.injEq] at hl
          exact hl.1.symm

/-- One successful call keeps the number of buckets, the configuration and
the balance between `elemCount` and the total length of the buckets. -/
theorem SetOp_count (h : hashset) (c : SetOp) (h1 : hashset)
    (hc : SetOp.apply h c = some h1) :
    h1.buckets.length = h.buckets.length ∧ h1.numBuckets = h.numBuckets ∧
      h1.elemSize = h.elemSize ∧ h1.hashfn = h.hashfn ∧ h1.compfn = h.compfn ∧
      h1.elemCount + totalLength h.buckets = h.elemCount + totalLength h1.buckets := by
  cases c with
  | enter r =>
    obtain ⟨i, b, b1, n, hb, rfl, hn⟩ := HashSetEnter_shape h r h1 hc
    have := totalLength_set h.buckets i b b1 hb
    refine ⟨by simp only [List.length_set], rfl, rfl, rfl, rfl, ?_⟩
    simp only
    omega
  | lookup k =>
    unfold SetOp.apply at hc
    cases hl : HashSetLookup h k with
    | none =>
      simp only [hl] at hc
      exact Option.noConfusion hc
    | some out =>
      obtain ⟨h2, res⟩ := out
      simp only [hl, Option.some.injEq] at hc
      subst hc
      obtain ⟨i, b, hb, rfl⟩ := HashSetLookup_shape h k h2 res hl
      have := totalLength_set h.buckets i b (VectorSort b h.compfn) hb
      have e : (VectorSort b h.compfn).logLength = b.logLength := rfl
      refine ⟨by simp only [List.length_set], rfl, rfl, rfl, rfl, ?_⟩
      simp only
      omega
  | map mapfn auxData =>
    simp only [SetOp.apply, Option.some.injEq] at hc
    subst hc
    obtain ⟨e1, e2, -⟩ := HashSetMapLoop_spec mapfn h.buckets auxData
    refine ⟨e1, rfl, rfl, rfl, rfl, ?_⟩
    show h.elemCount + _ = h.elemCount + totalLength (HashSetMapLoop mapfn h.buckets auxData).1
    rw [e2]

theorem runOps_count (cs : List SetOp) (h h1 : hashset) (hrun : runOps h cs = some h1)
    (hlen : h.buckets.length = h.numBuckets) (hcount : h.elemCount = totalLength h.buckets) :
    h1.buckets.length = h1.numBuckets ∧ h1.elemCount = totalLength h1.buckets := by
  induction cs generalizing h with
  | nil =>
    simp only [runOps, Option.some.injEq] at hrun
    subst hrun
    exact ⟨hlen, hcount⟩
  | cons c cs ih =>
    unfold runOps at hrun
    cases hc : SetOp.apply h c with
    | none => rw [hc] at hrun; exact Option.noConfusion hrun
    | some h2 =>
      rw [hc] at hrun
      obtain ⟨e1, e2, -, -, -, e6⟩ := SetOp_count h c h2 hc
      exact ih h2 hrun (by rw [e1, e2]; exact hlen) (by omega)

theorem Routed_set (h : hashset) (hinv : h.Routed) (i : Nat) (b b1 : vector) (c : Nat)
    (hb : h.buckets[i]? = some b) (hwf : b1.WF ∧ b1.elemSize = h.elemSize)
    (hroute : ∀ x ∈ records b1, h.hashfn x h.numBuckets = (i : Int)) :
    hashset.Routed { h with buckets := h.buckets.set i b1, elemCount := c } := by
  refine ⟨?_, ?_, ?_⟩
  · simp only [List.length_set]
    exact hinv.len
  · intro b2 hb2
    rcases List.mem_or_eq_of_mem_set hb2 with hb2 | hb2
    · exact hinv.wf b2 hb2
    · subst hb2; exact hwf
  · intro j b2 hb2 x hx
    simp only at hb2 ⊢
    by_cases hij : i = j
    · subst hij
      rw [List.getElem?_set_self (getElem?_lt_length _ _ _ hb)] at hb2
      rw [← Option.some.inj hb2] at hx
      exact hroute x hx
    · rw [List.getElem?_set_ne hij] at hb2
      exact hinv.route j b2 hb2 x hx

/-- One successful call that keeps records routable keeps every record in
the bucket its hash names. -/
theorem SetOp_routed (h : hashset) (hinv : h.Routed) (c : SetOp)
    (hk : SetOp.KeepsRouting h.hashfn h.numBuckets h.elemSize c) (h1 : hashset)
    (hc : SetOp.apply h c = some h1) : h1.Routed := by
  cases c with
  | enter r =>
    have hr : r.length = h.elemSize := by
      have : (r.length : Int) = h.elemSize := hk
      omega
    have hrange := HashSetEnter_some_range h r h1 hc
    obtain ⟨b, b1, n, hb, he, hcase⟩ := HashSetEnter_general h hinv.len
      (fun b hb => (hinv.wf b hb).1.elemSize_pos) r hrange
    obtain ⟨hbwf, hbes⟩ := hinv.wf b (List.getElem?_mem hb)
    have hrb : r.length = b.elemSize := by rw [hbes]; exact hr
    have hi : h.hashfn r h.numBuckets = ((h.hashfn r h.numBuckets).toNat : Int) := by omega
    have hh : h1 = { h with buckets := h.buckets.set (h.hashfn r h.numBuckets).toNat b1,
                            elemCount := n } := by
      have hc2 : HashSetEnter h r = some h1 := hc
      rw [he] at hc2
      exact (Option.some.inj hc2).symm
    rw [hh]
    rcases hcase with ⟨rfl, -, -⟩ | ⟨p, hp, hrep, -, -⟩
    · apply Routed_set h hinv _ b _ n hb
        ⟨VectorAppend_WF b hbwf r hrb, by rw [VectorAppend_elemSize, hbes]⟩
      intro x hx
      rw [VectorAppend_records b hbwf r hrb, List.mem_append, List.mem_singleton] at hx
      rcases hx with hx | hx
      · exact hinv.route _ b hb x hx
      · rw [hx]; exact hi
    · obtain ⟨b2, hrep2, hwf2, hes2, -, -, -, hrec2⟩ := VectorReplace_spec b hbwf r hrb p hp
      rw [hrep] at hrep2
      have e := Option.some.inj hrep2
      subst e
      apply Routed_set h hinv _ b _ n hb ⟨hwf2, by rw [hes2, hbes]⟩
      intro x hx
      rw [hrec2] at hx
      rcases List.mem_or_eq_of_mem_set hx with hx | hx
      · exact hinv.route _ b hb x hx
      · rw [hx]; exact hi
  | lookup k =>
    unfold SetOp.apply at hc
    cases hl : HashSetLookup h k with
    | none =>
      simp only [hl] at hc
      exact Option.noConfusion hc
    | some out =>
      obtain ⟨h2, res⟩ := out
      simp only [hl, Option.some.injEq] at hc
      subst hc
      obtain ⟨i, b, hb, rfl⟩ := HashSetLookup_shape h k h2 res hl
      obtain ⟨hbwf, hbes⟩ := hinv.wf b (List.getElem?_mem hb)
      obtain ⟨hswf, hses, -, -, -, -, hsrec⟩ := VectorSort_spec b hbwf h.compfn
      apply Routed_set h hinv i b _ h.elemCount hb ⟨hswf, by rw [hses, hbes]⟩
      intro x hx
      rw [hsrec] at hx
      exact hinv.route i b hb x ((sortRecords_perm h.compfn (records b)).mem_iff.1 hx)
  | map mapfn auxData =>
    simp only [SetOp.apply, Option.some.injEq] at hc
    subst hc
    have hk2 : ∀ r a, (mapfn r a).1.length = r.length ∧
        h.hashfn (mapfn r a).1 h.numBuckets = h.hashfn r h.numBuckets := hk
    obtain ⟨e1, -, e3⟩ := HashSetMapLoop_spec mapfn h.buckets auxData
    refine ⟨?_, ?_, ?_⟩
    · show (HashSetMapLoop mapfn h.buckets auxData).1.length = h.numBuckets
      rw [e1]; exact hinv.len
    · intro b1 hb1
      obtain ⟨i, hi⟩ := List.mem_iff_getElem?.1 hb1
      obtain ⟨b, a, hb, rfl⟩ := e3 i b1 hi
      obtain ⟨hbwf, hbes⟩ := hinv.wf b (List.getElem?_mem hb)
      exact ⟨(VectorMap_spec b hbwf mapfn (fun r a => (hk2 r a).1) a).1, hbes⟩
    · intro i b1 hb1 x hx
      obtain ⟨b, a, hb, rfl⟩ := e3 i b1 hb1
      obtain ⟨hbwf, -⟩ := hinv.wf b (List.getElem?_mem hb)
      obtain ⟨r, hr, a1, rfl⟩ :=
        (VectorMap_spec b hbwf mapfn (fun r a => (hk2 r a).1) a).2 x hx
      show h.hashfn (mapfn r a1).1 h.numBuckets = (i : Int)
      rw [(hk2 r a1).2]
      exact hinv.route i b hb r hr

theorem runOps_routed (cs : List SetOp) (h h1 : hashset) (hrun : runOps h cs = some h1)
    (hinv : h.Routed)
    (hk : ∀ c ∈ cs, SetOp.KeepsRouting h.hashfn h.numBuckets h.elemSize c) :
    h1.Routed ∧ h1.hashfn = h.hashfn ∧ h1.numBuckets = h.numBuckets := by
  induction cs generalizing h with
  | nil =>
    simp only [runOps, Option.some.injEq] at hrun
    subst hrun
    exact ⟨hinv, rfl, rfl⟩
  | cons c cs ih =>
    unfold runOps at hrun
    cases hc : SetOp.apply h c with
    | none => rw [hc] at hrun; exact Option.noConfusion hrun
    | some h2 =>
      rw [hc] at hrun
      obtain ⟨-, e2, e3, e4, -, -⟩ := SetOp_count h c h2 hc
      have hinv2 := SetOp_routed h hinv c (hk c (List.mem_cons_self _ _)) h2 hc
      obtain ⟨r1, r2, r3⟩ := ih h2 hrun hinv2 (by
        intro c1 hc1
        rw [e2, e3, e4]
        exact hk c1 (List.mem_cons_of_mem _ hc1))
      exact ⟨r1, by rw [r2, e4], by rw [r3, e2]⟩

theorem sampleOps_keepsRouting : ∀ c ∈ sampleOps, SetOp.KeepsRouting hashKey 4 4 c := by
  intro c hc
  simp only [sampleOps, List.mem_cons, List.mem_singleton, List.not_mem_nil, or_false] at hc
  rcases hc with rfl | rfl | rfl | rfl
  · show ((4 : Nat) : Int) = 4
    rfl
  · show ((4 : Nat) : Int) = 4
    rfl
  · exact True.intro
  · intro r a
    refine ⟨by simp [stamp], ?_⟩
    cases r with
    | nil => rfl
    | cons x t => rfl

/-! ## Calls with the assertions on allocation -/

theorem allocSize_eq (count elemSize : Int) (h0 : 0 ≤ count * elemSize)
    (h1 : count * elemSize ≤ INT_MAX) : allocSize count elemSize = (count * elemSize).toNat := by
  unfold allocSize toSizeT intWrap
  unfold INT_MAX at h1
  omega

/-- Where the block size fits an `int` and `malloc` serves it, `VectorNew` with
the assertion on the block is `VectorNew` without it. -/
theorem heap_VectorNew_eq (heap : Allocator) (elemSize : Int) (freeFn : Bool)
    (initialAllocation : Int)
    (hfit : (if initialAllocation = 0 then defaultVectorAlloc else initialAllocation) * elemSize
      ≤ INT_MAX)
    (hheap : heap (allocSize
      (if initialAllocation = 0 then defaultVectorAlloc else initialAllocation) elemSize) = true) :
    Heap.VectorNew heap elemSize freeFn initialAllocation
      = VectorNew elemSize freeFn initialAllocation := by
  unfold Heap.VectorNew VectorNew
  simp only
  by_cases hpos : elemSize > 0 ∧
      (if initialAllocation = 0 then defaultVectorAlloc else initialAllocation) > 0
  · rw [if_pos hpos, if_pos hpos, if_pos hheap]
    have h0 : 0 ≤ (if initialAllocation = 0 then defaultVectorAlloc else initialAllocation)
        * elemSize := Int.mul_nonneg (by omega) (by omega)
    have e : ((if initialAllocation = 0 then defaultVectorAlloc else initialAllocation)
        * elemSize).toNat
        = (if initialAllocation = 0 then defaultVectorAlloc else initialAllocation).toNat
          * elemSize.toNat := by
      obtain ⟨a, ha⟩ := Int.eq_ofNat_of_zero_le (le_of_lt hpos.2)
      obtain ⟨b, hb⟩ := Int.eq_ofNat_of_zero_le (le_of_lt hpos.1)
      rw [ha, hb, ← Int.natCast_mul, Int.toNat_ofNat, Int.toNat_ofNat, Int.toNat_ofNat]
    rw [allocSize_eq _ _ h0 hfit, e]
  · rw [if_neg hpos, if_neg hpos]

theorem heap_VectorNew_none (heap : Allocator) (elemSize : Int) (freeFn : Bool)
    (initialAllocation : Int) :
    Heap.VectorNew heap elemSize freeFn initialAllocation = none ↔
      elemSize ≤ 0 ∨ initialAllocation < 0 ∨
        heap (allocSize (if initialAllocation = 0 then 4 else initialAllocation) elemSize)
          = false := by
  unfold Heap.VectorNew defaultVectorAlloc
  simp only
  by_cases hpos : elemSize > 0 ∧ (if initialAllocation = 0 then 4 else initialAllocation) > 0
  · have hia : ¬ initialAllocation < 0 := by
      intro hneg
      rw [if_neg (by omega)] at hpos
      omega
    rw [if_pos hpos]
    by_cases hh : heap (allocSize (if initialAllocation = 0 then 4 else initialAllocation)
        elemSize) = true
    · rw [if_pos hh]
      constructor
      · intro e; exact Option.noConfusion e
      · rintro (e | e | e)
        · omega
        · omega
        · rw [hh] at e; exact Bool.noConfusion e
    · rw [if_neg hh]
      exact ⟨fun _ => Or.inr (Or.inr (by simpa using hh)), fun _ => rfl⟩
  · rw [if_neg hpos]
    refine ⟨fun _ => ?_, fun _ => rfl⟩
    by_cases h0 : initialAllocation = 0
    · rw [if_pos h0] at hpos
      left; omega
    · rw [if_neg h0] at hpos
      by_cases he : elemSize ≤ 0
      · exact Or.inl he
      · right; left; omega

theorem heap_VectorNew_fields (heap : Allocator) (elemSize : Int) (freeFn : Bool)
    (initialAllocation : Int) (v : vector)
    (h : Heap.VectorNew heap elemSize freeFn initialAllocation = some v) :
    v.logLength = 0 ∧ (v.elemSize : Int) = elemSize ∧
      ((v.allocLength : Int) = if initialAllocation = 0 then 4 else initialAllocation) ∧
      v.freefn = freeFn ∧ v.freed = [] := by
  unfold Heap.VectorNew defaultVectorAlloc at h
  simp only at h
  split_ifs at h with h1 h2 h3 h4 h5
  all_goals
    simp only [Option.some.injEq] at h
    subst h
    refine ⟨rfl, ?_, ?_, rfl, rfl⟩ <;> simp only <;> omega

theorem heap_ensureRoom_none (heap : Allocator) (v : vector) :
    Heap.ensureRoom heap v = none ↔
      v.logLength = v.allocLength ∧
        heap (allocSize ((v.allocLength * 2 : Nat) : Int) v.elemSize) = false := by
  unfold Heap.ensureRoom Heap.DoubleCapacity
  simp only
  by_cases hfull : v.logLength = v.allocLength
  · rw [if_pos hfull]
    by_cases hh : heap (allocSize ((v.allocLength * 2 : Nat) : Int) v.elemSize) = true
    · rw [if_pos hh]
      constructor
      · intro e; exact Option.noConfusion e
      · rintro ⟨-, e⟩
        rw [hh] at e; exact Bool.noConfusion e
    · rw [if_neg hh]
      exact ⟨fun _ => ⟨hfull, by simpa using hh⟩, fun _ => rfl⟩
  · rw [if_neg hfull]
    constructor
    · intro e; exact Option.noConfusion e
    · rintro ⟨e, -⟩
      exact absurd e hfull

theorem heap_ensureRoom_logLength (heap : Allocator) (v v1 : vector)
    (h : Heap.ensureRoom heap v = some v1) :
    v1.logLength = v.logLength ∧ v1.elemSize = v.elemSize ∧
      v1.allocLength = (if v.logLength = v.allocLength then v.allocLength * 2 else v.allocLength) := by
  unfold Heap.ensureRoom Heap.DoubleCapacity at h
  simp only at h
  split_ifs at h with h1 h2
  · simp only [Option.some.injEq] at h
    subst h
    exact ⟨rfl, rfl, by rw [if_pos h1]⟩
  · simp only [Option.some.injEq] at h
    subst h
    exact ⟨rfl, rfl, by rw [if_neg h1]⟩

/-- Where the doubled block fits an `int` and `realloc` serves it, the capacity
check with the assertion gives the vector of the check without it. -/
theorem heap_ensureRoom_eq (heap : Allocator) (v : vector)
    (hfit : ((v.allocLength * 2 : Nat) : Int) * v.elemSize ≤ INT_MAX)
    (hheap : heap (allocSize ((v.allocLength * 2 : Nat) : Int) v.elemSize) = true) :
    Heap.ensureRoom heap v = some (grown v) := by
  unfold Heap.ensureRoom Heap.DoubleCapacity grown DoubleCapacity
  simp only
  by_cases hfull : v.logLength = v.allocLength
  · have h0 : 0 ≤ ((v.allocLength * 2 : Nat) : Int) * v.elemSize :=
      Int.mul_nonneg (by omega) (by omega)
    have e : allocSize ((v.allocLength * 2 : Nat) : Int) v.elemSize
        = v.allocLength * 2 * v.elemSize := by
      rw [allocSize_eq _ _ h0 hfit, ← Int.natCast_mul, Int.toNat_ofNat]
    rw [if_pos hfull, if_pos hfull, if_pos hheap, e]
  · rw [if_neg hfull, if_neg hfull]

theorem heap_VectorAppend_none (heap : Allocator) (v : vector) (r : Record) :
    Heap.VectorAppend heap v r = none ↔
      v.logLength = v.allocLength ∧
        heap (allocSize ((v.allocLength * 2 : Nat) : Int) v.elemSize) = false := by
  rw [← heap_ensureRoom_none]
  unfold Heap.VectorAppend
  cases Heap.ensureRoom heap v with
  | none => exact ⟨fun _ => rfl, fun _ => rfl⟩
  | some v1 =>
    constructor
    · intro e; exact Option.noConfusion e
    · intro e; exact Option.noConfusion e

theorem heap_VectorAppend_eq (heap : Allocator) (v : vector) (r : Record)
    (hfit : ((v.allocLength * 2 : Nat) : Int) * v.elemSize ≤ INT_MAX)
    (hheap : heap (allocSize ((v.allocLength * 2 : Nat) : Int) v.elemSize) = true) :
    Heap.VectorAppend heap v r = some (VectorAppend v r) := by
  unfold Heap.VectorAppend
  rw [heap_ensureRoom_eq heap v hfit hheap, VectorAppend_eq]
  simp only [grown_logLength, grown_elemSize]

theorem heap_VectorInsert_none (heap : Allocator) (v : vector) (r : Record) (position : Int) :
    Heap.VectorInsert heap v r position = none ↔
      ¬ (0 ≤ position ∧ position ≤ v.logLength) ∨
        (v.logLength = v.allocLength ∧
          heap (allocSize ((v.allocLength * 2 : Nat) : Int) v.elemSize) = false) := by
  unfold Heap.VectorInsert
  by_cases hpos : position ≥ 0 ∧ position ≤ v.logLength
  · rw [if_pos hpos]
    by_cases hend : position = v.logLength
    · rw [if_pos hend, heap_VectorAppend_none]
      exact ⟨fun h => Or.inr h, fun h => h.elim (fun e => absurd hpos e) id⟩
    · rw [if_neg hend, ← heap_ensureRoom_none]
      cases Heap.ensureRoom heap v with
      | none => exact ⟨fun _ => Or.inr rfl, fun _ => rfl⟩
      | some v1 =>
        constructor
        · intro e; exact Option.noConfusion e
        · rintro (e | e)
          · exact absurd hpos e
          · exact Option.noConfusion e
  · rw [if_neg hpos]
    exact ⟨fun _ => Or.inl hpos, fun _ => rfl⟩

theorem heap_VectorInsert_eq (heap : Allocator) (v : vector) (r : Record) (position : Int)
    (hfit : ((v.allocLength * 2 : Nat) : Int) * v.elemSize ≤ INT_MAX)
    (hheap : heap (allocSize ((v.allocLength * 2 : Nat) : Int) v.elemSize) = true) :
    Heap.VectorInsert heap v r position = VectorInsert v r position := by
  unfold Heap.VectorInsert VectorInsert
  by_cases hpos : position ≥ 0 ∧ position ≤ v.logLength
  · rw [if_pos hpos, if_pos hpos]
    by_cases hend : position = v.logLength
    · rw [if_pos hend, if_pos hend, heap_VectorAppend_eq heap v r hfit hheap]
    · rw [if_neg hend, if_neg hend, heap_ensureRoom_eq heap v hfit hheap]
      rfl
  · rw [if_neg hpos, if_neg hpos]

/-- With the assertion of `DoubleCapacity`, `HashSetEnter` on a set with its
`numBuckets` buckets aborts exactly when the hash is out of range, or the
record is new to its bucket, the bucket is full and `realloc` returns
`NULL`. -/
theorem heap_HashSetEnter_none (heap : Allocator) (h : hashset)
    (hlen : h.buckets.length = h.numBuckets) (hwf : ∀ b ∈ h.buckets, 0 < b.elemSize)
    (r : Record) :
    Heap.HashSetEnter heap h r = none ↔
      ¬ (0 ≤ h.hashfn r h.numBuckets ∧ h.hashfn r h.numBuckets < h.numBuckets) ∨
        ∃ b, h.buckets[(h.hashfn r h.numBuckets).toNat]? = some b ∧
          (∀ i, i < b.logLength → h.compfn r (recordAt b i) ≠ 0) ∧
          b.logLength = b.allocLength ∧
          heap (allocSize ((b.allocLength * 2 : Nat) : Int) b.elemSize) = false := by
  by_cases hrange : 0 ≤ h.hashfn r h.numBuckets ∧ h.hashfn r h.numBuckets < h.numBuckets
  · have hnum := (GetHashNum_eq h r).2 hrange
    have hlt : (h.hashfn r h.numBuckets).toNat < h.buckets.length := by rw [hlen]; omega
    have hb := List.getElem?_eq_getElem hlt
    have hs := hwf _ (List.getElem?_mem hb)
    obtain ⟨hnf, hf⟩ := linear_search_zero h.buckets[(h.hashfn r h.numBuckets).toNat] hs r
      h.compfn
    unfold Heap.HashSetEnter
    simp only [hnum, hb]
    by_cases hidx : VectorSearch h.buckets[(h.hashfn r h.numBuckets).toNat] r h.compfn 0 false
        = -1
    · rw [if_pos (by rw [hidx]; rfl)]
      have happ := heap_VectorAppend_none heap h.buckets[(h.hashfn r h.numBuckets).toNat] r
      cases hva : Heap.VectorAppend heap h.buckets[(h.hashfn r h.numBuckets).toNat] r with
      | none =>
        simp only
        refine ⟨fun _ => Or.inr ⟨_, rfl, hnf.1 hidx, happ.1 hva⟩, fun _ => trivial⟩
      | some b1 =>
        simp only
        constructor
        · intro e; exact Option.noConfusion e
        · rintro (e | ⟨b, hbb, -, hfull⟩)
          · exact absurd hrange e
          · rw [← Option.some.inj hbb] at hfull
            rw [happ.2 hfull] at hva
            exact Option.noConfusion hva
    · obtain ⟨p, hp1, hp2, hp3, -⟩ := hf hidx
      rw [if_neg (by rw [hp1]; unfold kNotFound; omega), hp1, VectorReplace_eq _ r p hp2]
      simp only
      constructor
      · intro e; exact Option.noConfusion e
      · rintro (e | ⟨b, hbb, hnone, -⟩)
        · exact absurd hrange e
        · rw [← Option.some.inj hbb] at hnone
          exact absurd hp3 (hnone p hp2)
  · have hnum := (GetHashNum_eq h r).1.2 hrange
    unfold Heap.HashSetEnter
    rw [hnum]
    exact ⟨fun _ => Or.inl hrange, fun _ => rfl⟩

theorem heap_newBuckets_spec (heap : Allocator) (elemSize : Int) (freefn : Bool) (n : Nat)
    (bs : List vector) (h : Heap.newBuckets heap elemSize freefn n = some bs) :
    bs.length = n ∧
      ∀ b ∈ bs, Heap.VectorNew heap elemSize freefn defaultVectorAlloc = some b := by
  induction n generalizing bs with
  | zero =>
    simp only [Heap.newBuckets, Option.some.injEq] at h
    subst h
    exact ⟨rfl, fun b hb => by simp at hb⟩
  | succ n ih =>
    unfold Heap.newBuckets at h
    cases hbs : Heap.newBuckets heap elemSize freefn n with
    | none => rw [hbs] at h; exact Option.noConfusion h
    | some bs0 =>
      cases hv : Heap.VectorNew heap elemSize freefn defaultVectorAlloc with
      | none =>
        simp only [hbs, hv] at h
        exact Option.noConfusion h
      | some b0 =>
        simp only [hbs, hv, Option.some.injEq] at h
        subst h
        obtain ⟨e1, e2⟩ := ih bs0 hbs
        refine ⟨by simp only [List.length_append, List.length_singleton, e1], ?_⟩
        intro b hb
        rw [List.mem_append, List.mem_singleton] at hb
        rcases hb with hb | hb
        · rw [← hv]
          exact e2 b hb
        · rw [hb]

theorem heap_HashSetNew_fields (heap : Allocator) (sizeofVector : Nat)
    (elemSize numBuckets : Int) (hashfn : HashFunction) (comparefn : CompareFunction)
    (freefn : Bool) (h : hashset)
    (hnew : Heap.HashSetNew heap sizeofVector elemSize numBuckets hashfn comparefn freefn
      = some h) :
    h.elemCount = 0 ∧ (h.buckets.length : Int) = numBuckets ∧
      (h.numBuckets : Int) = numBuckets ∧ (h.elemSize : Int) = elemSize ∧
      ∀ b ∈ h.buckets, b.logLength = 0 ∧ b.allocLength = 4 ∧ (b.elemSize : Int) = elemSize := by
  unfold Heap.HashSetNew at hnew
  by_cases hpos : elemSize > 0 ∧ numBuckets > 0
  · rw [if_pos hpos] at hnew
    split_ifs at hnew with hheap
    cases hbs : Heap.newBuckets heap elemSize freefn numBuckets.toNat with
    | none =>
      rw [hbs] at hnew
      exact Option.noConfusion hnew
    | some bs =>
      simp only [hbs, Option.some.injEq] at hnew
      subst hnew
      obtain ⟨e1, e2⟩ := heap_newBuckets_spec heap elemSize freefn _ bs hbs
      refine ⟨rfl, by simp only [e1]; omega, by simp only; omega, by simp only; omega, ?_⟩
      intro b hb
      obtain ⟨f1, f2, f3, -, -⟩ := heap_VectorNew_fields _ _ _ _ _ (e2 b hb)
      unfold defaultVectorAlloc at f3
      refine ⟨f1, ?_, f2⟩
      rw [if_neg (by decide)] at f3
      omega
  · rw [if_neg hpos] at hnew
    exact Option.noConfusion hnew

theorem roomyHeap_bounded : Allocator.Bounded roomyHeap := by
  intro size h
  unfold roomyHeap at h
  exact of_decide_eq_true h

theorem bigKey_length (k : Nat) : (bigKey k).length = 268435456 := by
  unfold bigKey
  rw [List.length_cons, List.length_replicate]

/-- The live records of `bigBucket` carry the keys 1, 2, 3, 4. -/
theorem bigBucket_keys (i : Nat) (hi : i < bigBucket.logLength) :
    (recordAt bigBucket i).getD 0 0 = i + 1 := by
  have huni : ∀ r ∈ [bigKey 1, bigKey 2, bigKey 3, bigKey 4], r.length = 268435456 := by
    intro r hr
    simp only [List.mem_cons, List.mem_singleton, List.not_mem_nil, or_false] at hr
    rcases hr with rfl | rfl | rfl | rfl <;> exact bigKey_length _
  have hload := fun r hr =>
    load_flatten [bigKey 1, bigKey 2, bigKey 3, bigKey 4] [] 268435456 huni i r hr
  have hi4 : i < 4 := hi
  have hrec : recordAt bigBucket i = bigKey (i + 1) := by
    show load ([bigKey 1, bigKey 2, bigKey 3, bigKey 4].flatten ++ []) (i * 268435456) 268435456
      = bigKey (i + 1)
    apply hload
    interval_cases i <;> rfl
  rw [hrec]
  rfl

/-- No allocator of the 64-bit platform lets `HashSetEnter` put a fifth key
into `bigSet`. -/
theorem bigSet_enter_aborts (heap : Allocator) (hb : heap.Bounded) :
    Heap.HashSetEnter heap bigSet (bigKey 5) = none := by
  have hsize : allocSize ((bigBucket.allocLength * 2 : Nat) : Int) bigBucket.elemSize
      = 18446744071562067968 := by decide
  apply (heap_HashSetEnter_none heap bigSet rfl (by
    intro b hb
    simp only [bigSet, List.mem_singleton] at hb
    rw [hb]
    decide) (bigKey 5)).2
  right
  refine ⟨bigBucket, rfl, ?_, rfl, ?_⟩
  · intro i hi
    show ((bigKey 5).getD 0 0 : Int) - ((recordAt bigBucket i).getD 0 0 : Int) ≠ 0
    rw [bigBucket_keys i hi]
    have h5 : (bigKey 5).getD 0 0 = 5 := rfl
    have hi4 : i < 4 := hi
    rw [h5]
    omega
  · rw [hsize]
    cases hh : heap 18446744071562067968 with
    | false => rfl
    | true =>
      have := hb _ hh
      unfold PTRDIFF_MAX at this
      omega

/-! ## Claims -/

/-- C1: after a vector is created with a positive element size and the
records `rs` are appended with `VectorAppend` and nothing else, `VectorLength`
is the number of records and `VectorNth` at every index `i` below it returns
an address holding exactly the bytes of the `i`-th record. -/
theorem C1_append_length_nth (elemSize initialAllocation : Int) (freeFn : Bool) (v0 : vector)
    (rs : List Record) (hnew : VectorNew elemSize freeFn initialAllocation = some v0)
    (hrs : ∀ r ∈ rs, (r.length : Int) = elemSize) :
    VectorLength (rs.foldl VectorAppend v0) = rs.length ∧
      ∀ i : Nat, i < rs.length → ∃ addr,
        VectorNth (rs.foldl VectorAppend v0) i = some addr ∧
        some (load (rs.foldl VectorAppend v0).elems addr (rs.foldl VectorAppend v0).elemSize)
          = rs[i]? := by
  have hwf := VectorNew_WF _ _ _ _ hnew
  obtain ⟨hlog, hes, -, -⟩ := VectorNew_fields _ _ _ _ hnew
  have hsp := appends_spec rs v0 hwf (by intro r hr; have := hrs r hr; omega)
  have hrec0 : records v0 = [] := by
    apply List.eq_nil_of_length_eq_zero
    rw [records_length, hlog]
  rw [hrec0, List.nil_append] at hsp
  have hlen : (rs.foldl VectorAppend v0).logLength = rs.length := by
    rw [← records_length, hsp.2.2]
  refine ⟨by unfold VectorLength; rw [hlen], ?_⟩
  intro i hi
  obtain ⟨h1, h2⟩ := VectorNth_load (rs.foldl VectorAppend v0) i (by omega)
  refine ⟨_, h1, ?_⟩
  rw [← h2, hsp.2.2]

/-- Witness of C1: three 32-bit records appended to a fresh vector. -/
theorem C1_append_length_nth_witness :
    VectorNew 4 false 4 = some fresh4 ∧
    (∀ r ∈ [int32 7, int32 300, int32 9], (r.length : Int) = 4) ∧
    VectorLength ([int32 7, int32 300, int32 9].foldl VectorAppend fresh4) = 3 ∧
    ∀ i : Nat, i < 3 → ∃ addr,
      VectorNth ([int32 7, int32 300, int32 9].foldl VectorAppend fresh4) i = some addr ∧
      some (load ([int32 7, int32 300, int32 9].foldl VectorAppend fresh4).elems addr
        ([int32 7, int32 300, int32 9].foldl VectorAppend fresh4).elemSize)
        = [int32 7, int32 300, int32 9][i]? :=
  ⟨by decide, by decide,
   C1_append_length_nth 4 4 false fresh4 [int32 7, int32 300, int32 9] (by decide) (by decide)⟩

/-- C2: on a set freshly created with `numBuckets > 0`, a hash capability
with values in `[0, numBuckets)` that sends records comparing equal to the
same bucket and a total-order comparator, every sequence of `HashSetEnter`
calls runs to the end and `HashSetCount` is then the number of distinct keys
among the entered records. -/
theorem C2_count_distinct_keys (elemSize numBuckets : Int) (hashfn : HashFunction)
    (comparefn : CompareFunction) (freefn : Bool) (h0 : hashset)
    (hnew : HashSetNew elemSize numBuckets hashfn comparefn freefn = some h0)
    (hcap : Capabilities hashfn comparefn numBuckets) (rs : List Record)
    (hrs : ∀ r ∈ rs, (r.length : Int) = elemSize) :
    ∃ h, enterAll h0 rs = some h ∧ HashSetCount h = distinctKeys comparefn rs := by
  obtain ⟨h1, hrun, -, -, -, -, -, -, hcnt⟩ := runCalls_fresh elemSize numBuckets hashfn
    comparefn freefn h0 hnew hcap (rs.map SetCall.enter) (by rw [entered_map_enter]; exact hrs)
  rw [entered_map_enter] at hcnt
  refine ⟨h1, by rw [enterAll_eq_runCalls]; exact hrun, ?_⟩
  unfold HashSetCount
  rw [hcnt]

/-- Witness of C2: 4 buckets, hash `value % 4`; Enter(5), Enter(9), Enter(5)
gives a count of 2. -/
theorem C2_count_distinct_keys_witness :
    HashSetNew 4 4 hashInt32 compareInt32 false = some freshSet ∧
    Capabilities hashInt32 compareInt32 4 ∧
    (∀ r ∈ [int32 5, int32 9, int32 5], (r.length : Int) = 4) ∧
    ∃ h, enterAll freshSet [int32 5, int32 9, int32 5] = some h ∧ HashSetCount h = 2 := by
  refine ⟨rfl, capabilities_int32, by decide, ?_⟩
  obtain ⟨h, h1, h2⟩ := C2_count_distinct_keys 4 4 hashInt32 compareInt32 false freshSet rfl
    capabilities_int32 [int32 5, int32 9, int32 5] (by decide)
  exact ⟨h, h1, h2.trans (by decide)⟩

/-- C3: in a state reached from `HashSetNew` by `HashSetEnter` and
`HashSetLookup` calls, `HashSetLookup` of a key returns the address of a
stored record exactly when a record comparing equal to the key has been
entered; the record at that address compares equal to the key; otherwise the
result is `NULL`. -/
theorem C3_lookup_finds_entered (elemSize numBuckets : Int) (hashfn : HashFunction)
    (comparefn : CompareFunction) (freefn : Bool) (h0 : hashset)
    (hnew : HashSetNew elemSize numBuckets hashfn comparefn freefn = some h0)
    (hcap : Capabilities hashfn comparefn numBuckets) (cs : List SetCall)
    (hlen : ∀ r ∈ entered cs, (r.length : Int) = elemSize) (key : Record) :
    ∃ (h h1 : hashset) (res : Option Nat), runCalls h0 cs = some h ∧
      HashSetLookup h key = some (h1, res) ∧
      ((∃ addr, res = some addr) ↔ ∃ e ∈ entered cs, comparefn key e = 0) ∧
      (res = none ↔ ∀ e ∈ entered cs, comparefn key e ≠ 0) ∧
      ∀ addr, res = some addr → ∃ (i : Nat) (b : vector),
        hashfn key numBuckets = (i : Int) ∧ h1.buckets[i]? = some b ∧
        load b.elems addr h.elemSize ∈ records b ∧
        comparefn key (load b.elems addr h.elemSize) = 0 := by
  obtain ⟨h, hrun, hinv, hf, hc, hn, hs, hk, -⟩ := runCalls_fresh elemSize numBuckets hashfn
    comparefn freefn h0 hnew hcap cs hlen
  have hcap1 : Capabilities h.hashfn h.compfn h.numBuckets := by
    rw [hf, hc, hn]; exact hcap
  obtain ⟨h1, res, hl, -, -, -, -, -, -, -, hnone, hsome⟩ := HashSetLookup_inv h hinv hcap1 key
  have hnone2 : res = none ↔ ∀ e ∈ entered cs, comparefn key e ≠ 0 := by
    rw [hnone, hk key]
    constructor
    · intro hx e he hke
      exact hx ⟨e, he, hke⟩
    · rintro hx ⟨e, he, hke⟩
      exact hx e he hke
  refine ⟨h, h1, res, hrun, hl, ?_, hnone2, ?_⟩
  · constructor
    · rintro ⟨addr, ha⟩
      by_contra hcon
      have : res = none := hnone2.2 (fun e he hke => hcon ⟨e, he, hke⟩)
      rw [this] at ha
      exact Option.noConfusion ha
    · rintro ⟨e, he, hke⟩
      cases hres : res with
      | none => exact absurd hke (hnone2.1 hres e he)
      | some addr => exact ⟨addr, rfl⟩
  · intro addr ha
    obtain ⟨i, b, hi, hb, hmem, hcmp⟩ := hsome addr ha
    rw [hf, hn] at hi
    rw [hc] at hcmp
    exact ⟨i, b, hi, hb, hmem, hcmp⟩

/-- Witness of C3: after Enter(5), Enter(9) with hash `value % 4`, Lookup(9)
finds the record 9 and Lookup(7) returns not found. -/
theorem C3_lookup_finds_entered_witness :
    HashSetNew 4 4 hashInt32 compareInt32 false = some freshSet ∧
    Capabilities hashInt32 compareInt32 4 ∧
    (∀ r ∈ entered [SetCall.enter (int32 5), SetCall.enter (int32 9)], (r.length : Int) = 4) ∧
    lookupBytes set59 (int32 9) = some (some (int32 9)) ∧
    lookupBytes set59 (int32 7) = some none ∧
    ∃ (h h1 : hashset) (res : Option Nat),
      runCalls freshSet [SetCall.enter (int32 5), SetCall.enter (int32 9)] = some h ∧
      HashSetLookup h (int32 9) = some (h1, res) ∧
      ((∃ addr, res = some addr) ↔
        ∃ e ∈ entered [SetCall.enter (int32 5), SetCall.enter (int32 9)],
          compareInt32 (int32 9) e = 0) ∧
      (res = none ↔
        ∀ e ∈ entered [SetCall.enter (int32 5), SetCall.enter (int32 9)],
          compareInt32 (int32 9) e ≠ 0) ∧
      ∀ addr, res = some addr → ∃ (i : Nat) (b : vector),
        hashInt32 (int32 9) 4 = (i : Int) ∧ h1.buckets[i]? = some b ∧
        load b.elems addr h.elemSize ∈ records b ∧
        compareInt32 (int32 9) (load b.elems addr h.elemSize) = 0 :=
  ⟨rfl, capabilities_int32, by decide, by decide, by decide,
   C3_lookup_finds_entered 4 4 hashInt32 compareInt32 false freshSet rfl capabilities_int32
     [SetCall.enter (int32 5), SetCall.enter (int32 9)] (by decide) (int32 9)⟩

/-- C4: in a reachable state, entering a record `b` while a record comparing
equal to it is stored at index `p` of bucket `i` leaves `HashSetCount`
unchanged; afterwards the record at index `p` of bucket `i` has exactly the
bytes of `b`, and it is the only stored record of any bucket that compares
equal to `b`. -/
theorem C4_enter_equal_overwrites (elemSize numBuckets : Int) (hashfn : HashFunction)
    (comparefn : CompareFunction) (freefn : Bool) (h0 : hashset)
    (hnew : HashSetNew elemSize numBuckets hashfn comparefn freefn = some h0)
    (hcap : Capabilities hashfn comparefn numBuckets) (cs : List SetCall)
    (hlen : ∀ r ∈ entered cs, (r.length : Int) = elemSize) (h : hashset)
    (hrun : runCalls h0 cs = some h) (b : Record) (hb : (b.length : Int) = elemSize)
    (i p : Nat) (bucket : vector) (hbucket : h.buckets[i]? = some bucket)
    (hp : p < bucket.logLength) (heq : comparefn (recordAt bucket p) b = 0) :
    ∃ h1 bucket1, HashSetEnter h b = some h1 ∧ HashSetCount h1 = HashSetCount h ∧
      h1.buckets[i]? = some bucket1 ∧ p < bucket1.logLength ∧ recordAt bucket1 p = b ∧
      ∀ (j q : Nat) (b2 : vector), h1.buckets[j]? = some b2 → q < b2.logLength →
        comparefn (recordAt b2 q) b = 0 → j = i ∧ q = p := by
  obtain ⟨h', hrun', hinv, hf, hc, hn, hs, -, -⟩ := runCalls_fresh elemSize numBuckets hashfn
    comparefn freefn h0 hnew hcap cs hlen
  rw [hrun] at hrun'
  have hh := Option.some.inj hrun'
  subst hh
  have hcap1 : Capabilities h.hashfn h.compfn h.numBuckets := by
    rw [hf, hc, hn]; exact hcap
  obtain ⟨h1, bucket1, he, hcnt, hb1, hp1, hat, huniq⟩ := HashSetEnter_overwrite h hinv hcap1 b
    (by omega) i p bucket hbucket hp (by rw [hc]; exact heq)
  refine ⟨h1, bucket1, he, by unfold HashSetCount; rw [hcnt], hb1, hp1, hat, ?_⟩
  intro j q b2 hb2 hq hqr
  exact huniq j q b2 hb2 hq (by rw [hc]; exact hqr)

/-- Witness of C4: keyed records, the first byte is the key; the set holds
the keys 5 and 9 in bucket 1 and the record `[5, 7, 7, 7]` is entered: the
count stays 2 and the record replaces `[5, 0, 0, 0]` at index 0. -/
theorem C4_enter_equal_overwrites_witness :
    HashSetNew 4 4 hashKey compareKey false = some freshKeyed ∧
    Capabilities hashKey compareKey 4 ∧
    runCalls freshKeyed [SetCall.enter [5, 0, 0, 0], SetCall.enter [9, 0, 0, 0]] = some keyed59 ∧
    keyed59.buckets[1]? = some pair59 ∧ 0 < pair59.logLength ∧
    compareKey (recordAt pair59 0) [5, 7, 7, 7] = 0 ∧
    (HashSetEnter keyed59 [5, 7, 7, 7]).map (fun h1 => (HashSetCount h1, h1.buckets.map records))
      = some (2, [[], [[5, 7, 7, 7], [9, 0, 0, 0]], [], []]) ∧
    ∃ h1 bucket1, HashSetEnter keyed59 [5, 7, 7, 7] = some h1 ∧
      HashSetCount h1 = HashSetCount keyed59 ∧
      h1.buckets[1]? = some bucket1 ∧ 0 < bucket1.logLength ∧
      recordAt bucket1 0 = [5, 7, 7, 7] ∧
      ∀ (j q : Nat) (b2 : vector), h1.buckets[j]? = some b2 → q < b2.logLength →
        compareKey (recordAt b2 q) [5, 7, 7, 7] = 0 → j = 1 ∧ q = 0 :=
  ⟨rfl, capabilities_keyed, rfl, rfl, by decide, by decide, by decide,
   C4_enter_equal_overwrites 4 4 hashKey compareKey false freshKeyed rfl capabilities_keyed
     [SetCall.enter [5, 0, 0, 0], SetCall.enter [9, 0, 0, 0]] (by decide) keyed59 rfl
     [5, 7, 7, 7] (by decide) 1 0 pair59 rfl (by decide) (by decide)⟩

/-- C6: on a vector without a free function, `VectorInsert` of a record at a
position of `[0, logLength]` followed by `VectorDelete` at the same position
restores the live records: same `logLength` and the same bytes at every
index. -/
theorem C6_insert_then_delete (v : vector) (hv : v.WF) (hfree : v.freefn = false) (r : Record)
    (hr : r.length = v.elemSize) (position : Int)
    (hpos : 0 ≤ position ∧ position ≤ v.logLength) :
    ∃ v1 v2, VectorInsert v r position = some v1 ∧ VectorDelete v1 position = some v2 ∧
      v2.logLength = v.logLength ∧ v2.elemSize = v.elemSize ∧ records v2 = records v ∧
      (∀ i, i < v.logLength → recordAt v2 i = recordAt v i) ∧ v2.freed = v.freed := by
  obtain ⟨p, rfl⟩ := Int.eq_ofNat_of_zero_le hpos.1
  have hp : p ≤ v.logLength := by omega
  obtain ⟨v1, h1, hwf1, hes1, hlog1, -, hfn1, hfd1, hrec1⟩ := VectorInsert_spec v hv r hr p hp
  obtain ⟨v2, h2, -, hes2, hlog2, -, -, hfd2, hrec2⟩ := VectorDelete_spec v1 hwf1 p (by omega)
  have hrecs : records v2 = records v := by
    rw [hrec2, hrec1, eraseIdx_insertAt _ _ _ (by rw [records_length]; exact hp)]
  refine ⟨v1, v2, h1, h2, by omega, by rw [hes2, hes1], hrecs, ?_, ?_⟩
  · intro i hi
    have e1 := records_getElem? v2 i
    have e2 := records_getElem? v i
    rw [hrecs, e2] at e1
    have hi2 : i < v2.logLength := by omega
    simp only [hi, hi2, if_true, Option.some.injEq] at e1
    exact e1.symm
  · rw [hfd2, hfn1, hfree, hfd1]
    simp

/-- Witness of C6: inserting 7 at position 1 of the vector 5, 9 and deleting
position 1 again. -/
theorem C6_insert_then_delete_witness :
    pair59.WF ∧ pair59.freefn = false ∧ (int32 7).length = pair59.elemSize ∧
    (0 ≤ (1 : Int) ∧ (1 : Int) ≤ pair59.logLength) ∧
    ∃ v1 v2, VectorInsert pair59 (int32 7) 1 = some v1 ∧ VectorDelete v1 1 = some v2 ∧
      v2.logLength = pair59.logLength ∧ v2.elemSize = pair59.elemSize ∧
      records v2 = records pair59 ∧
      (∀ i, i < pair59.logLength → recordAt v2 i = recordAt pair59 i) ∧
      v2.freed = pair59.freed :=
  ⟨⟨by decide, by decide, by decide, by decide⟩, by decide, by decide, by decide,
   C6_insert_then_delete pair59 ⟨by decide, by decide, by decide, by decide⟩ (by decide)
     (int32 7) (by decide) 1 (by decide)⟩

/-- C7: linear `VectorSearch` from index 0 returns the smallest index of a
live record that compares equal to the key, and returns the sentinel `-1`
exactly when no live record compares equal to the key. -/
theorem C7_linear_search_first_match (v : vector) (hs : 0 < v.elemSize) (key : Record)
    (searchFn : CompareFunction) :
    (VectorSearch v key searchFn 0 false = -1 ↔
        ∀ i, i < v.logLength → searchFn key (recordAt v i) ≠ 0) ∧
      (VectorSearch v key searchFn 0 false ≠ -1 →
        ∃ i : Nat, VectorSearch v key searchFn 0 false = i ∧ i < v.logLength ∧
          searchFn key (recordAt v i) = 0 ∧
          ∀ j, j < i → searchFn key (recordAt v j) ≠ 0) := by
  exact linear_search_zero v hs key searchFn

/-- Witness of C7: searching 9 in the vector 5, 9 gives index 1. -/
theorem C7_linear_search_first_match_witness :
    0 < pair59.elemSize ∧
    VectorSearch pair59 (int32 9) compareInt32 0 false = 1 ∧
    VectorSearch pair59 (int32 7) compareInt32 0 false = -1 ∧
    ((VectorSearch pair59 (int32 9) compareInt32 0 false = -1 ↔
        ∀ i, i < pair59.logLength → compareInt32 (int32 9) (recordAt pair59 i) ≠ 0) ∧
      (VectorSearch pair59 (int32 9) compareInt32 0 false ≠ -1 →
        ∃ i : Nat, VectorSearch pair59 (int32 9) compareInt32 0 false = i ∧
          i < pair59.logLength ∧ compareInt32 (int32 9) (recordAt pair59 i) = 0 ∧
          ∀ j, j < i → compareInt32 (int32 9) (recordAt pair59 j) ≠ 0)) :=
  ⟨by decide, by decide, by decide,
   C7_linear_search_first_match pair59 (by decide) (int32 9) compareInt32⟩

/-- C8: on a vector whose live records are in non-decreasing order under a
total-order comparator, binary `VectorSearch` from index 0 returns `-1`
exactly when no live record compares equal to the key and otherwise the index
of a live record that compares equal to it; so it reports found exactly when
the linear search does. -/
theorem C8_binary_search_sorted (v : vector) (hs : 0 < v.elemSize) (key : Record)
    (searchFn : CompareFunction) (ho : TotalOrder searchFn)
    (hsorted : List.Sorted (fun a b => searchFn a b ≤ 0) (records v)) :
    (VectorSearch v key searchFn 0 true = -1 ↔
        ∀ i, i < v.logLength → searchFn key (recordAt v i) ≠ 0) ∧
      (VectorSearch v key searchFn 0 true ≠ -1 →
        ∃ i : Nat, VectorSearch v key searchFn 0 true = i ∧ i < v.logLength ∧
          searchFn key (recordAt v i) = 0) ∧
      (VectorSearch v key searchFn 0 true = -1 ↔ VectorSearch v key searchFn 0 false = -1) := by
  have hlin := (linear_search_zero v hs key searchFn).1
  have hmain := binary_search_zero v hs key searchFn ho hsorted
  exact ⟨hmain.1, hmain.2, hmain.1.trans hlin.symm⟩

/-- Witness of C8: binary search of 9 in the ordered vector 5, 9. -/
theorem C8_binary_search_sorted_witness :
    0 < pair59.elemSize ∧ TotalOrder compareInt32 ∧
    List.Sorted (fun a b => compareInt32 a b ≤ 0) (records pair59) ∧
    VectorSearch pair59 (int32 9) compareInt32 0 true = 1 ∧
    ((VectorSearch pair59 (int32 9) compareInt32 0 true = -1 ↔
        ∀ i, i < pair59.logLength → compareInt32 (int32 9) (recordAt pair59 i) ≠ 0) ∧
      (VectorSearch pair59 (int32 9) compareInt32 0 true ≠ -1 →
        ∃ i : Nat, VectorSearch pair59 (int32 9) compareInt32 0 true = i ∧
          i < pair59.logLength ∧ compareInt32 (int32 9) (recordAt pair59 i) = 0) ∧
      (VectorSearch pair59 (int32 9) compareInt32 0 true = -1 ↔
        VectorSearch pair59 (int32 9) compareInt32 0 false = -1)) :=
  ⟨by decide, compareInt32_totalOrder, by decide, by decide,
   C8_binary_search_sorted pair59 (by decide) (int32 9) compareInt32 compareInt32_totalOrder
     (by decide)⟩

/-- C9, evaluation at the failing input: in the vector 5, 9 a linear search
for 9 from `startIndex = 1` finds the record at index 1 but returns 0, the
distance from `startIndex`; the result is below `startIndex` and the record at
that index, 5, does not compare equal to the key. -/
theorem C9_search_from_start_returns_offset :
    (0 ≤ (1 : Int) ∧ (1 : Int) ≤ pair59.logLength) ∧
    VectorSearch pair59 (int32 9) compareInt32 1 false = 0 ∧
    VectorSearch pair59 (int32 9) compareInt32 1 true = 0 ∧
    recordAt pair59 0 = int32 5 ∧ recordAt pair59 1 = int32 9 ∧
    compareInt32 (int32 9) (recordAt pair59 0) ≠ 0 ∧
    compareInt32 (int32 9) (recordAt pair59 1) = 0 ∧
    ¬ ∃ i : Nat, VectorSearch pair59 (int32 9) compareInt32 1 false = i ∧ 1 ≤ i ∧
        i < pair59.logLength ∧ compareInt32 (int32 9) (recordAt pair59 i) = 0 := by
  refine ⟨by decide, by decide, by decide, by decide, by decide, by decide, by decide, ?_⟩
  rintro ⟨i, h1, h2, -⟩
  have h0 : VectorSearch pair59 (int32 9) compareInt32 1 false = 0 := by decide
  rw [h0] at h1
  omega

/-- C10: for a total-order comparator `VectorSort` leaves `logLength`,
`allocLength` and `elemSize` unchanged, and the live records afterwards are a
permutation of the records before, in non-decreasing order: every adjacent
pair compares `≤ 0`. -/
theorem C10_sort_permutation_ordered (v : vector) (hv : v.WF) (compare : CompareFunction)
    (ho : TotalOrder compare) :
    (VectorSort v compare).logLength = v.logLength ∧
      (VectorSort v compare).allocLength = v.allocLength ∧
      (VectorSort v compare).elemSize = v.elemSize ∧
      (records (VectorSort v compare)).Perm (records v) ∧
      List.Sorted (fun a b => compare a b ≤ 0) (records (VectorSort v compare)) ∧
      ∀ i, i + 1 < v.logLength →
        compare (recordAt (VectorSort v compare) i) (recordAt (VectorSort v compare) (i + 1)) ≤ 0 := by
  obtain ⟨-, hes, hlog, hal, -, -, hrec⟩ := VectorSort_spec v hv compare
  have hsorted : List.Sorted (fun a b => compare a b ≤ 0) (records (VectorSort v compare)) := by
    rw [hrec]; exact sortRecords_sorted compare ho _
  refine ⟨hlog, hal, hes, by rw [hrec]; exact sortRecords_perm compare _, hsorted, ?_⟩
  intro i hi
  exact sorted_recordAt _ compare ho hsorted i (i + 1) (by omega) (by rw [hlog]; exact hi)

/-- Witness of C10: sorting the vector 9, 5 gives 5, 9. -/
theorem C10_sort_permutation_ordered_witness :
    pair95.WF ∧ TotalOrder compareInt32 ∧
    records pair95 = [int32 9, int32 5] ∧
    records (VectorSort pair95 compareInt32) = [int32 5, int32 9] ∧
    ((VectorSort pair95 compareInt32).logLength = pair95.logLength ∧
      (VectorSort pair95 compareInt32).allocLength = pair95.allocLength ∧
      (VectorSort pair95 compareInt32).elemSize = pair95.elemSize ∧
      (records (VectorSort pair95 compareInt32)).Perm (records pair95) ∧
      List.Sorted (fun a b => compareInt32 a b ≤ 0) (records (VectorSort pair95 compareInt32)) ∧
      ∀ i, i + 1 < pair95.logLength →
        compareInt32 (recordAt (VectorSort pair95 compareInt32) i)
          (recordAt (VectorSort pair95 compareInt32) (i + 1)) ≤ 0) :=
  ⟨⟨by decide, by decide, by decide, by decide⟩, compareInt32_totalOrder, by decide, by decide,
   C10_sort_permutation_ordered pair95 ⟨by decide, by decide, by decide, by decide⟩ compareInt32
     compareInt32_totalOrder⟩

/-- C11: `HashSetLookup` of a key whose hash lies in `[0, numBuckets)`, found
or not, changes only the order of the records of the bucket the key routes
to: that bucket becomes a permutation of its contents in non-decreasing
comparator order, with its size fields, free trace and the bytes after the
live records untouched; every other bucket is unchanged, and so are
`elemCount`, `numBuckets` and `elemSize`. -/
theorem C11_lookup_sorts_one_bucket (h : hashset) (hlen : h.buckets.length = h.numBuckets)
    (hwf : ∀ b ∈ h.buckets, b.WF) (ho : TotalOrder h.compfn) (key : Record)
    (hrange : 0 ≤ h.hashfn key h.numBuckets ∧ h.hashfn key h.numBuckets < h.numBuckets) :
    ∃ (h1 : hashset) (res : Option Nat) (b b1 : vector),
      HashSetLookup h key = some (h1, res) ∧
      h.buckets[(h.hashfn key h.numBuckets).toNat]? = some b ∧
      h1.buckets[(h.hashfn key h.numBuckets).toNat]? = some b1 ∧
      (records b1).Perm (records b) ∧
      List.Sorted (fun x y => h.compfn x y ≤ 0) (records b1) ∧
      b1.logLength = b.logLength ∧ b1.allocLength = b.allocLength ∧
      b1.elemSize = b.elemSize ∧ b1.freefn = b.freefn ∧ b1.freed = b.freed ∧
      b1.elems.drop (b.logLength * b.elemSize) = b.elems.drop (b.logLength * b.elemSize) ∧
      h1.buckets.length = h.buckets.length ∧
      (∀ j : Nat, j ≠ (h.hashfn key h.numBuckets).toNat → h1.buckets[j]? = h.buckets[j]?) ∧
      h1.elemCount = h.elemCount ∧ h1.numBuckets = h.numBuckets ∧ h1.elemSize = h.elemSize := by
  obtain ⟨b, res, hb, hlook, -, -⟩ := HashSetLookup_general h hlen hwf key hrange
  have hbwf := hwf b (List.getElem?_mem hb)
  obtain ⟨-, hses, hslog, hsal, hsfn, hsfd, hsrec⟩ := VectorSort_spec b hbwf h.compfn
  refine ⟨_, res, b, VectorSort b h.compfn, hlook, hb, ?_, ?_, ?_, hslog, hsal, hses, hsfn, hsfd,
    VectorSort_rest b hbwf h.compfn, ?_, ?_, rfl, rfl, rfl⟩
  · exact List.getElem?_set_self (getElem?_lt_length _ _ _ hb)
  · rw [hsrec]; exact sortRecords_perm _ _
  · rw [hsrec]; exact sortRecords_sorted _ ho _
  · simp only [List.length_set]
  · intro j hj
    simp only
    exact List.getElem?_set_ne (Ne.symm hj)

/-- Witness of C11: looking up the absent key 13 in a set whose bucket 1 holds
9, 5 returns `NULL` and leaves bucket 1 holding 5, 9. -/
theorem C11_lookup_sorts_one_bucket_witness :
    set95.buckets.length = set95.numBuckets ∧ (∀ b ∈ set95.buckets, b.WF) ∧
    TotalOrder set95.compfn ∧
    (0 ≤ set95.hashfn (int32 13) set95.numBuckets ∧
      set95.hashfn (int32 13) set95.numBuckets < set95.numBuckets) ∧
    set95.buckets.map records = [[], [int32 9, int32 5], [], []] ∧
    (HashSetLookup set95 (int32 13)).map (fun out => (out.1.buckets.map records, out.2))
      = some ([[], [int32 5, int32 9], [], []], none) ∧
    ∃ (h1 : hashset) (res : Option Nat) (b b1 : vector),
      HashSetLookup set95 (int32 13) = some (h1, res) ∧
      set95.buckets[(set95.hashfn (int32 13) set95.numBuckets).toNat]? = some b ∧
      h1.buckets[(set95.hashfn (int32 13) set95.numBuckets).toNat]? = some b1 ∧
      (records b1).Perm (records b) ∧
      List.Sorted (fun x y => set95.compfn x y ≤ 0) (records b1) ∧
      b1.logLength = b.logLength ∧ b1.allocLength = b.allocLength ∧
      b1.elemSize = b.elemSize ∧ b1.freefn = b.freefn ∧ b1.freed = b.freed ∧
      b1.elems.drop (b.logLength * b.elemSize) = b.elems.drop (b.logLength * b.elemSize) ∧
      h1.buckets.length = set95.buckets.length ∧
      (∀ j : Nat, j ≠ (set95.hashfn (int32 13) set95.numBuckets).toNat →
        h1.buckets[j]? = set95.buckets[j]?) ∧
      h1.elemCount = set95.elemCount ∧ h1.numBuckets = set95.numBuckets ∧
      h1.elemSize = set95.elemSize :=
  ⟨by decide, set95_buckets_WF, compareInt32_totalOrder, by decide, by decide, by decide,
   C11_lookup_sorts_one_bucket set95 (by decide) set95_buckets_WF compareInt32_totalOrder
     (int32 13) (by decide)⟩

/-- C12, counterexample: a `HashSetMap` whose map function adds 1 to every
record leaves the lengths and capacities of the buckets alone, yet after
Enter(5) and this map bucket 1 holds the record 6, whose hash is 2. -/
theorem C12_map_breaks_routing :
    HashSetNew 4 4 hashInt32 compareInt32 false = some freshSet ∧
    runOps freshSet [SetOp.enter (int32 5), SetOp.map increment []] = some setSix ∧
    (∀ r a, (increment r a).1.length = 4) ∧
    setSix.buckets.map (fun b => (b.logLength, b.allocLength, b.elemSize))
      = [(0, 4, 4), (1, 4, 4), (0, 4, 4), (0, 4, 4)] ∧
    setSix.buckets[1]? = some bucketSix ∧ int32 6 ∈ records bucketSix ∧
    hashInt32 (int32 6) 4 = 2 ∧
    ¬ ∀ (i : Nat) (b : vector), setSix.buckets[i]? = some b →
        ∀ x ∈ records b, setSix.hashfn x setSix.numBuckets = (i : Int) := by
  refine ⟨rfl, rfl, fun r a => rfl, by decide, rfl, by decide, by decide, ?_⟩
  intro hall
  have h6 := hall 1 bucketSix rfl (int32 6) (by decide)
  have h2 : setSix.hashfn (int32 6) setSix.numBuckets = 2 := by decide
  rw [h2] at h6
  omega

/-- C12, amended: in every state reached from `HashSetNew` by successful
`HashSetEnter`, `HashSetLookup` and `HashSetMap` calls, the set has its
`numBuckets` buckets and `elemCount` is the sum of their `logLength`; when in
addition the entered records have the element size of the set and every map
function leaves the width and the hash of a record unchanged, every stored
record is held in the bucket whose index is its hash. -/
theorem C12_count_and_routing (elemSize numBuckets : Int) (hashfn : HashFunction)
    (comparefn : CompareFunction) (freefn : Bool) (h0 : hashset)
    (hnew : HashSetNew elemSize numBuckets hashfn comparefn freefn = some h0)
    (cs : List SetOp) (h : hashset) (hrun : runOps h0 cs = some h) :
    (h.buckets.length : Int) = numBuckets ∧ h.buckets.length = h.numBuckets ∧
      h.elemCount = totalLength h.buckets ∧
      ((∀ c ∈ cs, SetOp.KeepsRouting hashfn numBuckets elemSize c) →
        ∀ (i : Nat) (b : vector), h.buckets[i]? = some b →
          ∀ x ∈ records b, hashfn x numBuckets = (i : Int)) := by
  obtain ⟨hinv, hf, -, hn, hs, -, -, -⟩ := HashSetNew_spec _ _ _ _ _ _ hnew
  obtain ⟨e1, e2⟩ := runOps_count cs h0 h hrun hinv.len hinv.count
  have hnb : ∀ (cs : List SetOp) (a b : hashset), runOps a cs = some b →
      b.numBuckets = a.numBuckets := by
    intro cs
    induction cs with
    | nil =>
      intro a b hab
      simp only [runOps, Option.some.injEq] at hab
      rw [hab]
    | cons c cs ih =>
      intro a b hab
      unfold runOps at hab
      cases hc : SetOp.apply a c with
      | none => rw [hc] at hab; exact Option.noConfusion hab
      | some a2 =>
        rw [hc] at hab
        rw [ih a2 b hab, (SetOp_count a c a2 hc).2.1]
  refine ⟨by rw [e1, hnb cs h0 h hrun]; exact hn, e1, e2, ?_⟩
  intro hk i b hb x hx
  obtain ⟨r1, r2, r3⟩ := runOps_routed cs h0 h hrun ⟨hinv.len, hinv.wf, hinv.route⟩ (by
    intro c hc
    rw [hf, hn, hs]
    exact hk c hc)
  have := r1.route i b hb x hx
  rw [r2, r3, hf, hn] at this
  exact this

/-- Witness of C12: keyed records; Enter(5), Enter(9), Lookup(9) and a map
that stamps the payload of every record leave both records in bucket 1. -/
theorem C12_count_and_routing_witness :
    HashSetNew 4 4 hashKey compareKey false = some freshKeyed ∧
    runOps freshKeyed sampleOps = some keyedStamped ∧
    keyedStamped.buckets.map records = [[], [[5, 7, 0, 0], [9, 7, 0, 0]], [], []] ∧
    (∀ c ∈ sampleOps, SetOp.KeepsRouting hashKey 4 4 c) ∧
    ((keyedStamped.buckets.length : Int) = 4 ∧
      keyedStamped.buckets.length = keyedStamped.numBuckets ∧
      keyedStamped.elemCount = totalLength keyedStamped.buckets ∧
      ((∀ c ∈ sampleOps, SetOp.KeepsRouting hashKey 4 4 c) →
        ∀ (i : Nat) (b : vector), keyedStamped.buckets[i]? = some b →
          ∀ x ∈ records b, hashKey x 4 = (i : Int))) :=
  ⟨rfl, rfl, by decide, sampleOps_keepsRouting,
   C12_count_and_routing 4 4 hashKey compareKey false freshKeyed rfl sampleOps keyedStamped rfl⟩

/-- C13: in every state reached from a successful `VectorNew` by successful
`VectorAppend`, `VectorInsert`, `VectorReplace`, `VectorDelete`, `VectorSort`,
`VectorMap` and `VectorSearch` calls, `0 ≤ logLength ≤ allocLength` holds, the
capacity is at least the initial one, and no further call lowers
`allocLength`. -/
theorem C13_length_within_capacity (elemSize initialAllocation : Int) (freeFn : Bool)
    (v0 : vector) (hnew : VectorNew elemSize freeFn initialAllocation = some v0)
    (cs : List VectorCall) (v : vector) (hrun : runVector v0 cs = some v) :
    0 ≤ VectorLength v ∧ VectorLength v ≤ v.allocLength ∧ v0.allocLength ≤ v.allocLength ∧
      ∀ c v1, VectorCall.apply v c = some v1 → v.allocLength ≤ v1.allocLength := by
  have hwf := VectorNew_WF _ _ _ _ hnew
  obtain ⟨h1, -, h3⟩ := runVector_sizes cs v0 v hrun hwf.alloc_pos hwf.log_le
  unfold VectorLength
  exact ⟨by omega, by omega, h1, fun c v1 hc => (VectorCall_sizes v c v1 hc).1⟩

/-- Witness of C13: a run through all seven calls on a fresh vector. -/
theorem C13_length_within_capacity_witness :
    VectorNew 4 false 4 = some fresh4 ∧ runVector fresh4 sampleCalls = some sampleResult ∧
    (0 ≤ VectorLength sampleResult ∧ VectorLength sampleResult ≤ sampleResult.allocLength ∧
      fresh4.allocLength ≤ sampleResult.allocLength ∧
      ∀ c v1, VectorCall.apply sampleResult c = some v1 →
        sampleResult.allocLength ≤ v1.allocLength) :=
  ⟨by decide, by decide,
   C13_length_within_capacity 4 4 false fresh4 (by decide) sampleCalls sampleResult (by decide)⟩

/-- C14: `VectorInsert` of `r` at a position `p` of `[0, n]` in a vector
holding `s_0 .. s_(n-1)` yields `s_0 .. s_(p-1), r, s_p .. s_(n-1)` with
`logLength = n + 1`: the records before `p` stay, the records at or after `p`
move one slot to the right; for `p = n` the state is the one `VectorAppend`
produces. -/
theorem C14_insert_shifts_right (v : vector) (hv : v.WF) (r : Record)
    (hr : r.length = v.elemSize) (position : Int)
    (hpos : 0 ≤ position ∧ position ≤ v.logLength) :
    ∃ v1, VectorInsert v r position = some v1 ∧ v1.logLength = v.logLength + 1 ∧
      records v1 =
        (records v).take position.toNat ++ r :: (records v).drop position.toNat ∧
      (∀ i, i < position.toNat → recordAt v1 i = recordAt v i) ∧
      recordAt v1 position.toNat = r ∧
      (∀ i, position.toNat ≤ i → i < v.logLength → recordAt v1 (i + 1) = recordAt v i) ∧
      (position = v.logLength → v1 = VectorAppend v r) := by
  obtain ⟨p, rfl⟩ := Int.eq_ofNat_of_zero_le hpos.1
  have hp : p ≤ v.logLength := by omega
  obtain ⟨v1, h1, -, -, hlog, -, -, -, hrec⟩ := VectorInsert_spec v hv r hr p hp
  have hpl : p ≤ (records v).length := by rw [records_length]; exact hp
  have hget := insertAt_getElem? (records v) p r hpl
  rw [← hrec] at hget
  simp only [Int.toNat_ofNat]
  refine ⟨v1, h1, hlog, hrec, ?_, ?_, ?_, ?_⟩
  · intro i hi
    apply records_eq_recordAt v1 v i i (by omega) (by omega)
    rw [hget i, if_pos hi]
  · have e := hget p
    rw [if_neg (Nat.lt_irrefl p), if_pos rfl, records_at v1 p (by omega)] at e
    exact Option.some.inj e
  · intro i hi1 hi2
    apply records_eq_recordAt v1 v (i + 1) i (by omega) hi2
    rw [hget (i + 1), if_neg (by omega), if_neg (by omega), Nat.add_sub_cancel]
  · intro hpe
    have hpn : p = v.logLength := by omega
    subst hpn
    rw [VectorInsert_end] at h1
    exact (Option.some.inj h1).symm

/-- Witness of C14: inserting 7 at position 1 of the vector 5, 9. -/
theorem C14_insert_shifts_right_witness :
    pair59.WF ∧ (int32 7).length = pair59.elemSize ∧
    (0 ≤ (1 : Int) ∧ (1 : Int) ≤ pair59.logLength) ∧
    (VectorInsert pair59 (int32 7) 1).map records = some [int32 5, int32 7, int32 9] ∧
    ∃ v1, VectorInsert pair59 (int32 7) 1 = some v1 ∧ v1.logLength = pair59.logLength + 1 ∧
      records v1 =
        (records pair59).take (1 : Int).toNat ++ int32 7 :: (records pair59).drop (1 : Int).toNat ∧
      (∀ i, i < (1 : Int).toNat → recordAt v1 i = recordAt pair59 i) ∧
      recordAt v1 (1 : Int).toNat = int32 7 ∧
      (∀ i, (1 : Int).toNat ≤ i → i < pair59.logLength →
        recordAt v1 (i + 1) = recordAt pair59 i) ∧
      ((1 : Int) = pair59.logLength → v1 = VectorAppend pair59 (int32 7)) :=
  ⟨⟨by decide, by decide, by decide, by decide⟩, by decide, by decide, by decide,
   C14_insert_shifts_right pair59 ⟨by decide, by decide, by decide, by decide⟩ (int32 7)
     (by decide) 1 (by decide)⟩

/-- C15: `VectorDelete` at a position `p` of `[0, n)`, the last one included,
yields `s_0 .. s_(p-1), s_(p+1) .. s_(n-1)` with `logLength = n - 1`; when a
free function is set it is called exactly once, on the record `s_p` as it
stood before the call, and on no other record; without one nothing is
freed. -/
theorem C15_delete_shifts_left (v : vector) (hv : v.WF) (position : Int)
    (hpos : 0 ≤ position ∧ position < v.logLength) :
    ∃ v1, VectorDelete v position = some v1 ∧ v1.logLength = v.logLength - 1 ∧
      records v1 = (records v).eraseIdx position.toNat ∧
      (∀ i, i < position.toNat → recordAt v1 i = recordAt v i) ∧
      (∀ i, position.toNat ≤ i → i + 1 < v.logLength → recordAt v1 i = recordAt v (i + 1)) ∧
      (v.freefn = true → v1.freed = v.freed ++ [recordAt v position.toNat]) ∧
      (v.freefn = false → v1.freed = v.freed) := by
  obtain ⟨p, rfl⟩ := Int.eq_ofNat_of_zero_le hpos.1
  have hp : p < v.logLength := by omega
  obtain ⟨v1, h1, -, -, hlog, -, -, hfreed, hrec⟩ := VectorDelete_spec v hv p hp
  have hget := fun i => List.getElem?_eraseIdx (records v) p i
  rw [← hrec] at hget
  simp only [Int.toNat_ofNat]
  refine ⟨v1, h1, hlog, hrec, ?_, ?_, ?_, ?_⟩
  · intro i hi
    apply records_eq_recordAt v1 v i i (by omega) (by omega)
    rw [hget i, if_pos hi]
  · intro i hi1 hi2
    apply records_eq_recordAt v1 v i (i + 1) (by omega) hi2
    rw [hget i, if_neg (by omega)]
  · intro hf
    rw [hfreed, if_pos hf]
    rfl
  · intro hf
    rw [hfreed, hf]
    simp

/-- Witness of C15: deleting the last position of the vector 5, 9 with a free
function set. -/
theorem C15_delete_shifts_left_witness :
    vector.WF { pair59 with freefn := true } ∧
    (0 ≤ (1 : Int) ∧ (1 : Int) < ({ pair59 with freefn := true } : vector).logLength) ∧
    (VectorDelete { pair59 with freefn := true } 1).map (fun v => (records v, v.freed))
      = some ([int32 5], [int32 9]) ∧
    ∃ v1, VectorDelete { pair59 with freefn := true } 1 = some v1 ∧
      v1.logLength = ({ pair59 with freefn := true } : vector).logLength - 1 ∧
      records v1 = (records { pair59 with freefn := true }).eraseIdx (1 : Int).toNat ∧
      (∀ i, i < (1 : Int).toNat → recordAt v1 i = recordAt { pair59 with freefn := true } i) ∧
      (∀ i, (1 : Int).toNat ≤ i → i + 1 < ({ pair59 with freefn := true } : vector).logLength →
        recordAt v1 i = recordAt { pair59 with freefn := true } (i + 1)) ∧
      (({ pair59 with freefn := true } : vector).freefn = true →
        v1.freed = ({ pair59 with freefn := true } : vector).freed ++
          [recordAt { pair59 with freefn := true } (1 : Int).toNat]) ∧
      (({ pair59 with freefn := true } : vector).freefn = false →
        v1.freed = ({ pair59 with freefn := true } : vector).freed) :=
  ⟨⟨by decide, by decide, by decide, by decide⟩, by decide, by decide,
   C15_delete_shifts_left { pair59 with freefn := true }
     ⟨by decide, by decide, by decide, by decide⟩ 1 (by decide)⟩

/-- C16, counterexample: on a full vector `VectorInsert` at a valid position
reaches the assertion on the block returned by `realloc`.  With one record of
`2 ^ 30` bytes and capacity 1 the doubled size leaves the `int` range and no
allocator serves the request; on the full vector 1, 2, 3, 4 the call aborts
when the allocator is exhausted. -/
theorem C16_insert_aborts_on_full_vector :
    bigFull.logLength = bigFull.allocLength ∧
    (0 ≤ (0 : Int) ∧ (0 : Int) ≤ bigFull.logLength) ∧
    allocSize ((bigFull.allocLength * 2 : Nat) : Int) bigFull.elemSize = 18446744071562067968 ∧
    (∀ heap : Allocator, heap.Bounded → ∀ r, Heap.VectorInsert heap bigFull r 0 = none) ∧
    filled4.logLength = filled4.allocLength ∧
    (0 ≤ (2 : Int) ∧ (2 : Int) ≤ filled4.logLength) ∧
    Heap.VectorInsert exhaustedHeap filled4 (int32 5) 2 = none := by
  have hsize : allocSize ((bigFull.allocLength * 2 : Nat) : Int) bigFull.elemSize
      = 18446744071562067968 := by decide
  refine ⟨rfl, by decide, hsize, ?_, by decide, by decide, by decide⟩
  intro heap hb r
  apply (heap_VectorInsert_none heap bigFull r 0).2
  right
  refine ⟨rfl, ?_⟩
  rw [hsize]
  cases hh : heap 18446744071562067968 with
  | false => rfl
  | true =>
    have := hb _ hh
    unfold PTRDIFF_MAX at this
    omega

/-- C16, amended: `VectorNth`, `VectorReplace` and `VectorDelete` abort
exactly when the position is outside `[0, logLength)`; `VectorInsert` aborts
exactly when the position is outside `[0, logLength]`, or the vector is full
and `realloc` returns `NULL` for the doubled block; on an empty vector the
first three abort for every position. -/
theorem C16_position_checks (heap : Allocator) (v : vector) (r : Record) (position : Int) :
    (VectorNth v position = none ↔ ¬ (0 ≤ position ∧ position < v.logLength)) ∧
      (VectorReplace v r position = none ↔ ¬ (0 ≤ position ∧ position < v.logLength)) ∧
      (VectorDelete v position = none ↔ ¬ (0 ≤ position ∧ position < v.logLength)) ∧
      (Heap.VectorInsert heap v r position = none ↔
        ¬ (0 ≤ position ∧ position ≤ v.logLength) ∨
          (v.logLength = v.allocLength ∧
            heap (allocSize ((v.allocLength * 2 : Nat) : Int) v.elemSize) = false)) ∧
      (v.logLength = 0 → VectorNth v position = none ∧ VectorReplace v r position = none ∧
        VectorDelete v position = none) := by
  have hnth : VectorNth v position = none ↔ ¬ (0 ≤ position ∧ position < v.logLength) := by
    unfold VectorNth
    by_cases h : position < v.logLength ∧ position ≥ 0
    · rw [if_pos h]
      constructor
      · intro e; exact Option.noConfusion e
      · intro e; exact absurd ⟨h.2, h.1⟩ e
    · rw [if_neg h]
      exact ⟨fun _ hc => h ⟨hc.2, hc.1⟩, fun _ => rfl⟩
  have hrep : VectorReplace v r position = none ↔ ¬ (0 ≤ position ∧ position < v.logLength) := by
    unfold VectorReplace
    by_cases h : position ≥ 0 ∧ position < v.logLength
    · rw [if_pos h]
      constructor
      · intro e; exact Option.noConfusion e
      · intro e; exact absurd h e
    · rw [if_neg h]
      exact ⟨fun _ => h, fun _ => rfl⟩
  have hdel : VectorDelete v position = none ↔ ¬ (0 ≤ position ∧ position < v.logLength) := by
    unfold VectorDelete
    by_cases h : position ≥ 0 ∧ position < v.logLength
    · rw [if_pos h]
      constructor
      · intro e
        split_ifs at e
      · intro e; exact absurd h e
    · rw [if_neg h]
      exact ⟨fun _ => h, fun _ => rfl⟩
  refine ⟨hnth, hrep, hdel, heap_VectorInsert_none heap v r position, fun h0 => ?_⟩
  have hout : ¬ (0 ≤ position ∧ position < v.logLength) := by omega
  exact ⟨hnth.2 hout, hrep.2 hout, hdel.2 hout⟩

/-- C17, counterexample: the set holds 1, 5, 9, 13 in bucket 1, which is
full; the record 17 has hash 1, in range, and is new, so `HashSetEnter` goes
through `VectorAppend` and `DoubleCapacity` and aborts on the assertion on
the block returned by `realloc` when the allocator is exhausted.  In a set
whose one bucket is full of records of `2 ^ 28` bytes the doubled size leaves
the `int` range and no allocator serves the request for a fifth key. -/
theorem C17_enter_aborts_on_full_bucket :
    HashSetNew 4 4 hashInt32 compareInt32 false = some freshSet ∧
    runCalls freshSet [SetCall.enter (int32 1), SetCall.enter (int32 5),
      SetCall.enter (int32 9), SetCall.enter (int32 13)] = some setFull ∧
    setFull.buckets.map (fun b => (b.logLength, b.allocLength))
      = [(0, 4), (4, 4), (0, 4), (0, 4)] ∧
    (0 ≤ setFull.hashfn (int32 17) setFull.numBuckets ∧
      setFull.hashfn (int32 17) setFull.numBuckets < setFull.numBuckets) ∧
    Heap.HashSetEnter exhaustedHeap setFull (int32 17) = none ∧
    (0 ≤ bigSet.hashfn (bigKey 5) bigSet.numBuckets ∧
      bigSet.hashfn (bigKey 5) bigSet.numBuckets < bigSet.numBuckets) ∧
    allocSize ((bigBucket.allocLength * 2 : Nat) : Int) bigBucket.elemSize
      = 18446744071562067968 ∧
    ∀ heap : Allocator, heap.Bounded → Heap.HashSetEnter heap bigSet (bigKey 5) = none :=
  ⟨rfl, rfl, by decide, by decide, Option.isNone_iff_eq_none.1 (by decide), by decide,
   by decide, bigSet_enter_aborts⟩

/-- C17, amended: on a set with its `numBuckets` well-formed buckets,
`HashSetLookup` aborts exactly when the hash of the key is outside
`[0, numBuckets)`; `HashSetEnter` aborts exactly when the hash of the record
is outside `[0, numBuckets)`, or no record of its bucket compares equal to
it, the bucket is full and `realloc` returns `NULL` for the doubled block;
with a hash value in range `HashSetLookup` completes, and when no record of
the key's bucket compares equal to the key it returns `NULL`. -/
theorem C17_hash_range_checks (heap : Allocator) (h : hashset)
    (hlen : h.buckets.length = h.numBuckets) (hwf : ∀ b ∈ h.buckets, b.WF) (r : Record) :
    (Heap.HashSetEnter heap h r = none ↔
        ¬ (0 ≤ h.hashfn r h.numBuckets ∧ h.hashfn r h.numBuckets < h.numBuckets) ∨
          ∃ b, h.buckets[(h.hashfn r h.numBuckets).toNat]? = some b ∧
            (∀ i, i < b.logLength → h.compfn r (recordAt b i) ≠ 0) ∧
            b.logLength = b.allocLength ∧
            heap (allocSize ((b.allocLength * 2 : Nat) : Int) b.elemSize) = false) ∧
      (HashSetLookup h r = none ↔
        ¬ (0 ≤ h.hashfn r h.numBuckets ∧ h.hashfn r h.numBuckets < h.numBuckets)) ∧
      ((0 ≤ h.hashfn r h.numBuckets ∧ h.hashfn r h.numBuckets < h.numBuckets) →
        ∃ (b : vector) (h1 : hashset) (res : Option Nat),
          h.buckets[(h.hashfn r h.numBuckets).toNat]? = some b ∧
          HashSetLookup h r = some (h1, res) ∧
          ((∀ x ∈ records b, h.compfn r x ≠ 0) → res = none)) := by
  have hout : ¬ (0 ≤ h.hashfn r h.numBuckets ∧ h.hashfn r h.numBuckets < h.numBuckets) →
      GetHashNum h r = none := (GetHashNum_eq h r).1.2
  refine ⟨heap_HashSetEnter_none heap h hlen (fun b hb => (hwf b hb).elemSize_pos) r,
    ⟨?_, ?_⟩, ?_⟩
  · intro hnone hrange
    obtain ⟨b, res, -, hl, -, -⟩ := HashSetLookup_general h hlen hwf r hrange
    rw [hl] at hnone
    exact Option.noConfusion hnone
  · intro hbad
    unfold HashSetLookup
    rw [hout hbad]
  · intro hrange
    obtain ⟨b, res, hb, hl, hmiss, -⟩ := HashSetLookup_general h hlen hwf r hrange
    exact ⟨b, _, res, hb, hl, hmiss⟩

/-- Witness of C17: in the set whose bucket 1 holds 9, 5 the key 13 has hash
1, `HashSetLookup` returns `NULL` for it and `HashSetEnter` completes; with a
hash function that returns 13 both calls abort. -/
theorem C17_hash_range_checks_witness :
    set95.buckets.length = set95.numBuckets ∧ (∀ b ∈ set95.buckets, b.WF) ∧
    (HashSetLookup set95 (int32 13)).map (fun out => out.2) = some none ∧
    (Heap.HashSetEnter roomyHeap set95 (int32 13)).map
        (fun h1 => (h1.elemCount, h1.buckets.map records))
      = some (3, [[], [int32 9, int32 5, int32 13], [], []]) ∧
    (Heap.HashSetEnter roomyHeap set95Unbounded (int32 13)).isNone = true ∧
    (HashSetLookup set95Unbounded (int32 13)).isNone = true ∧
    ((Heap.HashSetEnter roomyHeap set95 (int32 13) = none ↔
        ¬ (0 ≤ set95.hashfn (int32 13) set95.numBuckets ∧
          set95.hashfn (int32 13) set95.numBuckets < set95.numBuckets) ∨
          ∃ b, set95.buckets[(set95.hashfn (int32 13) set95.numBuckets).toNat]? = some b ∧
            (∀ i, i < b.logLength → set95.compfn (int32 13) (recordAt b i) ≠ 0) ∧
            b.logLength = b.allocLength ∧
            roomyHeap (allocSize ((b.allocLength * 2 : Nat) : Int) b.elemSize) = false) ∧
      (HashSetLookup set95 (int32 13) = none ↔
        ¬ (0 ≤ set95.hashfn (int32 13) set95.numBuckets ∧
          set95.hashfn (int32 13) set95.numBuckets < set95.numBuckets)) ∧
      ((0 ≤ set95.hashfn (int32 13) set95.numBuckets ∧
          set95.hashfn (int32 13) set95.numBuckets < set95.numBuckets) →
        ∃ (b : vector) (h1 : hashset) (res : Option Nat),
          set95.buckets[(set95.hashfn (int32 13) set95.numBuckets).toNat]? = some b ∧
          HashSetLookup set95 (int32 13) = some (h1, res) ∧
          ((∀ x ∈ records b, set95.compfn (int32 13) x ≠ 0) → res = none))) :=
  ⟨by decide, set95_buckets_WF, by decide, by decide, by decide, by decide,
   C17_hash_range_checks roomyHeap set95 (by decide) set95_buckets_WF (int32 13)⟩

/-- C18, counterexample: `VectorNew(46341, NULL, 46341)` has a positive
element size and capacity, yet the block size `46341 * 46341` leaves the `int`
range, the request reaches `malloc` as `2 ^ 64 - 2147479015` bytes, no
allocator serves it and the assertion on the block aborts; with an exhausted
allocator `VectorNew(4, NULL, 4)` aborts as well. -/
theorem C18_new_aborts_on_allocation :
    ¬ ((46341 : Int) ≤ 0 ∨ (46341 : Int) < 0) ∧
    allocSize 46341 46341 = 18446744071562072601 ∧
    (∀ heap : Allocator, heap.Bounded → Heap.VectorNew heap 46341 false 46341 = none) ∧
    ¬ ((4 : Int) ≤ 0 ∨ (4 : Int) < 0) ∧
    Heap.VectorNew exhaustedHeap 4 false 4 = none := by
  have hsize : allocSize 46341 46341 = 18446744071562072601 := by decide
  refine ⟨by decide, hsize, ?_, by decide, by decide⟩
  intro heap hb
  apply (heap_VectorNew_none heap 46341 false 46341).2
  right; right
  rw [if_neg (by decide), hsize]
  cases hh : heap 18446744071562072601 with
  | false => rfl
  | true =>
    have := hb _ hh
    unfold PTRDIFF_MAX at this
    omega

/-- C18, amended: `VectorNew` aborts exactly when `elemSize ≤ 0`, or
`initialAllocation < 0`, or `malloc` returns `NULL` for the block; otherwise
the new vector has `logLength` 0, the given `elemSize`, and `allocLength`
equal to `initialAllocation`, or to the default 4 when 0 was asked for.  A set
created by `HashSetNew` has `elemCount` 0 and `numBuckets` buckets, each with
`logLength` 0 and `allocLength` 4. -/
theorem C18_creation (heap : Allocator) (sizeofVector : Nat)
    (elemSize initialAllocation numBuckets : Int) (freeFn : Bool)
    (hashfn : HashFunction) (comparefn : CompareFunction) :
    (Heap.VectorNew heap elemSize freeFn initialAllocation = none ↔
        elemSize ≤ 0 ∨ initialAllocation < 0 ∨
          heap (allocSize (if initialAllocation = 0 then 4 else initialAllocation) elemSize)
            = false) ∧
      (∀ v, Heap.VectorNew heap elemSize freeFn initialAllocation = some v →
        v.logLength = 0 ∧ (v.elemSize : Int) = elemSize ∧
        (v.allocLength : Int) = if initialAllocation = 0 then 4 else initialAllocation) ∧
      (∀ h, Heap.HashSetNew heap sizeofVector elemSize numBuckets hashfn comparefn freeFn
          = some h →
        h.elemCount = 0 ∧ (h.buckets.length : Int) = numBuckets ∧
        ∀ b ∈ h.buckets, b.logLength = 0 ∧ b.allocLength = 4) := by
  refine ⟨heap_VectorNew_none _ _ _ _, ?_, ?_⟩
  · intro v hv
    obtain ⟨h1, h2, h3, -, -⟩ := heap_VectorNew_fields _ _ _ _ _ hv
    exact ⟨h1, h2, h3⟩
  · intro h hh
    obtain ⟨h1, h2, -, -, h5⟩ := heap_HashSetNew_fields _ _ _ _ _ _ _ _ hh
    exact ⟨h1, h2, fun b hb => ⟨(h5 b hb).1, (h5 b hb).2.1⟩⟩

/-- C19: deduplication in `HashSetEnter` is per bucket.  With 4 buckets, the
total-order comparator `compareKey` and the in-range hash `hashPayload`, the
records `[5, 0, 0, 0]` and `[5, 1, 0, 0]` compare equal but hash to buckets 0
and 1; entering both into a fresh set gives a count of 2 with both stored. -/
theorem C19_dedup_per_bucket :
    TotalOrder compareKey ∧
    (∀ r, 0 ≤ hashPayload r 4 ∧ hashPayload r 4 < 4) ∧
    compareKey [5, 0, 0, 0] [5, 1, 0, 0] = 0 ∧
    hashPayload [5, 0, 0, 0] 4 = 0 ∧ hashPayload [5, 1, 0, 0] 4 = 1 ∧
    HashSetNew 4 4 hashPayload compareKey false = some freshPayload ∧
    enterAll freshPayload [[5, 0, 0, 0], [5, 1, 0, 0]] = some payloadTwice ∧
    HashSetCount payloadTwice = 2 ∧
    payloadTwice.buckets.map records = [[[5, 0, 0, 0]], [[5, 1, 0, 0]], [], []] ∧
    Stored payloadTwice [5, 0, 0, 0] ∧ Stored payloadTwice [5, 1, 0, 0] := by
  refine ⟨capabilities_keyed.order, fun r => by unfold hashPayload; omega, by decide, by decide,
    by decide, rfl, rfl, by decide, by decide, ?_, ?_⟩
  · exact ⟨VectorAppend fresh4 [5, 0, 0, 0], by simp [payloadTwice], by decide⟩
  · exact ⟨VectorAppend fresh4 [5, 1, 0, 0], by simp [payloadTwice], by decide⟩

/-- C20: after `n` calls of `VectorAppend` on a vector created with effective
capacity `c`, `allocLength` is `c * 2 ^ k` for the least `k` with
`n ≤ c * 2 ^ k`; so it is `c` while `n ≤ c`, and it is below
`2 * max n c`. -/
theorem C20_capacity_after_appends (elemSize initialAllocation : Int) (freeFn : Bool)
    (v0 : vector) (hnew : VectorNew elemSize freeFn initialAllocation = some v0)
    (rs : List Record) :
    ((v0.allocLength : Int) = if initialAllocation = 0 then 4 else initialAllocation) ∧
      0 < v0.allocLength ∧
      ∃ k, (rs.foldl VectorAppend v0).allocLength = v0.allocLength * 2 ^ k ∧
        rs.length ≤ v0.allocLength * 2 ^ k ∧
        (∀ j, j < k → v0.allocLength * 2 ^ j < rs.length) ∧
        (rs.length ≤ v0.allocLength → (rs.foldl VectorAppend v0).allocLength = v0.allocLength) ∧
        (rs.foldl VectorAppend v0).allocLength < 2 * max rs.length v0.allocLength := by
  have hwf := VectorNew_WF _ _ _ _ hnew
  have hlog0 := (VectorNew_fields _ _ _ _ hnew).1
  have hc := hwf.alloc_pos
  obtain ⟨k, h1, h2, h3, h4⟩ := appends_capacity v0.allocLength hc rs v0 0 (by simp)
    hwf.log_le (by intro j hj; omega)
  rw [hlog0, Nat.zero_add] at h2
  rw [h2] at h3 h4
  refine ⟨VectorNew_allocLength _ _ _ _ hnew, hc, k, h1, by rw [← h1]; exact h3, h4, ?_, ?_⟩
  · intro hle
    cases k with
    | zero => rw [h1]; simp
    | succ k =>
      have := h4 0 (by omega)
      simp at this
      omega
  · rw [h1]
    cases k with
    | zero =>
      simp only [Nat.pow_zero, Nat.mul_one]
      have := Nat.le_max_right rs.length v0.allocLength
      omega
    | succ k =>
      have hk := h4 k (by omega)
      have := Nat.le_max_left rs.length v0.allocLength
      rw [Nat.pow_succ, ← Nat.mul_assoc]
      omega

/-- Witness of C20: capacity 4 and five appends give capacity 8. -/
theorem C20_capacity_after_appends_witness :
    VectorNew 4 false 4 = some fresh4 ∧
    ([int32 1, int32 2, int32 3, int32 4, int32 5].foldl VectorAppend fresh4).allocLength = 8 ∧
    (((fresh4.allocLength : Int) = if (4 : Int) = 0 then 4 else 4) ∧
      0 < fresh4.allocLength ∧
      ∃ k, ([int32 1, int32 2, int32 3, int32 4, int32 5].foldl VectorAppend fresh4).allocLength
          = fresh4.allocLength * 2 ^ k ∧
        [int32 1, int32 2, int32 3, int32 4, int32 5].length ≤ fresh4.allocLength * 2 ^ k ∧
        (∀ j, j < k →
          fresh4.allocLength * 2 ^ j < [int32 1, int32 2, int32 3, int32 4, int32 5].length) ∧
        ([int32 1, int32 2, int32 3, int32 4, int32 5].length ≤ fresh4.allocLength →
          ([int32 1, int32 2, int32 3, int32 4, int32 5].foldl VectorAppend fresh4).allocLength
            = fresh4.allocLength) ∧
        ([int32 1, int32 2, int32 3, int32 4, int32 5].foldl VectorAppend fresh4).allocLength
          < 2 * max [int32 1, int32 2, int32 3, int32 4, int32 5].length fresh4.allocLength) :=
  ⟨by decide, by decide,
   C20_capacity_after_appends 4 4 false fresh4 (by decide)
     [int32 1, int32 2, int32 3, int32 4, int32 5]⟩

end GenericC
